import Mathlib

/-! Street-map routing: the coordinate index, the street map, the point-to-point router
and the delivery optimizer.

A shallow embedding of `ExpandableHashMap.h`, `StreetMap.cpp`, `PointToPointRouter.cpp`
and `DeliveryOptimizer.cpp`, followed by theorems about the embedded code.

Modelling conventions.

* A bucket array `Node**` is a list of chains; a chain (`Node*` linked through
  `next`) is the list of its nodes in link order.
* C++ `int` fields are `Nat` for the counters that only start at a non-negative
  constant and grow, and `Int` for the result of the `(int)` cast.  `construct`,
  `reset`, `expandHashMap` and `associate` compute in unbounded arithmetic;
  `constructChecked`, `resetChecked`, `expandHashMapChecked` and `associateChecked` are
  the same functions with the range of `int` taken into account: their result is `none`
  where the source overflows an `int` or converts a `double` outside the range of `int`
  (undefined behaviour), and the result of the unbounded function otherwise.  `Defined`
  are the states reached through calls that are defined in this sense.
* A `double` is an exact rational number.  The only products the hash map forms are
  `m_maxLoadFactor * numBuckets`; the `(int)` cast truncates toward zero.
* The free function `hasher` that `getBucketNumber` resolves for the key type is
  passed as an explicit argument.
* `provided.h` is not among the sources: `GeoCoord`, `StreetSegment` and
  `DeliveryResult` are modelled from the specification, and the library functions
  `std::hash<string>` and `distanceEarthMiles` are arguments (`stdHash`,
  `distanceEarthMiles`, the latter exact-valued).
* Parsing of the map file is outside the model: `load` takes the parsed segment records.
* Every loop of the router takes a step budget `fuel`; a run ends in `Run.done`, in
  `Run.fault` (undefined behaviour of the source) or in `Run.timeout` (budget used up).
  The predecessor map `*m_path`, which the `const` member functions modify through the
  pointer, is passed in and returned.
* Loop counts are ghost values: `searchLoopTrace` and `recreateLoopSteps` are the loops
  of the router with counters of the executions of their bodies, and are proved to give
  the results of `searchLoop` and `recreateLoop` when the counters are dropped.
-/

/-- The constant `DEFAULT_NUM_BUCKETS` of `ExpandableHashMap.h`. -/
def DEFAULT_NUM_BUCKETS : Nat := 8

/-- The value of the C++ conversion `(int) x` of an exact value where the conversion is
defined: truncation toward zero.  The conversion with its domain is `castToInt`. -/
def truncToInt (q : ℚ) : Int := Int.tdiv q.num q.den

/-- The private `struct Node` of `ExpandableHashMap`; the `next` pointer is the tail of
the chain the node is stored in. -/
structure Node (K V : Type) where
  key : K
  value : V
deriving DecidableEq, Repr

/-- The data members of `ExpandableHashMap<KeyType, ValueType>`. -/
structure ExpandableHashMap (K V : Type) where
  m_maxLoadFactor : ℚ
  m_numBuckets : Nat
  m_maxNumItems : Int
  m_numItems : Nat
  m_hashMap : List (List (Node K V))
deriving DecidableEq

namespace ExpandableHashMap

variable {K V : Type} [DecidableEq K]

/-- `getBucketNumber(key, numBuckets)`: `hasher(key) % numBuckets`. -/
def getBucketNumber (hasher : K → Nat) (key : K) (numBuckets : Nat) : Nat :=
  hasher key % numBuckets

/-- The constructor `ExpandableHashMap(double maximumLoadFactor)`: a negative load factor
is replaced by `0.5`; 8 empty buckets, no items.  The cast is taken in unbounded
arithmetic; `constructChecked` is the constructor with the range of `int`. -/
def construct (maximumLoadFactor : ℚ) : ExpandableHashMap K V :=
  let lf : ℚ := if maximumLoadFactor < 0 then 1 / 2 else maximumLoadFactor
  { m_maxLoadFactor := lf
    m_numBuckets := DEFAULT_NUM_BUCKETS
    m_maxNumItems := truncToInt (lf * (DEFAULT_NUM_BUCKETS : ℚ))
    m_numItems := 0
    m_hashMap := List.replicate DEFAULT_NUM_BUCKETS [] }

/-- `reset()`: all nodes are freed, the bucket array is reallocated with 8 empty buckets,
the maximum load factor stays.  The cast is taken in unbounded arithmetic; `resetChecked`
is `reset` with the range of `int`. -/
def reset (m : ExpandableHashMap K V) : ExpandableHashMap K V :=
  { m_maxLoadFactor := m.m_maxLoadFactor
    m_numBuckets := DEFAULT_NUM_BUCKETS
    m_maxNumItems := truncToInt (m.m_maxLoadFactor * (DEFAULT_NUM_BUCKETS : ℚ))
    m_numItems := 0
    m_hashMap := List.replicate DEFAULT_NUM_BUCKETS [] }

/-- `size()`: the number of associations (the printing is not modelled). -/
def size (m : ExpandableHashMap K V) : Nat := m.m_numItems

/-- The chain scan of `find`: the value of the first node whose key equals `key`. -/
def findNode (key : K) : List (Node K V) → Option V
  | [] => none
  | cur :: next => if cur.key = key then some cur.value else findNode key next

/-- `find(key)`: scan the chain of the key's bucket; `none` is `nullptr`. -/
def find (hasher : K → Nat) (m : ExpandableHashMap K V) (key : K) : Option V :=
  findNode key (m.m_hashMap.getD (getBucketNumber hasher key m.m_numBuckets) [])

/-- A store through the pointer that the chain scan of `find` returns: the value of the
first node whose key equals `key` is replaced. -/
def storeNode (key : K) (f : V → V) : List (Node K V) → List (Node K V)
  | [] => []
  | cur :: next =>
    if cur.key = key then { key := cur.key, value := f cur.value } :: next
    else cur :: storeNode key f next

/-- A write `*find(key) = f (*find(key))` through the modifiable pointer returned by the
non-const `find`; nothing else of the map is touched. -/
def modifyValue (hasher : K → Nat) (m : ExpandableHashMap K V) (key : K) (f : V → V) :
    ExpandableHashMap K V :=
  let bucketNum := getBucketNumber hasher key m.m_numBuckets
  { m with m_hashMap :=
      m.m_hashMap.set bucketNum (storeNode key f (m.m_hashMap.getD bucketNum [])) }

/-- The walk `while (cur->next != nullptr) cur = cur->next;` followed by linking the new
node after the final node (or as the first node of an empty bucket). -/
def appendAtEnd (n : Node K V) : List (Node K V) → List (Node K V)
  | [] => [n]
  | cur :: next => cur :: appendAtEnd n next

/-- The body of the inner `while` loop of `expandHashMap`: node `cur` of the old map is
copied into the new bucket array `st.1`; `st.2` is `m_numItems`. -/
def rehashNode (hasher : K → Nat) (newNumBuckets : Nat)
    (st : List (List (Node K V)) × Nat) (cur : Node K V) : List (List (Node K V)) × Nat :=
  let bucket := getBucketNumber hasher cur.key newNumBuckets
  match st.1.getD bucket [] with
  | [] => (st.1.set bucket [{ key := cur.key, value := cur.value }], st.2 + 1)
  | head :: rest =>
    if head.key = cur.key then
      (st.1.set bucket ({ key := head.key, value := cur.value } :: rest), st.2)
    else
      (st.1.set bucket (appendAtEnd { key := cur.key, value := cur.value } (head :: rest)),
        st.2 + 1)

/-- `expandHashMap()`: twice as many buckets, every node of every old bucket (bucket
order, then chain order) rehashed into the new array.  The doubling and the cast are taken
in unbounded arithmetic; `expandHashMapChecked` is the function with the range of `int`. -/
def expandHashMap (hasher : K → Nat) (m : ExpandableHashMap K V) : ExpandableHashMap K V :=
  let newNumBuckets := m.m_numBuckets * 2
  let st := (List.range m.m_numBuckets).foldl
    (fun st i => (m.m_hashMap.getD i []).foldl (rehashNode hasher newNumBuckets) st)
    (List.replicate newNumBuckets [], 0)
  { m_maxLoadFactor := m.m_maxLoadFactor
    m_numBuckets := newNumBuckets
    m_maxNumItems := truncToInt (m.m_maxLoadFactor * (newNumBuckets : ℚ))
    m_numItems := st.2
    m_hashMap := st.1 }

/-- `associateHelper(k, v)`: update the value when `find` succeeds; otherwise expand if
`m_numItems + 1 > m_maxNumItems`, then link a new node at the end of the key's chain.  The
counters are unbounded; `associateHelperChecked` is the function with the range of `int`. -/
def associateHelper (hasher : K → Nat) (m : ExpandableHashMap K V) (k : K) (v : V) :
    ExpandableHashMap K V :=
  match find hasher m k with
  | some _ => modifyValue hasher m k (fun _ => v)
  | none =>
    let m1 := if (m.m_numItems : Int) + 1 > m.m_maxNumItems then expandHashMap hasher m else m
    let bucketNum := getBucketNumber hasher k m1.m_numBuckets
    { m1 with
      m_hashMap := m1.m_hashMap.set bucketNum
        (appendAtEnd { key := k, value := v } (m1.m_hashMap.getD bucketNum []))
      m_numItems := m1.m_numItems + 1 }

/-- `associate(key, value)` delegates to `associateHelper`. -/
def associate (hasher : K → Nat) (m : ExpandableHashMap K V) (key : K) (value : V) :
    ExpandableHashMap K V :=
  associateHelper hasher m key value

/-- The map after a sequence of `associate` calls, in order. -/
def associateAll (hasher : K → Nat) (m : ExpandableHashMap K V) (ops : List (K × V)) :
    ExpandableHashMap K V :=
  ops.foldl (fun acc op => associate hasher acc op.1 op.2) m

/-- The states of a map that a client can produce: construction, `reset`, `associate`, and
writes through the pointer returned by the non-const `find`. -/
inductive Reachable (hasher : K → Nat) : ExpandableHashMap K V → Prop
  | construct (maximumLoadFactor : ℚ) : Reachable hasher (construct maximumLoadFactor)
  | reset {m : ExpandableHashMap K V} : Reachable hasher m → Reachable hasher (reset m)
  | associate {m : ExpandableHashMap K V} (key : K) (value : V) :
      Reachable hasher m → Reachable hasher (associate hasher m key value)
  | modifyValue {m : ExpandableHashMap K V} (key : K) (f : V → V) :
      Reachable hasher m → Reachable hasher (modifyValue hasher m key f)

/-- The keys of a bucket array, bucket by bucket in chain order. -/
def chainKeys (buckets : List (List (Node K V))) : List (List K) :=
  buckets.map (fun chain => chain.map Node.key)

/-- The value named by the claim "the last `associate` call whose key equals `k`":
scanning the calls in order, a later call with key `k` replaces an earlier one. -/
def lastAssociated (ops : List (K × V)) (k : K) : Option V :=
  ops.foldl (fun acc op => if op.1 = k then some op.2 else acc) none

/-- The chain scan of `find` over a bare bucket array with `numBuckets` buckets. -/
def tableFind (hasher : K → Nat) (numBuckets : Nat) (buckets : List (List (Node K V)))
    (key : K) : Option V :=
  findNode key (buckets.getD (hasher key % numBuckets) [])

/-- The total number of nodes of a bucket array. -/
def totalNodes (buckets : List (List (Node K V))) : Nat :=
  (buckets.map List.length).sum

/-- A bucket array of `numBuckets` chains in which every node sits in the bucket of its
key and no chain repeats a key. -/
structure TableOK (hasher : K → Nat) (numBuckets : Nat)
    (buckets : List (List (Node K V))) : Prop where
  len : buckets.length = numBuckets
  pos : 0 < numBuckets
  bucket : ∀ i, ∀ n ∈ buckets.getD i [], hasher n.key % numBuckets = i
  nodup : ∀ i, ((buckets.getD i []).map Node.key).Nodup

/-- The structural invariant of the map: a well-placed, duplicate-free bucket array of
`m_numBuckets = 8 * 2^k` chains, `m_numItems` counting its nodes, and
`m_maxNumItems = (int)(m_maxLoadFactor * m_numBuckets)` for a non-negative load factor. -/
structure WF (hasher : K → Nat) (m : ExpandableHashMap K V) : Prop where
  table : TableOK hasher m.m_numBuckets m.m_hashMap
  count : m.m_numItems = totalNodes m.m_hashMap
  pow : ∃ k : Nat, m.m_numBuckets = 8 * 2 ^ k
  maxItems : m.m_maxNumItems = truncToInt (m.m_maxLoadFactor * (m.m_numBuckets : ℚ))
  lf : 0 ≤ m.m_maxLoadFactor

end ExpandableHashMap

namespace ExpandableHashMap

/-- A concrete map with keys and values in `Nat`, hashed by the key itself: four
associations in a map with the default load factor `0.5`, which is then at its maximum
item count `4`. -/
def fourItems : ExpandableHashMap Nat Nat :=
  associateAll (fun k => k) (construct (1 / 2)) [(1, 10), (9, 90), (3, 30), (4, 40)]

end ExpandableHashMap

/-! ### `StreetMap.cpp` -/

/-- Modelled from the spec: `GeoCoord` is declared in `provided.h`, which is not among the
sources.  A coordinate is its two textual components, and two coordinates are equal
exactly when these texts are equal. -/
structure GeoCoord where
  latitudeText : String
  longitudeText : String
deriving DecidableEq, Repr

/-- Modelled from the spec: `StreetSegment` is declared in `provided.h`: a directed edge
with a start coordinate, an end coordinate and a street name. -/
structure StreetSegment where
  start : GeoCoord
  end_ : GeoCoord
  name : String
deriving DecidableEq, Repr

/-- One parsed segment line of the map file together with the street name in force when it
was read: the three values from which `load` builds `segment` and `reverseS`. -/
structure SegmentRecord where
  start : GeoCoord
  end_ : GeoCoord
  name : String
deriving DecidableEq, Repr

/-- `hasher(const GeoCoord&)`: `std::hash<string>` of the concatenated texts, converted to
`unsigned int`.  The library hash `stdHash` is an argument. -/
def hasher (stdHash : String → Nat) (g : GeoCoord) : Nat :=
  stdHash (g.latitudeText ++ g.longitudeText) % 2 ^ 32

/-- The data member of `StreetMapImpl`. -/
structure StreetMapImpl where
  m_hashMap : ExpandableHashMap GeoCoord (List StreetSegment)
deriving DecidableEq

namespace StreetMapImpl

/-- The constructor `StreetMapImpl()`: a new hash map with the default load factor `0.5`. -/
def construct : StreetMapImpl :=
  { m_hashMap := ExpandableHashMap.construct (1 / 2) }

/-- `addToHashMap(g, s)`: push `s` onto the vector found for `g`, or associate `g` with a
new one-element vector. -/
def addToHashMap (stdHash : String → Nat) (sm : StreetMapImpl) (g : GeoCoord)
    (s : StreetSegment) : StreetMapImpl :=
  match ExpandableHashMap.find (hasher stdHash) sm.m_hashMap g with
  | some _ =>
    { m_hashMap := ExpandableHashMap.modifyValue (hasher stdHash) sm.m_hashMap g
        (fun v => v ++ [s]) }
  | none =>
    { m_hashMap := ExpandableHashMap.associate (hasher stdHash) sm.m_hashMap g [s] }

/-- The part of the body of the read loop of `load` that follows the parsing of a segment
line: the segment is added under its start and the reversed segment under its end. -/
def addRecord (stdHash : String → Nat) (sm : StreetMapImpl) (r : SegmentRecord) :
    StreetMapImpl :=
  let segment : StreetSegment := { start := r.start, end_ := r.end_, name := r.name }
  let reverseS : StreetSegment := { start := r.end_, end_ := r.start, name := r.name }
  addToHashMap stdHash (addToHashMap stdHash sm r.start segment) r.end_ reverseS

/-- `load` on a readable file whose segment lines parse to `records`, in file order: the
hash map is reset and every record is added. -/
def load (stdHash : String → Nat) (sm : StreetMapImpl) (records : List SegmentRecord) :
    StreetMapImpl :=
  records.foldl (addRecord stdHash) { m_hashMap := ExpandableHashMap.reset sm.m_hashMap }

/-- `getSegmentsThatStartWith(gc, segs)`: the returned flag and the content of `segs`
afterwards.  When the coordinate is found, `segs` is emptied and every segment of the
found vector is pushed onto it. -/
def getSegmentsThatStartWith (stdHash : String → Nat) (sm : StreetMapImpl) (gc : GeoCoord)
    (segs : List StreetSegment) : Bool × List StreetSegment :=
  match ExpandableHashMap.find (hasher stdHash) sm.m_hashMap gc with
  | none => (false, segs)
  | some v => (true, v.foldl (fun acc seg => acc ++ [seg]) [])

/-- The street maps a client can hold: a constructed one, loaded any number of times. -/
inductive Reachable (stdHash : String → Nat) : StreetMapImpl → Prop
  | construct : Reachable stdHash construct
  | load {sm : StreetMapImpl} (records : List SegmentRecord) :
      Reachable stdHash sm → Reachable stdHash (load stdHash sm records)

/-- The list named by the claims about the index: in record order, each record's forward
segment if the record starts at `c`, then its reverse segment if the record ends at `c`. -/
def segmentsAt (c : GeoCoord) : List SegmentRecord → List StreetSegment
  | [] => []
  | r :: rest =>
    (if r.start = c then [{ start := r.start, end_ := r.end_, name := r.name }] else [])
      ++ (if r.end_ = c then [{ start := r.end_, end_ := r.start, name := r.name }] else [])
      ++ segmentsAt c rest

end StreetMapImpl

namespace StreetMapImpl

/-- The index holds exactly the lists `E`: the hash map is well formed and `find c` is
not-found when `E c` is empty and `E c` otherwise. -/
def Indexes (stdHash : String → Nat) (sm : StreetMapImpl)
    (E : GeoCoord → List StreetSegment) : Prop :=
  ExpandableHashMap.WF (hasher stdHash) sm.m_hashMap ∧
  ∀ c, ExpandableHashMap.find (hasher stdHash) sm.m_hashMap c
    = if E c = [] then none else some (E c)

/-- Two coordinates and a street for concrete street maps. -/
def coordA : GeoCoord := { latitudeText := "34.05", longitudeText := "-118.47" }

/-- A second concrete coordinate. -/
def coordB : GeoCoord := { latitudeText := "34.06", longitudeText := "-118.48" }

/-- A third concrete coordinate. -/
def coordC : GeoCoord := { latitudeText := "34.07", longitudeText := "-118.49" }

/-- A concrete library hash: the length of the string. -/
def lengthHash (s : String) : Nat := s.length

/-- Two concrete records, `A - B` on "Main" and `B - C` on "Oak". -/
def sampleRecords : List SegmentRecord :=
  [{ start := coordA, end_ := coordB, name := "Main" },
   { start := coordB, end_ := coordC, name := "Oak" }]

end StreetMapImpl

/-! ### `PointToPointRouter.cpp` -/

/-- Modelled from the spec: the enumeration `DeliveryResult` of `provided.h`; `BAD_COORD`
is the spec's `NotRoutable`, `NO_ROUTE` its `NoRoute`. -/
inductive DeliveryResult where
  | DELIVERY_SUCCESS
  | NO_ROUTE
  | BAD_COORD
deriving DecidableEq, Repr

/-- The outcome of running code that contains loops for a bounded number of steps: a
result, undefined behaviour (a null pointer dereferenced, a vector indexed out of range),
or the step budget used up. -/
inductive Run (α : Type) where
  | done (a : α)
  | fault
  | timeout
deriving DecidableEq, Repr

/-- What `findOptimalRoute` leaves behind: its return value, the two reference parameters
and the predecessor map `*m_path`. -/
structure SearchResult where
  found : Bool
  route : List StreetSegment
  totalDistanceTravelled : ℚ
  m_path : ExpandableHashMap GeoCoord GeoCoord
deriving DecidableEq

/-- What `generatePointToPointRoute` leaves behind: the result code, the two reference
parameters and the predecessor map `*m_path`. -/
structure RouteOutput where
  result : DeliveryResult
  route : List StreetSegment
  totalDistanceTravelled : ℚ
  m_path : ExpandableHashMap GeoCoord GeoCoord
deriving DecidableEq

/-- The local state of the search loop of `findOptimalRoute`: the queue `toDo`, the set
`explored` (as the list of its elements in insertion order) and `*m_path`. -/
structure SearchState where
  toDo : List GeoCoord
  explored : List GeoCoord
  m_path : ExpandableHashMap GeoCoord GeoCoord
deriving DecidableEq

namespace PointToPointRouterImpl

/-- `adjacentSegs[i]` for an `int` index; `none` when the index is out of range. -/
def vectorAt (adjacentSegs : List StreetSegment) (i : Int) : Option StreetSegment :=
  if 0 ≤ i then adjacentSegs[i.toNat]? else none

/-- `swapSegInVector(adjacentSegs, index1, index2)`. -/
def swapSegInVector (adjacentSegs : List StreetSegment) (index1 index2 : Int) :
    Run (List StreetSegment) :=
  match vectorAt adjacentSegs index1, vectorAt adjacentSegs index2 with
  | some temp, some other =>
    Run.done ((adjacentSegs.set index1.toNat other).set index2.toNat temp)
  | _, _ => Run.fault

/-- The first inner loop of `partition`:
`while (low <= high && dist(segs[low].end, end) <= dist(pivot, end)) low++;`. -/
def advanceLow (distanceEarthMiles : GeoCoord → GeoCoord → ℚ) (end_ : GeoCoord)
    (adjacentSegs : List StreetSegment) (pivot : GeoCoord) (high : Int) :
    Nat → Int → Run Int
  | 0, _ => Run.timeout
  | fuel + 1, low =>
    if low ≤ high then
      match vectorAt adjacentSegs low with
      | none => Run.fault
      | some seg =>
        if distanceEarthMiles seg.end_ end_ ≤ distanceEarthMiles pivot end_ then
          advanceLow distanceEarthMiles end_ adjacentSegs pivot high fuel (low + 1)
        else Run.done low
    else Run.done low

/-- The second inner loop of `partition`:
`while (dist(segs[high].end, end) > dist(pivot, end)) high--;`. -/
def retreatHigh (distanceEarthMiles : GeoCoord → GeoCoord → ℚ) (end_ : GeoCoord)
    (adjacentSegs : List StreetSegment) (pivot : GeoCoord) : Nat → Int → Run Int
  | 0, _ => Run.timeout
  | fuel + 1, high =>
    match vectorAt adjacentSegs high with
    | none => Run.fault
    | some seg =>
      if distanceEarthMiles seg.end_ end_ > distanceEarthMiles pivot end_ then
        retreatHigh distanceEarthMiles end_ adjacentSegs pivot fuel (high - 1)
      else Run.done high

/-- The `do ... while (low < high)` loop of `partition`; the result is the vector with the
final `low` and `high`. -/
def partitionLoop (distanceEarthMiles : GeoCoord → GeoCoord → ℚ) (end_ : GeoCoord)
    (pivot : GeoCoord) : Nat → List StreetSegment → Int → Int →
    Run (List StreetSegment × Int × Int)
  | 0, _, _, _ => Run.timeout
  | fuel + 1, adjacentSegs, low, high =>
    match advanceLow distanceEarthMiles end_ adjacentSegs pivot high fuel low with
    | Run.fault => Run.fault
    | Run.timeout => Run.timeout
    | Run.done low1 =>
      match retreatHigh distanceEarthMiles end_ adjacentSegs pivot fuel high with
      | Run.fault => Run.fault
      | Run.timeout => Run.timeout
      | Run.done high1 =>
        if low1 < high1 then
          match swapSegInVector adjacentSegs low1 high1 with
          | Run.done swapped =>
            partitionLoop distanceEarthMiles end_ pivot fuel swapped low1 high1
          | Run.fault => Run.fault
          | Run.timeout => Run.timeout
        else Run.done (adjacentSegs, low1, high1)

/-- `partition(adjacentSegs, low, high, end)`: the vector afterwards and the returned pivot
index. -/
def partition (distanceEarthMiles : GeoCoord → GeoCoord → ℚ) (fuel : Nat)
    (adjacentSegs : List StreetSegment) (low high : Int) (end_ : GeoCoord) :
    Run (List StreetSegment × Int) :=
  let pi := low
  match vectorAt adjacentSegs low with
  | none => Run.fault
  | some seg =>
    let pivot := seg.end_
    match partitionLoop distanceEarthMiles end_ pivot fuel adjacentSegs low high with
    | Run.fault => Run.fault
    | Run.timeout => Run.timeout
    | Run.done (segs1, _, high1) =>
      match swapSegInVector segs1 pi high1 with
      | Run.done segs2 => Run.done (segs2, high1)
      | Run.fault => Run.fault
      | Run.timeout => Run.timeout

/-- `sortSegments(adjacentSegs, first, last, end)`: the vector afterwards. -/
def sortSegments (distanceEarthMiles : GeoCoord → GeoCoord → ℚ) :
    Nat → List StreetSegment → Int → Int → GeoCoord → Run (List StreetSegment)
  | 0, _, _, _, _ => Run.timeout
  | fuel + 1, adjacentSegs, first, last, end_ =>
    if last - first ≤ 1 then Run.done adjacentSegs
    else
      match partition distanceEarthMiles fuel adjacentSegs first last end_ with
      | Run.fault => Run.fault
      | Run.timeout => Run.timeout
      | Run.done (segs1, pivotIndex) =>
        match sortSegments distanceEarthMiles fuel segs1 first (pivotIndex - 1) end_ with
        | Run.fault => Run.fault
        | Run.timeout => Run.timeout
        | Run.done segs2 =>
          sortSegments distanceEarthMiles fuel segs2 (pivotIndex + 1) last end_

/-- The body of the `for` loop of `findOptimalRoute` (the same statements as the member
function `explore`): an end coordinate that is not yet explored is queued, marked explored
and associated with the segment's start in `*m_path`. -/
def explore (stdHash : String → Nat) (st : SearchState) (seg : StreetSegment) : SearchState :=
  let start := seg.start
  let end_ := seg.end_
  if end_ ∈ st.explored then st
  else
    { toDo := st.toDo ++ [end_]
      explored := st.explored ++ [end_]
      m_path := ExpandableHashMap.associate (hasher stdHash) st.m_path end_ start }

/-- The `for` loop with `break` of `recreateRouteHistory`: the name of the first segment
that runs from `startingG` to `endingG`, or `streetName` unchanged when there is none. -/
def matchStreetName (endingG startingG : GeoCoord) (streetName : String) :
    List StreetSegment → String
  | [] => streetName
  | seg :: rest =>
    if endingG = seg.end_ ∧ startingG = seg.start then seg.name
    else matchStreetName endingG startingG streetName rest

/-- The `while (*endingG != start)` loop of `recreateRouteHistory`.  `startingG` is the
pointer returned by `m_path->find`; dereferencing it when it is null is a fault. -/
def recreateLoop (stdHash : String → Nat) (distanceEarthMiles : GeoCoord → GeoCoord → ℚ)
    (sm : StreetMapImpl) (m_path : ExpandableHashMap GeoCoord GeoCoord) (start : GeoCoord) :
    Nat → GeoCoord → Option GeoCoord → List StreetSegment → String → List StreetSegment → ℚ →
    Run (List StreetSegment × ℚ)
  | 0, _, _, _, _, _, _ => Run.timeout
  | fuel + 1, endingG, startingG, possibleSegs, streetName, route, totalDistanceTravelled =>
    if endingG = start then Run.done (route, totalDistanceTravelled)
    else
      match startingG with
      | none => Run.fault
      | some sG =>
        let possibleSegs1 := (StreetMapImpl.getSegmentsThatStartWith stdHash sm sG possibleSegs).2
        let streetName1 := matchStreetName endingG sG streetName possibleSegs1
        if streetName1 = "" then Run.done (route, totalDistanceTravelled)
        else
          recreateLoop stdHash distanceEarthMiles sm m_path start fuel sG
            (ExpandableHashMap.find (hasher stdHash) m_path sG) possibleSegs1 streetName1
            ({ start := sG, end_ := endingG, name := streetName1 } :: route)
            (totalDistanceTravelled + distanceEarthMiles sG endingG)

/-- `recreateRouteHistory(route, start, end, totalDistanceTravelled)`: the route and the
distance afterwards. -/
def recreateRouteHistory (stdHash : String → Nat)
    (distanceEarthMiles : GeoCoord → GeoCoord → ℚ) (fuel : Nat) (sm : StreetMapImpl)
    (m_path : ExpandableHashMap GeoCoord GeoCoord) (route : List StreetSegment)
    (start end_ : GeoCoord) (totalDistanceTravelled : ℚ) : Run (List StreetSegment × ℚ) :=
  recreateLoop stdHash distanceEarthMiles sm m_path start fuel end_
    (ExpandableHashMap.find (hasher stdHash) m_path end_) [] "" route totalDistanceTravelled

/-- The `while (!toDo.empty())` loop of `findOptimalRoute`; `route` is the caller's list
as it was on entry. -/
def searchLoop (stdHash : String → Nat) (distanceEarthMiles : GeoCoord → GeoCoord → ℚ)
    (sm : StreetMapImpl) (start end_ : GeoCoord) (route : List StreetSegment) :
    Nat → SearchState → List StreetSegment → Run SearchResult
  | 0, _, _ => Run.timeout
  | fuel + 1, st, adjacentSegs =>
    match st.toDo with
    | [] =>
      Run.done { found := false, route := route, totalDistanceTravelled := 0,
                 m_path := st.m_path }
    | curr :: rest =>
      if curr = end_ then
        match recreateRouteHistory stdHash distanceEarthMiles fuel sm st.m_path [] start
            end_ 0 with
        | Run.done (route1, total1) =>
          Run.done { found := true, route := route1, totalDistanceTravelled := total1,
                     m_path := st.m_path }
        | Run.fault => Run.fault
        | Run.timeout => Run.timeout
      else
        let adjacentSegs1 :=
          (StreetMapImpl.getSegmentsThatStartWith stdHash sm curr adjacentSegs).2
        match sortSegments distanceEarthMiles fuel adjacentSegs1 0
            ((adjacentSegs1.length : Int) - 1) end_ with
        | Run.fault => Run.fault
        | Run.timeout => Run.timeout
        | Run.done sorted =>
          searchLoop stdHash distanceEarthMiles sm start end_ route fuel
            (sorted.foldl (explore stdHash)
              { toDo := rest, explored := st.explored, m_path := st.m_path })
            sorted

/-- `findOptimalRoute(start, end, route, totalDistanceTravelled)`. -/
def findOptimalRoute (stdHash : String → Nat) (distanceEarthMiles : GeoCoord → GeoCoord → ℚ)
    (fuel : Nat) (sm : StreetMapImpl) (m_path : ExpandableHashMap GeoCoord GeoCoord)
    (start end_ : GeoCoord) (route : List StreetSegment) : Run SearchResult :=
  searchLoop stdHash distanceEarthMiles sm start end_ route fuel
    { toDo := [start], explored := [start], m_path := m_path } []

/-- `generatePointToPointRoute(start, end, route, totalDistanceTravelled)` of a router over
the street map `sm` whose predecessor map is `m_path`. -/
def generatePointToPointRoute (stdHash : String → Nat)
    (distanceEarthMiles : GeoCoord → GeoCoord → ℚ) (fuel : Nat) (sm : StreetMapImpl)
    (m_path : ExpandableHashMap GeoCoord GeoCoord) (start end_ : GeoCoord)
    (route : List StreetSegment) (totalDistanceTravelled : ℚ) : Run RouteOutput :=
  if ¬ ((StreetMapImpl.getSegmentsThatStartWith stdHash sm start []).1
      && (StreetMapImpl.getSegmentsThatStartWith stdHash sm end_ []).1) then
    Run.done { result := DeliveryResult.BAD_COORD, route := route,
               totalDistanceTravelled := totalDistanceTravelled, m_path := m_path }
  else if start = end_ then
    Run.done { result := DeliveryResult.DELIVERY_SUCCESS, route := [],
               totalDistanceTravelled := 0, m_path := m_path }
  else
    match findOptimalRoute stdHash distanceEarthMiles fuel sm m_path start end_ route with
    | Run.done r =>
      Run.done { result := if r.found then DeliveryResult.DELIVERY_SUCCESS
                           else DeliveryResult.NO_ROUTE
                 route := r.route, totalDistanceTravelled := r.totalDistanceTravelled,
                 m_path := r.m_path }
    | Run.fault => Run.fault
    | Run.timeout => Run.timeout

/-- Path continuity of a segment sequence from `start` to `end_`: the first segment starts
at `start`, the last ends at `end_`, and each segment ends where the next one starts. -/
def Continuous (start end_ : GeoCoord) (route : List StreetSegment) : Prop :=
  (∀ s, route.head? = some s → s.start = start) ∧
  (∀ s, route.getLast? = some s → s.end_ = end_) ∧
  List.Chain' (fun a b : StreetSegment => a.end_ = b.start) route

/-- A concrete distance: `0` between equal coordinates and `1` otherwise. -/
def unitDistance (a b : GeoCoord) : ℚ := if a = b then 0 else 1

/-- Concrete records in which the first segment, `A - B`, has the empty street name. -/
def unnamedRecords : List SegmentRecord :=
  [{ start := StreetMapImpl.coordA, end_ := StreetMapImpl.coordB, name := "" },
   { start := StreetMapImpl.coordB, end_ := StreetMapImpl.coordC, name := "Main" }]

end PointToPointRouterImpl

namespace PointToPointRouterImpl

/-- A function applied to the result of a run. -/
def runMap {α β : Type} (f : α → β) : Run α → Run β
  | Run.done a => Run.done (f a)
  | Run.fault => Run.fault
  | Run.timeout => Run.timeout

/-- The segment list `route` leads from `x` to `y`: it is empty and `x = y`, or its first
segment starts at `x` and the rest leads from that segment's end to `y`. -/
def IsPath (x y : GeoCoord) : List StreetSegment → Prop
  | [] => x = y
  | s :: rest => s.start = x ∧ IsPath s.end_ y rest

/-- Every segment stored in the index carries a non-empty street name. -/
def NamesOK (stdHash : String → Nat) (sm : StreetMapImpl) : Prop :=
  ∀ c v, ExpandableHashMap.find (hasher stdHash) sm.m_hashMap c = some v →
    ∀ s ∈ v, s.name ≠ ""

/-- Every segment stored in the index under `c` starts at `c`. -/
def StartsOK (stdHash : String → Nat) (sm : StreetMapImpl) : Prop :=
  ∀ c v, ExpandableHashMap.find (hasher stdHash) sm.m_hashMap c = some v →
    ∀ s ∈ v, s.start = c

/-- The segment is stored in the index under its own start. -/
def SegOK (stdHash : String → Nat) (sm : StreetMapImpl) (s : StreetSegment) : Prop :=
  ∃ v, ExpandableHashMap.find (hasher stdHash) sm.m_hashMap s.start = some v ∧ s ∈ v

/-- The invariant of the search loop: the predecessor map is well formed, every queued
coordinate is explored, and every explored coordinate other than `start` has a predecessor
from which an indexed segment leads to it. -/
def SearchInv (stdHash : String → Nat) (sm : StreetMapImpl) (start : GeoCoord)
    (st : SearchState) : Prop :=
  ExpandableHashMap.WF (hasher stdHash) st.m_path ∧
  (∀ x ∈ st.toDo, x ∈ st.explored) ∧
  (∀ x ∈ st.explored, x ≠ start →
    ∃ s, SegOK stdHash sm s ∧ s.end_ = x ∧
      ExpandableHashMap.find (hasher stdHash) st.m_path x = some s.start)

end PointToPointRouterImpl

namespace PointToPointRouterImpl

/-- A concrete query: from `A` to `C` on the map loaded from `sampleRecords`, by a router
whose predecessor map is new, with a step budget of 10. -/
def sampleQuery : Run RouteOutput :=
  generatePointToPointRoute StreetMapImpl.lengthHash unitDistance 10
    (StreetMapImpl.load StreetMapImpl.lengthHash StreetMapImpl.construct
      StreetMapImpl.sampleRecords)
    (ExpandableHashMap.construct (1 / 2)) StreetMapImpl.coordA StreetMapImpl.coordC [] 0

/-- The output of `sampleQuery`. -/
def sampleOutput : RouteOutput :=
  match sampleQuery with
  | Run.done out => out
  | _ => { result := DeliveryResult.NO_ROUTE, route := [], totalDistanceTravelled := 0,
           m_path := ExpandableHashMap.construct (1 / 2) }

end PointToPointRouterImpl

namespace PointToPointRouterImpl

/-- The sum, over the segments of a route, of the point-to-point distance between the
segment's start and its end. -/
def routeDistance (distanceEarthMiles : GeoCoord → GeoCoord → ℚ)
    (route : List StreetSegment) : ℚ :=
  (route.map (fun s => distanceEarthMiles s.start s.end_)).sum

/-- The vector is in order of non-decreasing distance from the segments' ends to `target`. -/
def SortedByDistance (distanceEarthMiles : GeoCoord → GeoCoord → ℚ) (target : GeoCoord)
    (segs : List StreetSegment) : Prop :=
  List.Pairwise
    (fun a b => distanceEarthMiles a.end_ target ≤ distanceEarthMiles b.end_ target) segs

/-- The predecessor map of a newly constructed router:
`m_path = new ExpandableHashMap<GeoCoord, GeoCoord>` with the default load factor. -/
def constructPath : ExpandableHashMap GeoCoord GeoCoord :=
  ExpandableHashMap.construct (1 / 2)

/-- The predecessor map `*m_path` of a router after a sequence of queries, each given by
its start and end, issued one after the other; it is the map with which the search of the
next query starts. -/
def pathAfterQueries (stdHash : String → Nat) (distanceEarthMiles : GeoCoord → GeoCoord → ℚ)
    (fuel : Nat) (sm : StreetMapImpl) :
    ExpandableHashMap GeoCoord GeoCoord → List (GeoCoord × GeoCoord) →
    Run (ExpandableHashMap GeoCoord GeoCoord)
  | m_path, [] => Run.done m_path
  | m_path, query :: rest =>
    match generatePointToPointRoute stdHash distanceEarthMiles fuel sm m_path query.1 query.2
        [] 0 with
    | Run.done out => pathAfterQueries stdHash distanceEarthMiles fuel sm out.m_path rest
    | Run.fault => Run.fault
    | Run.timeout => Run.timeout

/-- A vector of two segments leaving `A`, the first ending at `B`, the second at `C`. -/
def twoSegments : List StreetSegment :=
  [{ start := StreetMapImpl.coordA, end_ := StreetMapImpl.coordB, name := "Main" },
   { start := StreetMapImpl.coordA, end_ := StreetMapImpl.coordC, name := "Oak" }]

end PointToPointRouterImpl

/-! ### `DeliveryOptimizer.cpp` -/

/-- Modelled from the spec: `DeliveryRequest` is declared in `provided.h`: the item to
deliver and the coordinate to deliver it to. -/
structure DeliveryRequest where
  item : String
  location : GeoCoord
deriving DecidableEq, Repr

/-- What `optimizeDeliveryOrder` leaves in its three reference parameters. -/
structure OptimizeOutput where
  deliveries : List DeliveryRequest
  oldCrowDistance : ℚ
  newCrowDistance : ℚ
deriving DecidableEq

namespace DeliveryOptimizerImpl

/-- The body of both `for` loops of `optimizeDeliveryOrder`: the distance from `prev` to
the delivery's location is added and `prev` becomes that location. -/
def addLeg (distanceEarthMiles : GeoCoord → GeoCoord → ℚ) (acc : ℚ × GeoCoord)
    (d : DeliveryRequest) : ℚ × GeoCoord :=
  (acc.1 + distanceEarthMiles acc.2 d.location, d.location)

set_option linter.unusedVariables false in
/-- `optimizeDeliveryOrder(depot, deliveries, oldCrowDistance, newCrowDistance)`: both
distances are reset to 0, the tour depot, deliveries in order, depot is summed into
`oldCrowDistance`, the reordering is commented out, and the same tour is summed into
`newCrowDistance`. -/
def optimizeDeliveryOrder (distanceEarthMiles : GeoCoord → GeoCoord → ℚ) (depot : GeoCoord)
    (deliveries : List DeliveryRequest) (oldCrowDistance newCrowDistance : ℚ) :
    OptimizeOutput :=
  let oldCrowDistance0 : ℚ := 0
  let newCrowDistance0 : ℚ := 0
  let st1 := deliveries.foldl (addLeg distanceEarthMiles) (oldCrowDistance0, depot)
  let oldCrowDistance1 := st1.1 + distanceEarthMiles st1.2 depot
  let st2 := deliveries.foldl (addLeg distanceEarthMiles) (newCrowDistance0, depot)
  let newCrowDistance1 := st2.1 + distanceEarthMiles st2.2 depot
  { deliveries := deliveries, oldCrowDistance := oldCrowDistance1,
    newCrowDistance := newCrowDistance1 }

/-- The consecutive pairs of a list of coordinates. -/
def legs : List GeoCoord → List (GeoCoord × GeoCoord)
  | a :: b :: rest => (a, b) :: legs (b :: rest)
  | _ => []

/-- The tour length named by the claim: `dist(depot, x1) + dist(x1, x2) + ... +
dist(xn, depot)`, which is `dist(depot, depot)` for the empty list. -/
def tourDistance (distanceEarthMiles : GeoCoord → GeoCoord → ℚ) (depot : GeoCoord)
    (xs : List GeoCoord) : ℚ :=
  ((legs (depot :: xs ++ [depot])).map (fun p => distanceEarthMiles p.1 p.2)).sum

/-- Two concrete delivery requests. -/
def sampleDeliveries : List DeliveryRequest :=
  [{ item := "tea", location := StreetMapImpl.coordB },
   { item := "milk", location := StreetMapImpl.coordC }]

end DeliveryOptimizerImpl

namespace PointToPointRouterImpl

/-- A sequence of indexed segments connects `x` to `y`: `y` is reachable from `x` in the
adjacency graph of the index. -/
def Connected (stdHash : String → Nat) (sm : StreetMapImpl) (x y : GeoCoord) : Prop :=
  ∃ route, IsPath x y route ∧ ∀ s ∈ route, SegOK stdHash sm s

/-- The segment is the first segment of the index entry of its start whose end is the
segment's end. -/
def FirstMatch (stdHash : String → Nat) (sm : StreetMapImpl) (s : StreetSegment) : Prop :=
  ∃ v, ExpandableHashMap.find (hasher stdHash) sm.m_hashMap s.start = some v ∧
    v.find? (fun t => decide (t.end_ = s.end_)) = some s

/-- The properties of a loaded index that the search relies on: segments are stored under
their start, their ends are known to the index and lie in the finite list `U`, and no
index entry is longer than `M`. -/
structure GoodMap (stdHash : String → Nat) (sm : StreetMapImpl) (U : List GeoCoord)
    (M : Nat) : Prop where
  starts : StartsOK stdHash sm
  endsKnown : ∀ c v, ExpandableHashMap.find (hasher stdHash) sm.m_hashMap c = some v →
    ∀ s ∈ v, ExpandableHashMap.find (hasher stdHash) sm.m_hashMap s.end_ ≠ none
  endsIn : ∀ c v, ExpandableHashMap.find (hasher stdHash) sm.m_hashMap c = some v →
    ∀ s ∈ v, s.end_ ∈ U
  bounded : ∀ c v, ExpandableHashMap.find (hasher stdHash) sm.m_hashMap c = some v →
    v.length ≤ M

/-- A coordinate whose expansion is complete: it is not the target, its level is at most
the current one, and the end of each of its indexed segments is explored, one level
further at most. -/
def Processed (stdHash : String → Nat) (sm : StreetMapImpl) (end_ : GeoCoord)
    (lvl : GeoCoord → Nat) (lev : Nat) (explored : List GeoCoord) (x : GeoCoord) : Prop :=
  x ≠ end_ ∧ lvl x ≤ lev ∧
  ∀ v, ExpandableHashMap.find (hasher stdHash) sm.m_hashMap x = some v →
    ∀ s ∈ v, s.end_ ∈ explored ∧ lvl s.end_ ≤ lvl x + 1

/-- The number of coordinates of `U` not yet explored plus the length of the queue: it
drops by one with every iteration of the search loop. -/
def searchMeasure (U : List GeoCoord) (st : SearchState) : Nat :=
  (U.filter (fun x => decide (x ∉ st.explored))).length + st.toDo.length

/-- The invariant of the breadth-first search, with `lvl` the number of segments on the
predecessor chain of an explored coordinate, `lev` the level of the coordinate being
expanded, and `cur` that coordinate while its segments are being explored. -/
structure BfsInv (stdHash : String → Nat) (sm : StreetMapImpl) (U : List GeoCoord)
    (start end_ : GeoCoord) (cur : Option GeoCoord) (lvl : GeoCoord → Nat) (lev : Nat)
    (st : SearchState) : Prop where
  wf : ExpandableHashMap.WF (hasher stdHash) st.m_path
  start_mem : start ∈ st.explored
  lvl_start : lvl start = 0
  cur_ok : ∀ c, cur = some c → c ∈ st.explored ∧ lvl c = lev
  queue : ∃ A B, st.toDo = A ++ B ∧ (∀ x ∈ A, lvl x = lev) ∧ (∀ x ∈ B, lvl x = lev + 1)
  todo_explored : ∀ x ∈ st.toDo, x ∈ st.explored
  lvl_le : ∀ x ∈ st.explored, lvl x ≤ lev + 1
  lvl_lt : ∀ x ∈ st.explored, lvl x < st.explored.length
  pred : ∀ x ∈ st.explored, x ≠ start →
    ∃ s, SegOK stdHash sm s ∧ s.end_ = x ∧
      ExpandableHashMap.find (hasher stdHash) st.m_path x = some s.start ∧
      s.start ∈ st.explored ∧ lvl x = lvl s.start + 1
  proc : ∀ x ∈ st.explored,
    x ∈ st.toDo ∨ cur = some x ∨ Processed stdHash sm end_ lvl lev st.explored x
  known : ∀ x ∈ st.explored,
    ExpandableHashMap.find (hasher stdHash) sm.m_hashMap x ≠ none
  size : st.explored.length + (U.filter (fun x => decide (x ∉ st.explored))).length
    ≤ U.length + 1

/-- The coordinates of a record sequence: every start and every end. -/
def coordsOf : List SegmentRecord → List GeoCoord
  | [] => []
  | r :: rest => r.start :: r.end_ :: coordsOf rest

/-- A step budget that is enough for every query on the map loaded from `recs`. -/
def searchBudget (recs : List SegmentRecord) : Nat := 6 * recs.length + 5

end PointToPointRouterImpl

namespace PointToPointRouterImpl

/-- What the search guarantees of a reported route on an index with non-empty names: it
leads from `start` to `end_`, each of its segments is the first match of the index entry
of its start, and no path of indexed segments from `start` to `end_` has fewer segments. -/
def RouteProps (stdHash : String → Nat) (sm : StreetMapImpl) (start end_ : GeoCoord)
    (route : List StreetSegment) : Prop :=
  IsPath start end_ route ∧
  (∀ t ∈ route, FirstMatch stdHash sm t ∧ SegOK stdHash sm t) ∧
  ∀ route', IsPath start end_ route' → (∀ s ∈ route', SegOK stdHash sm s) →
    route.length ≤ route'.length

end PointToPointRouterImpl

namespace PointToPointRouterImpl

/-- The records of the four-corner scenario, in order: `A - B "Main"`, `B - C "Main"`,
`A - D "Oak"`, `D - C "Oak"`. -/
def squareRecords (A B C D : GeoCoord) : List SegmentRecord :=
  [{ start := A, end_ := B, name := "Main" }, { start := B, end_ := C, name := "Main" },
   { start := A, end_ := D, name := "Oak" }, { start := D, end_ := C, name := "Oak" }]

/-- A fourth concrete coordinate. -/
def coordD : GeoCoord := { latitudeText := "34.08", longitudeText := "-118.50" }

/-- Concrete records of two streets that do not meet: `A - B "Main"` and `C - D "Oak"`. -/
def splitRecords : List SegmentRecord :=
  [{ start := StreetMapImpl.coordA, end_ := StreetMapImpl.coordB, name := "Main" },
   { start := StreetMapImpl.coordC, end_ := coordD, name := "Oak" }]

end PointToPointRouterImpl

namespace PointToPointRouterImpl

/-- A concrete vector of five segments leaving `A`; with `unitDistance` to the target `C`
the distances of their ends are `1, 0, 1, 0, 1`. -/
def fiveSegments : List StreetSegment :=
  [{ start := StreetMapImpl.coordA, end_ := coordD, name := "Elm" },
   { start := StreetMapImpl.coordA, end_ := StreetMapImpl.coordC, name := "Oak" },
   { start := StreetMapImpl.coordA, end_ := StreetMapImpl.coordB, name := "Main" },
   { start := StreetMapImpl.coordA, end_ := StreetMapImpl.coordC, name := "Pine" },
   { start := StreetMapImpl.coordA, end_ := coordD, name := "Ash" }]

end PointToPointRouterImpl

namespace PointToPointRouterImpl

/-- Two states of the search loop that run in step: the same queue and the same explored
set, and predecessor maps that hold the same predecessor, itself explored, for every
explored coordinate other than `start`.  What the maps hold for other coordinates is not
constrained. -/
structure SameSearch (stdHash : String → Nat) (start : GeoCoord) (st1 st2 : SearchState) :
    Prop where
  wf1 : ExpandableHashMap.WF (hasher stdHash) st1.m_path
  wf2 : ExpandableHashMap.WF (hasher stdHash) st2.m_path
  toDo_eq : st1.toDo = st2.toDo
  explored_eq : st1.explored = st2.explored
  todo_explored : ∀ x ∈ st1.toDo, x ∈ st1.explored
  agree : ∀ x ∈ st1.explored, x ≠ start →
    ExpandableHashMap.find (hasher stdHash) st1.m_path x
      = ExpandableHashMap.find (hasher stdHash) st2.m_path x ∧
    ∃ p ∈ st1.explored, ExpandableHashMap.find (hasher stdHash) st1.m_path x = some p

/-- The part of a search result and of a query's output that the caller receives. -/
def searchOutcome (r : SearchResult) : Bool × List StreetSegment × ℚ :=
  (r.found, r.route, r.totalDistanceTravelled)

/-- The result code, the route and the distance of a query's output. -/
def routeOutcome (out : RouteOutput) : DeliveryResult × List StreetSegment × ℚ :=
  (out.result, out.route, out.totalDistanceTravelled)

end PointToPointRouterImpl

namespace PointToPointRouterImpl

/-- A predecessor map left over from earlier activity, with entries that mislead: `C`
after `A`, `B` after `C`, `A` after `B`. -/
def stalePath : ExpandableHashMap GeoCoord GeoCoord :=
  ExpandableHashMap.associateAll (hasher StreetMapImpl.lengthHash) constructPath
    [(StreetMapImpl.coordC, StreetMapImpl.coordA), (StreetMapImpl.coordB, StreetMapImpl.coordC),
     (StreetMapImpl.coordA, StreetMapImpl.coordB)]

end PointToPointRouterImpl

namespace PointToPointRouterImpl

/-- `recreateLoop` with a ghost counter: `steps` is the number of executions of the body
of the `while (*endingG != start)` loop so far (an execution that ends in the early
`return` counts); the result is paired with the final count. -/
def recreateLoopSteps (stdHash : String → Nat) (distanceEarthMiles : GeoCoord → GeoCoord → ℚ)
    (sm : StreetMapImpl) (m_path : ExpandableHashMap GeoCoord GeoCoord) (start : GeoCoord) :
    Nat → GeoCoord → Option GeoCoord → List StreetSegment → String → List StreetSegment → ℚ →
    Nat → Run ((List StreetSegment × ℚ) × Nat)
  | 0, _, _, _, _, _, _, _ => Run.timeout
  | fuel + 1, endingG, startingG, possibleSegs, streetName, route, totalDistanceTravelled,
      steps =>
    if endingG = start then Run.done ((route, totalDistanceTravelled), steps)
    else
      match startingG with
      | none => Run.fault
      | some sG =>
        let possibleSegs1 := (StreetMapImpl.getSegmentsThatStartWith stdHash sm sG possibleSegs).2
        let streetName1 := matchStreetName endingG sG streetName possibleSegs1
        if streetName1 = "" then Run.done ((route, totalDistanceTravelled), steps + 1)
        else
          recreateLoopSteps stdHash distanceEarthMiles sm m_path start fuel sG
            (ExpandableHashMap.find (hasher stdHash) m_path sG) possibleSegs1 streetName1
            ({ start := sG, end_ := endingG, name := streetName1 } :: route)
            (totalDistanceTravelled + distanceEarthMiles sG endingG) (steps + 1)

/-- The result of `findOptimalRoute` with the ghost values of a run: the number of
executions of the body of its `while` loop, the number of executions of the body of the
loop of `recreateRouteHistory`, and the explored set at the end in order of insertion
(every insertion into it goes with a push onto the queue). -/
structure SearchTrace where
  result : SearchResult
  iterations : Nat
  walkSteps : Nat
  explored : List GeoCoord

/-- `searchLoop` with ghost values: `iterations` is the number of executions of the loop
body so far. -/
def searchLoopTrace (stdHash : String → Nat) (distanceEarthMiles : GeoCoord → GeoCoord → ℚ)
    (sm : StreetMapImpl) (start end_ : GeoCoord) (route : List StreetSegment) :
    Nat → SearchState → List StreetSegment → Nat → Run SearchTrace
  | 0, _, _, _ => Run.timeout
  | fuel + 1, st, adjacentSegs, iterations =>
    match st.toDo with
    | [] =>
      Run.done { result := { found := false, route := route, totalDistanceTravelled := 0,
                             m_path := st.m_path }
                 iterations := iterations, walkSteps := 0, explored := st.explored }
    | curr :: rest =>
      if curr = end_ then
        match recreateLoopSteps stdHash distanceEarthMiles sm st.m_path start fuel end_
            (ExpandableHashMap.find (hasher stdHash) st.m_path end_) [] "" [] 0 0 with
        | Run.done ((route1, total1), steps) =>
          Run.done { result := { found := true, route := route1,
                                 totalDistanceTravelled := total1, m_path := st.m_path }
                     iterations := iterations + 1, walkSteps := steps,
                     explored := st.explored }
        | Run.fault => Run.fault
        | Run.timeout => Run.timeout
      else
        let adjacentSegs1 :=
          (StreetMapImpl.getSegmentsThatStartWith stdHash sm curr adjacentSegs).2
        match sortSegments distanceEarthMiles fuel adjacentSegs1 0
            ((adjacentSegs1.length : Int) - 1) end_ with
        | Run.fault => Run.fault
        | Run.timeout => Run.timeout
        | Run.done sorted =>
          searchLoopTrace stdHash distanceEarthMiles sm start end_ route fuel
            (sorted.foldl (explore stdHash)
              { toDo := rest, explored := st.explored, m_path := st.m_path })
            sorted (iterations + 1)

/-- `findOptimalRoute` with the ghost values of its run. -/
def findOptimalRouteTrace (stdHash : String → Nat)
    (distanceEarthMiles : GeoCoord → GeoCoord → ℚ) (fuel : Nat) (sm : StreetMapImpl)
    (m_path : ExpandableHashMap GeoCoord GeoCoord) (start end_ : GeoCoord)
    (route : List StreetSegment) : Run SearchTrace :=
  searchLoopTrace stdHash distanceEarthMiles sm start end_ route fuel
    { toDo := [start], explored := [start], m_path := m_path } [] 0

end PointToPointRouterImpl

/-- The largest value of the C++ type `int` (32 bits, two's complement). -/
def INT_MAX : Int := 2147483647

/-- The smallest value of the C++ type `int`. -/
def INT_MIN : Int := -2147483648

/-- The conversion `(int) x` with its domain: the value truncated toward zero when that
is a value of `int`; for every other `x` the conversion is undefined behaviour in the
source, which is `none` here. -/
def castToInt (q : ℚ) : Option Int :=
  if INT_MIN ≤ truncToInt q ∧ truncToInt q ≤ INT_MAX then some (truncToInt q) else none

namespace ExpandableHashMap

variable {K V : Type} [DecidableEq K]

/-- The constructor with the range of `int` taken into account: `none` when
`(int) (m_maxLoadFactor * m_numBuckets)` is undefined. -/
def constructChecked (maximumLoadFactor : ℚ) : Option (ExpandableHashMap K V) :=
  let lf : ℚ := if maximumLoadFactor < 0 then 1 / 2 else maximumLoadFactor
  match castToInt (lf * (DEFAULT_NUM_BUCKETS : ℚ)) with
  | none => none
  | some maxNumItems =>
    some { m_maxLoadFactor := lf
           m_numBuckets := DEFAULT_NUM_BUCKETS
           m_maxNumItems := maxNumItems
           m_numItems := 0
           m_hashMap := List.replicate DEFAULT_NUM_BUCKETS [] }

/-- `reset()` with the range of `int` taken into account: `none` when
`(int) (m_maxLoadFactor * m_numBuckets)` is undefined. -/
def resetChecked (m : ExpandableHashMap K V) : Option (ExpandableHashMap K V) :=
  match castToInt (m.m_maxLoadFactor * (DEFAULT_NUM_BUCKETS : ℚ)) with
  | none => none
  | some maxNumItems =>
    some { m_maxLoadFactor := m.m_maxLoadFactor
           m_numBuckets := DEFAULT_NUM_BUCKETS
           m_maxNumItems := maxNumItems
           m_numItems := 0
           m_hashMap := List.replicate DEFAULT_NUM_BUCKETS [] }

/-- `expandHashMap()` with the range of `int` taken into account: `none` when
`int newNumBuckets = m_numBuckets * 2` overflows or
`(int) (m_maxLoadFactor * newNumBuckets)` is undefined. -/
def expandHashMapChecked (hasher : K → Nat) (m : ExpandableHashMap K V) :
    Option (ExpandableHashMap K V) :=
  if (m.m_numBuckets : Int) * 2 > INT_MAX then none
  else
    let newNumBuckets := m.m_numBuckets * 2
    match castToInt (m.m_maxLoadFactor * (newNumBuckets : ℚ)) with
    | none => none
    | some maxNumItems =>
      let st := (List.range m.m_numBuckets).foldl
        (fun st i => (m.m_hashMap.getD i []).foldl (rehashNode hasher newNumBuckets) st)
        (List.replicate newNumBuckets [], 0)
      some { m_maxLoadFactor := m.m_maxLoadFactor
             m_numBuckets := newNumBuckets
             m_maxNumItems := maxNumItems
             m_numItems := st.2
             m_hashMap := st.1 }

/-- `associateHelper(k, v)` with the range of `int` taken into account: `none` when
`m_numItems + 1` overflows, when the expansion is undefined, or when `m_numItems++`
overflows. -/
def associateHelperChecked (hasher : K → Nat) (m : ExpandableHashMap K V) (k : K) (v : V) :
    Option (ExpandableHashMap K V) :=
  match find hasher m k with
  | some _ => some (modifyValue hasher m k (fun _ => v))
  | none =>
    if (m.m_numItems : Int) + 1 > INT_MAX then none
    else
      match (if (m.m_numItems : Int) + 1 > m.m_maxNumItems then expandHashMapChecked hasher m
             else some m) with
      | none => none
      | some m1 =>
        if (m1.m_numItems : Int) + 1 > INT_MAX then none
        else
          let bucketNum := getBucketNumber hasher k m1.m_numBuckets
          some { m1 with
            m_hashMap := m1.m_hashMap.set bucketNum
              (appendAtEnd { key := k, value := v } (m1.m_hashMap.getD bucketNum []))
            m_numItems := m1.m_numItems + 1 }

/-- `associate(key, value)` with the range of `int` taken into account. -/
def associateChecked (hasher : K → Nat) (m : ExpandableHashMap K V) (key : K) (value : V) :
    Option (ExpandableHashMap K V) :=
  associateHelperChecked hasher m key value

/-- A sequence of `associate` calls, in order, from a start that may already be
undefined; the result is `none` as soon as one call is undefined. -/
def associateAllChecked (hasher : K → Nat) (start : Option (ExpandableHashMap K V))
    (ops : List (K × V)) : Option (ExpandableHashMap K V) :=
  ops.foldl
    (fun acc op =>
      match acc with
      | none => none
      | some m => associateChecked hasher m op.1 op.2)
    start

/-- The states of a map that a client can produce through calls whose `int` arithmetic is
defined: these are the states the program can hold without undefined behaviour. -/
inductive Defined (hasher : K → Nat) : ExpandableHashMap K V → Prop
  | construct (maximumLoadFactor : ℚ) {m : ExpandableHashMap K V} :
      constructChecked maximumLoadFactor = some m → Defined hasher m
  | reset {m m1 : ExpandableHashMap K V} :
      Defined hasher m → resetChecked m = some m1 → Defined hasher m1
  | associate {m m1 : ExpandableHashMap K V} (key : K) (value : V) :
      Defined hasher m → associateChecked hasher m key value = some m1 → Defined hasher m1
  | modifyValue {m : ExpandableHashMap K V} (key : K) (f : V → V) :
      Defined hasher m → Defined hasher (modifyValue hasher m key f)

/-- The `int` members of the map hold values of `int`. -/
structure IntFields (m : ExpandableHashMap K V) : Prop where
  numBuckets : (m.m_numBuckets : Int) ≤ INT_MAX
  numItems : (m.m_numItems : Int) ≤ INT_MAX
  maxNumItems_min : INT_MIN ≤ m.m_maxNumItems
  maxNumItems_max : m.m_maxNumItems ≤ INT_MAX

/-- The calls `associate(0, 0)`, ..., `associate(n - 1, n - 1)`: `n` distinct keys. -/
def distinctKeys (n : Nat) : List (Nat × Nat) :=
  (List.range n).map (fun i => (i, i))

end ExpandableHashMap

/-! ## Theorems -/

set_option linter.unusedSectionVars false
set_option linter.unusedVariables false

namespace ExpandableHashMap

variable {K V : Type} [DecidableEq K]

theorem appendAtEnd_eq (n : Node K V) (l : List (Node K V)) : appendAtEnd n l = l ++ [n] := by
  induction l with
  | nil => rfl
  | cons a l ih => simp [appendAtEnd, ih]

theorem findNode_append (k : K) (l l' : List (Node K V)) :
    findNode k (l ++ l') = (findNode k l).or (findNode k l') := by
  induction l with
  | nil => simp [findNode]
  | cons a l ih =>
    by_cases h : a.key = k
    · simp [findNode, h]
    · simp [findNode, h, ih]

theorem findNode_eq_none_iff (k : K) (l : List (Node K V)) :
    findNode k l = none ↔ k ∉ l.map Node.key := by
  induction l with
  | nil => simp [findNode]
  | cons a l ih =>
    by_cases h : a.key = k
    · simp [findNode, h]
    · have h' : ¬ k = a.key := fun e => h e.symm
      simp [findNode, h, h', ih]

theorem findNode_some_mem {k : K} {v : V} {l : List (Node K V)}
    (h : findNode k l = some v) : ∃ n ∈ l, n.key = k ∧ n.value = v := by
  induction l with
  | nil => simp [findNode] at h
  | cons a l ih =>
    by_cases hk : a.key = k
    · simp [findNode, hk] at h
      exact ⟨a, by simp, hk, h⟩
    · simp [findNode, hk] at h
      obtain ⟨n, hn, h1, h2⟩ := ih h
      exact ⟨n, by simp [hn], h1, h2⟩

theorem getD_set_bucket (T : List (List (Node K V))) (b i : Nat) (c : List (Node K V))
    (hb : b < T.length) :
    (T.set b c).getD i [] = if b = i then c else T.getD i [] := by
  simp only [List.getD_eq_getElem?_getD, List.getElem?_set]
  by_cases h : b = i
  · subst h
    simp [hb]
  · simp [h]

theorem totalNodes_set (T : List (List (Node K V))) (b : Nat) (c : List (Node K V))
    (hb : b < T.length) :
    totalNodes (T.set b c) + (T.getD b []).length = totalNodes T + c.length := by
  induction T generalizing b with
  | nil => simp at hb
  | cons a T ih =>
    cases b with
    | zero => simp [totalNodes]; omega
    | succ b =>
      have hb' : b < T.length := by simpa using hb
      have := ih b hb'
      simp only [totalNodes, List.set_cons_succ, List.map_cons, List.sum_cons,
        List.getD_cons_succ] at this ⊢
      omega

theorem find_eq_tableFind (hasher : K → Nat) (m : ExpandableHashMap K V) (k : K) :
    find hasher m k = tableFind hasher m.m_numBuckets m.m_hashMap k := rfl

theorem TableOK.lt_length {hasher : K → Nat} {N : Nat} {T : List (List (Node K V))}
    (h : TableOK hasher N T) (k : K) : hasher k % N < T.length := by
  rw [h.len]; exact Nat.mod_lt _ h.pos

theorem TableOK.appendNode {hasher : K → Nat} {N : Nat} {T : List (List (Node K V))}
    (h : TableOK hasher N T) (n : Node K V)
    (hn : findNode n.key (T.getD (hasher n.key % N) []) = none) :
    TableOK hasher N (T.set (hasher n.key % N) (T.getD (hasher n.key % N) [] ++ [n])) := by
  have hb := h.lt_length n.key
  refine ⟨by simp [h.len], h.pos, ?_, ?_⟩
  · intro i n' hn'
    rw [getD_set_bucket _ _ _ _ hb] at hn'
    by_cases e : hasher n.key % N = i
    · simp only [e, if_true, List.mem_append, List.mem_singleton] at hn'
      rcases hn' with h1 | h1
      · exact h.bucket i n' h1
      · rw [h1]; exact e
    · simp only [e, if_false] at hn'
      exact h.bucket i n' hn'
  · intro i
    rw [getD_set_bucket _ _ _ _ hb]
    by_cases e : hasher n.key % N = i
    · simp only [e, if_true, List.map_append, List.map_cons, List.map_nil]
      rw [List.nodup_append]
      refine ⟨h.nodup i, by simp, ?_⟩
      intro a ha hb'
      simp only [List.mem_singleton] at hb'
      rw [findNode_eq_none_iff, e] at hn
      exact hn (hb' ▸ ha)
    · simp only [e, if_false]
      exact h.nodup i

theorem tableFind_appendNode {hasher : K → Nat} {N : Nat} {T : List (List (Node K V))}
    (h : TableOK hasher N T) (n : Node K V)
    (hn : findNode n.key (T.getD (hasher n.key % N) []) = none) (k : K) :
    tableFind hasher N (T.set (hasher n.key % N) (T.getD (hasher n.key % N) [] ++ [n])) k
      = if k = n.key then some n.value else tableFind hasher N T k := by
  have hb := h.lt_length n.key
  unfold tableFind
  rw [getD_set_bucket _ _ _ _ hb]
  by_cases hk : k = n.key
  · subst hk
    simp only [if_true, findNode_append, hn]
    simp [findNode]
  · have hk' : ¬ n.key = k := fun e => hk e.symm
    by_cases e : hasher n.key % N = hasher k % N
    · simp only [e, hk, if_true, if_false, findNode_append]
      simp [findNode, hk']
    · simp only [e, hk, if_false]

theorem totalNodes_appendNode {hasher : K → Nat} {N : Nat} {T : List (List (Node K V))}
    (h : TableOK hasher N T) (n : Node K V) :
    totalNodes (T.set (hasher n.key % N) (T.getD (hasher n.key % N) [] ++ [n]))
      = totalNodes T + 1 := by
  have := totalNodes_set T _ (T.getD (hasher n.key % N) [] ++ [n]) (h.lt_length n.key)
  simp only [List.length_append, List.length_singleton] at this
  omega

theorem rehashNode_fresh (hasher : K → Nat) (N : Nat) (T : List (List (Node K V))) (c : Nat)
    (cur : Node K V) (hn : findNode cur.key (T.getD (hasher cur.key % N) []) = none) :
    rehashNode hasher N (T, c) cur
      = (T.set (hasher cur.key % N) (T.getD (hasher cur.key % N) [] ++ [cur]), c + 1) := by
  unfold rehashNode getBucketNumber
  simp only
  split
  · rename_i heq
    rw [heq]
    rfl
  · rename_i head rest heq
    rw [heq] at hn ⊢
    have hne : ¬ head.key = cur.key := by
      intro e
      simp [findNode, e] at hn
    simp only [hne, if_false, appendAtEnd_eq]

theorem foldl_rehashNode (hasher : K → Nat) (N : Nat) :
    ∀ (todo : List (Node K V)) (T : List (List (Node K V))) (c : Nat),
      TableOK hasher N T → (todo.map Node.key).Nodup →
      (∀ n ∈ todo, tableFind hasher N T n.key = none) →
      TableOK hasher N (todo.foldl (rehashNode hasher N) (T, c)).1 ∧
      (todo.foldl (rehashNode hasher N) (T, c)).2 = c + todo.length ∧
      totalNodes (todo.foldl (rehashNode hasher N) (T, c)).1 = totalNodes T + todo.length ∧
      ∀ k, tableFind hasher N (todo.foldl (rehashNode hasher N) (T, c)).1 k
        = (tableFind hasher N T k).or (findNode k todo) := by
  intro todo
  induction todo with
  | nil => intro T c h _ _; simp [findNode, h]
  | cons n rest ih =>
    intro T c h hnd hfresh
    have hn : findNode n.key (T.getD (hasher n.key % N) []) = none :=
      hfresh n (by simp)
    rw [List.foldl_cons, rehashNode_fresh hasher N T c n hn]
    simp only [List.map_cons, List.nodup_cons] at hnd
    have hfresh' : ∀ n' ∈ rest, tableFind hasher N
        (T.set (hasher n.key % N) (T.getD (hasher n.key % N) [] ++ [n])) n'.key = none := by
      intro n' hn'
      rw [tableFind_appendNode h n hn]
      have : n'.key ≠ n.key := by
        intro e
        exact hnd.1 (e ▸ List.mem_map_of_mem Node.key hn')
      simp only [this, if_false]
      exact hfresh n' (by simp [hn'])
    obtain ⟨h1, h2, h3, h4⟩ := ih _ (c + 1) (h.appendNode n hn) hnd.2 hfresh'
    refine ⟨h1, by rw [h2]; simp; omega, by rw [h3, totalNodes_appendNode h]; simp; omega, ?_⟩
    intro k
    rw [h4, tableFind_appendNode h n hn]
    by_cases hk : k = n.key
    · subst hk
      have : tableFind hasher N T n.key = none := hn
      simp [this, findNode]
    · have hk' : ¬ n.key = k := fun e => hk e.symm
      simp [hk, hk', findNode]

theorem getD_replicate_nil (N i : Nat) :
    (List.replicate N ([] : List (Node K V))).getD i [] = [] := by
  simp only [List.getD_eq_getElem?_getD, List.getElem?_replicate]
  split <;> rfl

theorem totalNodes_replicate_nil (N : Nat) :
    totalNodes (List.replicate N ([] : List (Node K V))) = 0 := by
  induction N with
  | zero => rfl
  | succ n ih => simp [totalNodes, List.replicate_succ]

theorem TableOK.replicate_nil (hasher : K → Nat) {N : Nat} (hN : 0 < N) :
    TableOK hasher N (List.replicate N ([] : List (Node K V))) := by
  refine ⟨by simp, hN, ?_, ?_⟩
  · intro i n hn
    rw [getD_replicate_nil] at hn
    simp at hn
  · intro i
    rw [getD_replicate_nil]
    simp

theorem tableFind_replicate_nil (hasher : K → Nat) (N : Nat) (k : K) :
    tableFind hasher N (List.replicate N ([] : List (Node K V))) k = none := by
  unfold tableFind
  rw [getD_replicate_nil]
  rfl

theorem totalNodes_take_succ (T : List (List (Node K V))) (i : Nat) (hi : i < T.length) :
    totalNodes (T.take (i + 1)) = totalNodes (T.take i) + (T.getD i []).length := by
  rw [List.take_succ, List.getD_eq_getElem?_getD, List.getElem?_eq_getElem hi]
  simp only [totalNodes, Option.toList, Option.getD_some, List.map_append, List.sum_append,
    List.map_cons, List.map_nil, List.sum_cons, List.sum_nil, Nat.add_zero]

theorem findNode_other_bucket {hasher : K → Nat} {N : Nat} {T : List (List (Node K V))}
    (h : TableOK hasher N T) (k : K) (i : Nat) (hne : hasher k % N ≠ i) :
    findNode k (T.getD i []) = none := by
  rw [findNode_eq_none_iff]
  intro hmem
  obtain ⟨n, hn, hk⟩ := List.mem_map.1 hmem
  exact hne (hk ▸ h.bucket i n hn)

/-- The state of the rehash loop of `expandHashMap` after the first `i` old buckets. -/
theorem rehash_buckets (hasher : K → Nat) (N nb : Nat) (old : List (List (Node K V)))
    (hold : TableOK hasher nb old) (hN : 0 < N) :
    ∀ i, i ≤ nb →
      TableOK hasher N ((List.range i).foldl
        (fun st j => (old.getD j []).foldl (rehashNode hasher N) st)
        (List.replicate N [], 0)).1 ∧
      ((List.range i).foldl
        (fun st j => (old.getD j []).foldl (rehashNode hasher N) st)
        (List.replicate N [], 0)).2 = totalNodes (old.take i) ∧
      totalNodes ((List.range i).foldl
        (fun st j => (old.getD j []).foldl (rehashNode hasher N) st)
        (List.replicate N [], 0)).1 = totalNodes (old.take i) ∧
      ∀ k, tableFind hasher N ((List.range i).foldl
        (fun st j => (old.getD j []).foldl (rehashNode hasher N) st)
        (List.replicate N [], 0)).1 k
        = if hasher k % nb < i then tableFind hasher nb old k else none := by
  intro i
  induction i with
  | zero =>
    intro _
    refine ⟨TableOK.replicate_nil hasher hN, by simp [totalNodes],
      by simp [totalNodes_replicate_nil, totalNodes], ?_⟩
    intro k
    simp [tableFind_replicate_nil]
  | succ i ih =>
    intro hi
    obtain ⟨h1, h2, h3, h4⟩ := ih (by omega)
    rw [List.range_succ, List.foldl_append, List.foldl_cons, List.foldl_nil]
    generalize hst : (List.range i).foldl
        (fun st j => (old.getD j []).foldl (rehashNode hasher N) st)
        (List.replicate N [], 0) = st at h1 h2 h3 h4
    obtain ⟨T, c⟩ := st
    simp only at h1 h2 h3 h4
    have hfresh : ∀ n ∈ old.getD i [], tableFind hasher N T n.key = none := by
      intro n hn
      rw [h4, hold.bucket i n hn]
      simp
    obtain ⟨g1, g2, g3, g4⟩ := foldl_rehashNode hasher N (old.getD i []) T c h1
      (hold.nodup i) hfresh
    have hlen : i < old.length := by rw [hold.len]; omega
    refine ⟨g1, ?_, ?_, ?_⟩
    · rw [g2, h2, totalNodes_take_succ _ _ hlen]
    · rw [g3, h3, totalNodes_take_succ _ _ hlen]
    · intro k
      rw [g4, h4]
      by_cases e : hasher k % nb = i
      · have : ¬ hasher k % nb < i := by omega
        have h' : hasher k % nb < i + 1 := by omega
        simp only [this, h', if_true, if_false, Option.none_or]
        unfold tableFind
        rw [e]
      · rw [findNode_other_bucket hold k i e, Option.or_none]
        have : hasher k % nb < i ↔ hasher k % nb < i + 1 := by omega
        simp only [this]

theorem truncToInt_eq_floor {q : ℚ} (hq : 0 ≤ q) : truncToInt q = ⌊q⌋ := by
  unfold truncToInt
  rw [Rat.floor_def, Int.tdiv_eq_ediv (Rat.num_nonneg.2 hq) (by positivity)]

theorem WF.expandHashMap {hasher : K → Nat} {m : ExpandableHashMap K V} (h : WF hasher m) :
    WF hasher (expandHashMap hasher m) ∧
    (expandHashMap hasher m).m_numItems = m.m_numItems ∧
    ∀ k, find hasher (expandHashMap hasher m) k = find hasher m k := by
  have hN : 0 < m.m_numBuckets * 2 := by have := h.table.pos; omega
  obtain ⟨h1, h2, h3, h4⟩ := rehash_buckets hasher (m.m_numBuckets * 2) m.m_numBuckets
    m.m_hashMap h.table hN m.m_numBuckets (le_refl _)
  have htake : m.m_hashMap.take m.m_numBuckets = m.m_hashMap := by
    rw [← h.table.len]; exact List.take_length _
  rw [htake] at h2 h3
  refine ⟨⟨h1, ?_, ?_, rfl, h.lf⟩, ?_, ?_⟩
  · show _ = totalNodes _
    simp only [ExpandableHashMap.expandHashMap]
    rw [h2, h3]
  · obtain ⟨k, hk⟩ := h.pow
    refine ⟨k + 1, ?_⟩
    show m.m_numBuckets * 2 = _
    rw [hk, pow_succ]; ring
  · show _ = m.m_numItems
    simp only [ExpandableHashMap.expandHashMap]
    rw [h2, h.count]
  · intro k
    rw [find_eq_tableFind, find_eq_tableFind]
    show tableFind hasher (m.m_numBuckets * 2) _ k = _
    simp only [ExpandableHashMap.expandHashMap]
    rw [h4]
    simp [Nat.mod_lt _ h.table.pos]

theorem storeNode_keys (k : K) (f : V → V) (l : List (Node K V)) :
    (storeNode k f l).map Node.key = l.map Node.key := by
  induction l with
  | nil => rfl
  | cons a l ih =>
    by_cases h : a.key = k
    · simp [storeNode, h]
    · simp [storeNode, h, ih]

theorem storeNode_length (k : K) (f : V → V) (l : List (Node K V)) :
    (storeNode k f l).length = l.length := by
  have := congrArg List.length (storeNode_keys k f l)
  simpa using this

theorem findNode_storeNode (k k' : K) (f : V → V) (l : List (Node K V)) :
    findNode k' (storeNode k f l)
      = if k' = k then (findNode k l).map f else findNode k' l := by
  induction l with
  | nil => simp [storeNode, findNode]
  | cons a l ih =>
    by_cases h : a.key = k
    · by_cases h' : k' = k
      · subst h'
        simp [storeNode, findNode, h]
      · have : ¬ a.key = k' := fun e => h' (e ▸ h)
        have h2 : ¬ k = k' := fun e => h' e.symm
        simp [storeNode, findNode, h, h', this, h2]
    · by_cases h' : k' = k
      · subst h'
        simp only [storeNode, findNode, h, if_false, ih, if_true]
      · simp only [storeNode, findNode, h, if_false, ih, h']

theorem getD_set_storeNode (T : List (List (Node K V))) (b i : Nat) (k : K) (f : V → V) :
    (T.set b (storeNode k f (T.getD b []))).getD i []
      = if b = i then storeNode k f (T.getD b []) else T.getD i [] := by
  by_cases hb : b < T.length
  · exact getD_set_bucket T b i _ hb
  · have hb' : T.length ≤ b := by omega
    have h1 : T.set b (storeNode k f (T.getD b [])) = T := List.set_eq_of_length_le hb'
    rw [h1]
    by_cases e : b = i
    · subst e
      simp only [if_true]
      rw [List.getD_eq_default _ _ hb']
      rfl
    · simp only [e, if_false]

theorem map_set_same {β : Type} (g : List (Node K V) → β) (T : List (List (Node K V)))
    (b : Nat) (c : List (Node K V)) (hc : g c = g (T.getD b [])) :
    (T.set b c).map g = T.map g := by
  induction T generalizing b with
  | nil => rfl
  | cons a T ih =>
    cases b with
    | zero => simpa using hc
    | succ b =>
      simp only [List.set_cons_succ, List.map_cons]
      rw [ih b (by simpa using hc)]

theorem modifyValue_chainKeys (hasher : K → Nat) (m : ExpandableHashMap K V) (k : K)
    (f : V → V) : chainKeys (modifyValue hasher m k f).m_hashMap = chainKeys m.m_hashMap := by
  unfold chainKeys modifyValue
  exact map_set_same _ _ _ _ (storeNode_keys k f _)

theorem find_modifyValue (hasher : K → Nat) (m : ExpandableHashMap K V) (k k' : K)
    (f : V → V) :
    find hasher (modifyValue hasher m k f) k'
      = if k' = k then (find hasher m k).map f else find hasher m k' := by
  unfold find modifyValue getBucketNumber
  simp only
  rw [getD_set_storeNode]
  by_cases e : hasher k % m.m_numBuckets = hasher k' % m.m_numBuckets
  · simp only [e, if_true, findNode_storeNode]
  · have h' : ¬ k' = k := fun h => e (h ▸ rfl)
    simp only [e, h', if_false]

theorem totalNodes_modifyValue (hasher : K → Nat) (m : ExpandableHashMap K V) (k : K)
    (f : V → V) : totalNodes (modifyValue hasher m k f).m_hashMap = totalNodes m.m_hashMap := by
  unfold totalNodes modifyValue
  exact congrArg List.sum (map_set_same _ _ _ _ (storeNode_length k f _))

theorem WF.modifyValue {hasher : K → Nat} {m : ExpandableHashMap K V} (h : WF hasher m)
    (k : K) (f : V → V) : WF hasher (modifyValue hasher m k f) := by
  refine ⟨⟨?_, h.table.pos, ?_, ?_⟩, ?_, h.pow, h.maxItems, h.lf⟩
  · show (List.set _ _ _).length = _
    rw [List.length_set]; exact h.table.len
  · intro i n hn
    have hn' : n ∈ (m.m_hashMap.set (hasher k % m.m_numBuckets)
        (storeNode k f (m.m_hashMap.getD (hasher k % m.m_numBuckets) []))).getD i [] := hn
    rw [getD_set_storeNode] at hn'
    by_cases e : hasher k % m.m_numBuckets = i
    · simp only [e, if_true] at hn'
      have : n.key ∈ (storeNode k f (m.m_hashMap.getD i [])).map Node.key :=
        List.mem_map_of_mem _ hn'
      rw [storeNode_keys] at this
      obtain ⟨n', hn1, hn2⟩ := List.mem_map.1 this
      have := h.table.bucket i n' hn1
      rw [hn2] at this
      exact this
    · simp only [e, if_false] at hn'
      exact h.table.bucket i n hn'
  · intro i
    show ((List.getD (List.set _ _ _) i []).map Node.key).Nodup
    rw [getD_set_storeNode]
    by_cases e : getBucketNumber hasher k m.m_numBuckets = i
    · simp only [e, if_true, storeNode_keys]
      exact h.table.nodup i
    · simp only [e, if_false]
      exact h.table.nodup i
  · show m.m_numItems = _
    rw [totalNodes_modifyValue]; exact h.count

theorem associate_present (hasher : K → Nat) (m : ExpandableHashMap K V) (k : K) (v : V)
    (hk : find hasher m k ≠ none) :
    associate hasher m k v = modifyValue hasher m k (fun _ => v) := by
  unfold associate associateHelper
  cases h : find hasher m k with
  | none => exact absurd h hk
  | some _ => rfl

theorem associate_absent (hasher : K → Nat) (m : ExpandableHashMap K V) (k : K) (v : V)
    (hk : find hasher m k = none) :
    associate hasher m k v =
      { (if (m.m_numItems : Int) + 1 > m.m_maxNumItems then expandHashMap hasher m else m) with
        m_hashMap :=
          (if (m.m_numItems : Int) + 1 > m.m_maxNumItems then expandHashMap hasher m
            else m).m_hashMap.set
            (hasher k % (if (m.m_numItems : Int) + 1 > m.m_maxNumItems
              then expandHashMap hasher m else m).m_numBuckets)
            ((if (m.m_numItems : Int) + 1 > m.m_maxNumItems then expandHashMap hasher m
              else m).m_hashMap.getD
              (hasher k % (if (m.m_numItems : Int) + 1 > m.m_maxNumItems
                then expandHashMap hasher m else m).m_numBuckets) [] ++ [{ key := k, value := v }])
        m_numItems :=
          (if (m.m_numItems : Int) + 1 > m.m_maxNumItems then expandHashMap hasher m
            else m).m_numItems + 1 } := by
  unfold associate associateHelper
  rw [hk]
  simp only [appendAtEnd_eq, getBucketNumber]

/-- Linking a node for an absent key at the end of its chain. -/
theorem WF.insertAbsent {hasher : K → Nat} {m1 : ExpandableHashMap K V} (h : WF hasher m1)
    (k : K) (v : V) (hk : find hasher m1 k = none) :
    WF hasher { m1 with
        m_hashMap := m1.m_hashMap.set (hasher k % m1.m_numBuckets)
          (m1.m_hashMap.getD (hasher k % m1.m_numBuckets) [] ++ [{ key := k, value := v }])
        m_numItems := m1.m_numItems + 1 } ∧
    ∀ k', find hasher { m1 with
        m_hashMap := m1.m_hashMap.set (hasher k % m1.m_numBuckets)
          (m1.m_hashMap.getD (hasher k % m1.m_numBuckets) [] ++ [{ key := k, value := v }])
        m_numItems := m1.m_numItems + 1 } k' = if k' = k then some v else find hasher m1 k' := by
  have hn : findNode (Node.mk k v).key
      (m1.m_hashMap.getD (hasher (Node.mk k v).key % m1.m_numBuckets) []) = none := hk
  refine ⟨⟨h.table.appendNode ⟨k, v⟩ hn, ?_, h.pow, h.maxItems, h.lf⟩, ?_⟩
  · show m1.m_numItems + 1 = _
    have := totalNodes_appendNode h.table (Node.mk k v)
    simp only at this
    rw [this, h.count]
  · intro k'
    exact tableFind_appendNode h.table ⟨k, v⟩ hn k'

theorem WF.associate {hasher : K → Nat} {m : ExpandableHashMap K V} (h : WF hasher m)
    (k : K) (v : V) :
    WF hasher (associate hasher m k v) ∧
    ∀ k', find hasher (associate hasher m k v) k' = if k' = k then some v else find hasher m k' := by
  cases hk : find hasher m k with
  | some v0 =>
    rw [associate_present hasher m k v (by simp [hk])]
    refine ⟨h.modifyValue k _, ?_⟩
    intro k'
    rw [find_modifyValue, hk]
    rfl
  | none =>
    rw [associate_absent hasher m k v hk]
    by_cases hc : (m.m_numItems : Int) + 1 > m.m_maxNumItems
    · simp only [hc, if_true]
      obtain ⟨e1, e2, e3⟩ := h.expandHashMap
      obtain ⟨g1, g2⟩ := e1.insertAbsent k v (by rw [e3]; exact hk)
      refine ⟨g1, ?_⟩
      intro k'
      rw [g2, e3]
    · simp only [hc, if_false]
      exact h.insertAbsent k v hk

theorem WF.construct (hasher : K → Nat) (lf : ℚ) :
    WF hasher (construct lf : ExpandableHashMap K V) := by
  refine ⟨TableOK.replicate_nil hasher (show 0 < DEFAULT_NUM_BUCKETS by decide), ?_, ⟨0, rfl⟩,
    ?_, ?_⟩
  · show 0 = totalNodes (List.replicate DEFAULT_NUM_BUCKETS [])
    rw [totalNodes_replicate_nil]
  · rfl
  · show 0 ≤ (if lf < 0 then 1 / 2 else lf)
    split
    · norm_num
    · linarith

theorem WF.reset {hasher : K → Nat} {m : ExpandableHashMap K V} (h : WF hasher m) :
    WF hasher (reset m) := by
  refine ⟨TableOK.replicate_nil hasher (show 0 < DEFAULT_NUM_BUCKETS by decide), ?_, ⟨0, rfl⟩,
    rfl, h.lf⟩
  show 0 = totalNodes (List.replicate DEFAULT_NUM_BUCKETS [])
  rw [totalNodes_replicate_nil]

theorem Reachable.wf {hasher : K → Nat} {m : ExpandableHashMap K V}
    (h : Reachable hasher m) : WF hasher m := by
  induction h with
  | construct lf => exact WF.construct hasher lf
  | reset _ ih => exact ih.reset
  | associate k v _ ih => exact (ih.associate k v).1
  | modifyValue k f _ ih => exact ih.modifyValue k f

theorem Reachable.associateAll {hasher : K → Nat} (ops : List (K × V)) :
    ∀ {m : ExpandableHashMap K V}, Reachable hasher m →
      Reachable hasher (associateAll hasher m ops) := by
  induction ops with
  | nil => intro m h; exact h
  | cons op ops ih =>
    intro m h
    exact ih (Reachable.associate op.1 op.2 h)

theorem find_associateAll {hasher : K → Nat} (ops : List (K × V)) (k : K) :
    ∀ {m : ExpandableHashMap K V}, WF hasher m →
      find hasher (associateAll hasher m ops) k
        = ops.foldl (fun acc op => if op.1 = k then some op.2 else acc) (find hasher m k) := by
  induction ops with
  | nil => intro m _; rfl
  | cons op ops ih =>
    intro m h
    obtain ⟨h1, h2⟩ := h.associate op.1 op.2
    show find hasher (associateAll hasher (associate hasher m op.1 op.2) ops) k = _
    rw [ih h1, h2 k, List.foldl_cons]
    by_cases e : op.1 = k
    · subst e
      simp only [if_true]
    · have e' : ¬ k = op.1 := fun h => e h.symm
      simp only [e, e', if_false]

theorem foldl_last_eq_none_iff (ops : List (K × V)) (k : K) :
    ∀ init : Option V,
      ops.foldl (fun acc op => if op.1 = k then some op.2 else acc) init = none
        ↔ init = none ∧ ∀ op ∈ ops, op.1 ≠ k := by
  induction ops with
  | nil => intro init; simp
  | cons op ops ih =>
    intro init
    rw [List.foldl_cons, ih]
    by_cases e : op.1 = k
    · simp [e]
    · simp [e]

theorem find_construct (hasher : K → Nat) (lf : ℚ) (k : K) :
    find hasher (construct lf : ExpandableHashMap K V) k = none :=
  tableFind_replicate_nil hasher DEFAULT_NUM_BUCKETS k

/-- C2: `associate(k, v)` on a key that is present overwrites in place: item count, bucket
count, maximum item count, load factor and the key sequence of every chain are unchanged,
every other key keeps its value, and `k` now maps to `v`.  It holds in every state of the
map, hence in every reachable one, whatever the item count. -/
theorem associate_present_in_place (hasher : K → Nat) (m : ExpandableHashMap K V) (k : K)
    (v : V) (hk : find hasher m k ≠ none) :
    (associate hasher m k v).m_numItems = m.m_numItems ∧
    (associate hasher m k v).m_numBuckets = m.m_numBuckets ∧
    (associate hasher m k v).m_maxNumItems = m.m_maxNumItems ∧
    (associate hasher m k v).m_maxLoadFactor = m.m_maxLoadFactor ∧
    chainKeys (associate hasher m k v).m_hashMap = chainKeys m.m_hashMap ∧
    (∀ k', k' ≠ k → find hasher (associate hasher m k v) k' = find hasher m k') ∧
    find hasher (associate hasher m k v) k = some v := by
  rw [associate_present hasher m k v hk]
  refine ⟨rfl, rfl, rfl, rfl, modifyValue_chainKeys hasher m k _, ?_, ?_⟩
  · intro k' hk'
    rw [find_modifyValue]
    simp only [hk', if_false]
  · rw [find_modifyValue]
    simp only [if_true]
    cases h : find hasher m k with
    | none => exact absurd h hk
    | some _ => rfl

theorem WF.maxItems_floor {hasher : K → Nat} {m : ExpandableHashMap K V} (h : WF hasher m) :
    m.m_maxNumItems = ⌊m.m_maxLoadFactor * (m.m_numBuckets : ℚ)⌋ := by
  rw [h.maxItems, truncToInt_eq_floor (mul_nonneg h.lf (by positivity))]

/-- The effect of `associate` on the counters when the key is absent. -/
theorem associate_absent_counts {hasher : K → Nat} {m : ExpandableHashMap K V}
    (h : WF hasher m) (k : K) (v : V) (hk : find hasher m k = none) :
    (associate hasher m k v).m_numItems = m.m_numItems + 1 ∧
    (associate hasher m k v).m_maxLoadFactor = m.m_maxLoadFactor ∧
    (associate hasher m k v).m_numBuckets
      = (if (m.m_numItems : Int) + 1 > m.m_maxNumItems then m.m_numBuckets * 2
          else m.m_numBuckets) := by
  rw [associate_absent hasher m k v hk]
  by_cases hc : (m.m_numItems : Int) + 1 > m.m_maxNumItems
  · simp only [hc, if_true]
    exact ⟨by rw [h.expandHashMap.2.1], rfl, rfl⟩
  · simp only [hc, if_false, and_self]

theorem associate_maxLoadFactor {hasher : K → Nat} {m : ExpandableHashMap K V}
    (h : WF hasher m) (k : K) (v : V) :
    (associate hasher m k v).m_maxLoadFactor = m.m_maxLoadFactor := by
  cases hk : find hasher m k with
  | none => exact (associate_absent_counts h k v hk).2.1
  | some v0 => rw [associate_present hasher m k v (by simp [hk])]; rfl

/-- The bound of C4 is lost at the first insertion for every load factor in `[0, 1/16)`:
one association in 16 buckets. -/
theorem load_factor_exceeded_of_lt (hasher : K → Nat) (maximumLoadFactor : ℚ)
    (h0 : 0 ≤ maximumLoadFactor) (h1 : maximumLoadFactor < 1 / 16) (k : K) (v : V) :
    ¬ (((associate hasher (construct maximumLoadFactor) k v).m_numItems : ℚ)
        ≤ (associate hasher (construct maximumLoadFactor) k v).m_maxLoadFactor
          * ((associate hasher (construct maximumLoadFactor) k v).m_numBuckets : ℚ)) := by
  have hwf : WF hasher (construct maximumLoadFactor : ExpandableHashMap K V) :=
    WF.construct hasher maximumLoadFactor
  obtain ⟨c1, c2, c3⟩ := associate_absent_counts hwf k v (find_construct hasher _ k)
  have hlf : (construct maximumLoadFactor : ExpandableHashMap K V).m_maxLoadFactor
      = maximumLoadFactor := by
    show (if maximumLoadFactor < 0 then 1 / 2 else maximumLoadFactor) = _
    rw [if_neg (not_lt.2 h0)]
  have hmax : (construct maximumLoadFactor : ExpandableHashMap K V).m_maxNumItems = 0 := by
    rw [hwf.maxItems_floor, hlf, Int.floor_eq_iff]
    have : (((construct maximumLoadFactor : ExpandableHashMap K V).m_numBuckets : ℕ) : ℚ) = 8 := by
      show ((DEFAULT_NUM_BUCKETS : ℕ) : ℚ) = 8
      norm_num [DEFAULT_NUM_BUCKETS]
    rw [this]
    constructor
    · push_cast; linarith
    · push_cast; linarith
  have hnb : (associate hasher (construct maximumLoadFactor) k v).m_numBuckets = 16 := by
    rw [c3, hmax]
    show (if ((0 : ℕ) : ℤ) + 1 > 0 then DEFAULT_NUM_BUCKETS * 2 else DEFAULT_NUM_BUCKETS) = 16
    simp [DEFAULT_NUM_BUCKETS]
  rw [c1, c2, hnb, hlf]
  show ¬ (((0 + 1 : ℕ) : ℚ) ≤ maximumLoadFactor * ((16 : ℕ) : ℚ))
  push_cast
  intro h
  linarith

theorem fourItems_reachable : Reachable (fun k => k) fourItems :=
  Reachable.associateAll _ (Reachable.construct (1 / 2))

/-- Witness of C2: key `9` is present in `fourItems` (chained behind key `1`), the map is at
its maximum item count, and `associate(9, 91)` changes no counter and stores `91`. -/
theorem associate_present_in_place_witness :
    find (fun k => k) fourItems 9 ≠ none ∧
    (fourItems.m_numItems : Int) = fourItems.m_maxNumItems ∧
    (associate (fun k => k) fourItems 9 91).m_numItems = fourItems.m_numItems ∧
    (associate (fun k => k) fourItems 9 91).m_numBuckets = fourItems.m_numBuckets ∧
    chainKeys (associate (fun k => k) fourItems 9 91).m_hashMap
      = [[], [1, 9], [], [3], [4], [], [], []] ∧
    find (fun k => k) (associate (fun k => k) fourItems 9 91) 9 = some 91 :=
  have h := associate_present_in_place (fun k => k) fourItems 9 91
    (by with_unfolding_all decide)
  ⟨by with_unfolding_all decide, by with_unfolding_all decide, h.1, h.2.1,
    by with_unfolding_all decide, h.2.2.2.2.2.2⟩

end ExpandableHashMap

namespace StreetMapImpl

open ExpandableHashMap

theorem foldl_push_back (v init : List StreetSegment) :
    v.foldl (fun acc seg => acc ++ [seg]) init = init ++ v := by
  induction v generalizing init with
  | nil => simp
  | cons a v ih => simp [ih]

theorem Indexes.congr {stdHash : String → Nat} {sm : StreetMapImpl}
    {E E' : GeoCoord → List StreetSegment} (h : Indexes stdHash sm E)
    (hE : ∀ c, E c = E' c) : Indexes stdHash sm E' := by
  have : E = E' := funext hE
  rw [← this]; exact h

theorem addToHashMap_indexes {stdHash : String → Nat} {sm : StreetMapImpl}
    {E : GeoCoord → List StreetSegment} (h : Indexes stdHash sm E) (g : GeoCoord)
    (s : StreetSegment) :
    Indexes stdHash (addToHashMap stdHash sm g s)
      (fun c => E c ++ (if g = c then [s] else [])) := by
  obtain ⟨hwf, hfind⟩ := h
  unfold addToHashMap
  cases hg : ExpandableHashMap.find (hasher stdHash) sm.m_hashMap g with
  | some v =>
    have hEg := hfind g
    rw [hg] at hEg
    refine ⟨hwf.modifyValue g _, ?_⟩
    intro c
    show ExpandableHashMap.find (hasher stdHash)
      (ExpandableHashMap.modifyValue (hasher stdHash) sm.m_hashMap g (fun v => v ++ [s])) c = _
    rw [find_modifyValue]
    by_cases e : c = g
    · subst e
      rw [hg]
      by_cases hE : E c = []
      · simp [hE] at hEg
      · simp only [hE, if_false, Option.some.injEq] at hEg
        simp [hEg]
    · have e' : ¬ g = c := fun h => e h.symm
      simp only [e, e', if_false, List.append_nil]
      exact hfind c
  | none =>
    have hEg := hfind g
    rw [hg] at hEg
    have hE : E g = [] := by
      by_cases hE : E g = []
      · exact hE
      · simp [hE] at hEg
    obtain ⟨w1, w2⟩ := hwf.associate g [s]
    refine ⟨w1, ?_⟩
    intro c
    show ExpandableHashMap.find (hasher stdHash)
      (ExpandableHashMap.associate (hasher stdHash) sm.m_hashMap g [s]) c = _
    rw [w2]
    by_cases e : c = g
    · subst e
      simp [hE]
    · have e' : ¬ g = c := fun h => e h.symm
      simp only [e, e', if_false, List.append_nil]
      exact hfind c

theorem addRecord_indexes {stdHash : String → Nat} {sm : StreetMapImpl}
    {E : GeoCoord → List StreetSegment} (h : Indexes stdHash sm E) (r : SegmentRecord) :
    Indexes stdHash (addRecord stdHash sm r) (fun c => E c ++ segmentsAt c [r]) := by
  have h2 := addToHashMap_indexes
    (addToHashMap_indexes h r.start { start := r.start, end_ := r.end_, name := r.name })
    r.end_ { start := r.end_, end_ := r.start, name := r.name }
  refine h2.congr ?_
  intro c
  simp [segmentsAt]

theorem foldl_addRecord_indexes {stdHash : String → Nat} (recs : List SegmentRecord) :
    ∀ {sm : StreetMapImpl} {E : GeoCoord → List StreetSegment}, Indexes stdHash sm E →
      Indexes stdHash (recs.foldl (addRecord stdHash) sm) (fun c => E c ++ segmentsAt c recs) := by
  induction recs with
  | nil =>
    intro sm E h
    exact h.congr (by intro c; simp [segmentsAt])
  | cons r recs ih =>
    intro sm E h
    rw [List.foldl_cons]
    refine (ih (addRecord_indexes h r)).congr ?_
    intro c
    simp [segmentsAt]

theorem load_indexes_of_wf {stdHash : String → Nat} {sm : StreetMapImpl}
    (hwf : WF (hasher stdHash) sm.m_hashMap) (recs : List SegmentRecord) :
    Indexes stdHash (load stdHash sm recs) (fun c => segmentsAt c recs) := by
  have h0 : Indexes stdHash { m_hashMap := ExpandableHashMap.reset sm.m_hashMap }
      (fun _ => []) := by
    refine ⟨hwf.reset, ?_⟩
    intro c
    simp only [if_true]
    exact tableFind_replicate_nil (hasher stdHash) DEFAULT_NUM_BUCKETS c
  exact (foldl_addRecord_indexes recs h0).congr (by intro c; simp)

theorem Reachable.hashMap_wf {stdHash : String → Nat} {sm : StreetMapImpl}
    (h : Reachable stdHash sm) : WF (hasher stdHash) sm.m_hashMap := by
  induction h with
  | construct => exact WF.construct _ _
  | load recs _ ih => exact (load_indexes_of_wf ih recs).1

theorem load_indexes {stdHash : String → Nat} {sm : StreetMapImpl}
    (h : Reachable stdHash sm) (recs : List SegmentRecord) :
    Indexes stdHash (load stdHash sm recs) (fun c => segmentsAt c recs) :=
  load_indexes_of_wf h.hashMap_wf recs

theorem segmentsAt_eq_nil_iff (c : GeoCoord) (recs : List SegmentRecord) :
    segmentsAt c recs = [] ↔ ∀ r ∈ recs, r.start ≠ c ∧ r.end_ ≠ c := by
  induction recs with
  | nil => simp [segmentsAt]
  | cons r recs ih =>
    simp only [segmentsAt, List.append_eq_nil, ih, List.mem_cons, forall_eq_or_imp]
    by_cases h1 : r.start = c <;> by_cases h2 : r.end_ = c <;> simp [h1, h2]

theorem segmentsAt_start (c : GeoCoord) (recs : List SegmentRecord) :
    ∀ s ∈ segmentsAt c recs, s.start = c := by
  induction recs with
  | nil => simp [segmentsAt]
  | cons r recs ih =>
    intro s hs
    simp only [segmentsAt, List.mem_append] at hs
    rcases hs with (hs | hs) | hs
    · by_cases h1 : r.start = c
      · simp only [h1, if_true, List.mem_singleton] at hs
        rw [hs]
      · simp [h1] at hs
    · by_cases h2 : r.end_ = c
      · simp only [h2, if_true, List.mem_singleton] at hs
        rw [hs]
      · simp [h2] at hs
    · exact ih s hs

theorem mem_segmentsAt_forward (r : SegmentRecord) (recs : List SegmentRecord)
    (hr : r ∈ recs) :
    ({ start := r.start, end_ := r.end_, name := r.name } : StreetSegment)
      ∈ segmentsAt r.start recs := by
  induction recs with
  | nil => simp at hr
  | cons r' recs ih =>
    simp only [segmentsAt, List.mem_append]
    rcases List.mem_cons.1 hr with h | h
    · subst h
      exact Or.inl (Or.inl (by simp))
    · exact Or.inr (ih h)

theorem mem_segmentsAt_reverse (r : SegmentRecord) (recs : List SegmentRecord)
    (hr : r ∈ recs) :
    ({ start := r.end_, end_ := r.start, name := r.name } : StreetSegment)
      ∈ segmentsAt r.end_ recs := by
  induction recs with
  | nil => simp at hr
  | cons r' recs ih =>
    simp only [segmentsAt, List.mem_append]
    rcases List.mem_cons.1 hr with h | h
    · subst h
      exact Or.inl (Or.inr (by simp))
    · exact Or.inr (ih h)

/-- The result of `getSegmentsThatStartWith` on an index that holds the lists `E`. -/
theorem getSegmentsThatStartWith_of_indexes {stdHash : String → Nat} {sm : StreetMapImpl}
    {E : GeoCoord → List StreetSegment} (h : Indexes stdHash sm E) (c : GeoCoord)
    (segs : List StreetSegment) :
    getSegmentsThatStartWith stdHash sm c segs
      = if E c = [] then (false, segs) else (true, E c) := by
  unfold getSegmentsThatStartWith
  rw [h.2 c]
  by_cases hE : E c = []
  · simp only [hE, if_true]
  · simp only [hE, if_false, foldl_push_back, List.nil_append]

/-- C6: bidirectional invariant.  After `load` of any record sequence, for every record
`(a, b, name)` of it, `getSegmentsThatStartWith(a)` succeeds and contains `(a, b, name)`,
and `getSegmentsThatStartWith(b)` succeeds and contains `(b, a, name)`. -/
theorem bidirectional_index (stdHash : String → Nat) (sm : StreetMapImpl)
    (hsm : Reachable stdHash sm) (recs : List SegmentRecord) (r : SegmentRecord)
    (hr : r ∈ recs) (segs : List StreetSegment) :
    (getSegmentsThatStartWith stdHash (load stdHash sm recs) r.start segs).1 = true ∧
    ({ start := r.start, end_ := r.end_, name := r.name } : StreetSegment)
      ∈ (getSegmentsThatStartWith stdHash (load stdHash sm recs) r.start segs).2 ∧
    (getSegmentsThatStartWith stdHash (load stdHash sm recs) r.end_ segs).1 = true ∧
    ({ start := r.end_, end_ := r.start, name := r.name } : StreetSegment)
      ∈ (getSegmentsThatStartWith stdHash (load stdHash sm recs) r.end_ segs).2 := by
  have hidx := load_indexes hsm recs
  have hf := mem_segmentsAt_forward r recs hr
  have hb := mem_segmentsAt_reverse r recs hr
  have hf' : segmentsAt r.start recs ≠ [] := List.ne_nil_of_mem hf
  have hb' : segmentsAt r.end_ recs ≠ [] := List.ne_nil_of_mem hb
  rw [getSegmentsThatStartWith_of_indexes hidx, getSegmentsThatStartWith_of_indexes hidx]
  simp only [hf', hb', if_false]
  exact ⟨trivial, hf, trivial, hb⟩

/-- Witness of C6: the record `A - B "Main"` of `sampleRecords`; the lookup of `B` returns
the reverse segment `B -> A` followed by the forward segment `B -> C`. -/
theorem bidirectional_index_witness :
    getSegmentsThatStartWith lengthHash (load lengthHash construct sampleRecords) coordB []
      = (true, [{ start := coordB, end_ := coordA, name := "Main" },
                { start := coordB, end_ := coordC, name := "Oak" }]) ∧
    (getSegmentsThatStartWith lengthHash (load lengthHash construct sampleRecords)
      coordA []).1 = true ∧
    ({ start := coordB, end_ := coordA, name := "Main" } : StreetSegment)
      ∈ (getSegmentsThatStartWith lengthHash (load lengthHash construct sampleRecords)
          coordB []).2 :=
  have h := bidirectional_index lengthHash construct Reachable.construct sampleRecords
    { start := coordA, end_ := coordB, name := "Main" } (by simp [sampleRecords]) []
  ⟨by with_unfolding_all decide, h.1, h.2.2.2⟩

/-- C7: after `load` of the records `recs`, `getSegmentsThatStartWith(c, segs)` returns
found exactly when `c` is the start or the end of some record; when found, `segs` becomes
exactly `segmentsAt c recs` (record order, forward before reverse), which is non-empty and
whose segments all start at `c`; when not found, `segs` is left as it was. -/
theorem getSegmentsThatStartWith_load (stdHash : String → Nat) (sm : StreetMapImpl)
    (hsm : Reachable stdHash sm) (recs : List SegmentRecord) (c : GeoCoord)
    (segs : List StreetSegment) :
    ((getSegmentsThatStartWith stdHash (load stdHash sm recs) c segs).1 = true
      ↔ ∃ r ∈ recs, r.start = c ∨ r.end_ = c) ∧
    ((getSegmentsThatStartWith stdHash (load stdHash sm recs) c segs).1 = true →
      (getSegmentsThatStartWith stdHash (load stdHash sm recs) c segs).2 = segmentsAt c recs ∧
      (getSegmentsThatStartWith stdHash (load stdHash sm recs) c segs).2 ≠ [] ∧
      ∀ s ∈ (getSegmentsThatStartWith stdHash (load stdHash sm recs) c segs).2, s.start = c) ∧
    ((getSegmentsThatStartWith stdHash (load stdHash sm recs) c segs).1 = false →
      (getSegmentsThatStartWith stdHash (load stdHash sm recs) c segs).2 = segs) := by
  have hidx := load_indexes hsm recs
  rw [getSegmentsThatStartWith_of_indexes hidx]
  by_cases hE : segmentsAt c recs = []
  · simp only [hE, if_true]
    refine ⟨?_, by simp, fun _ => trivial⟩
    rw [segmentsAt_eq_nil_iff] at hE
    constructor
    · intro h; simp at h
    · rintro ⟨r, hr, h⟩
      rcases h with h | h
      · exact absurd h (hE r hr).1
      · exact absurd h (hE r hr).2
  · simp only [hE, if_false]
    refine ⟨?_, fun _ => ⟨trivial, hE, segmentsAt_start c recs⟩, by simp⟩
    constructor
    · intro _
      by_contra hno
      apply hE
      rw [segmentsAt_eq_nil_iff]
      intro r hr
      constructor
      · intro h; exact hno ⟨r, hr, Or.inl h⟩
      · intro h; exact hno ⟨r, hr, Or.inr h⟩
    · intro _; trivial

/-- Witness of C7: in the map loaded from `sampleRecords`, the lookup of `C` replaces a
stale output vector by the single reverse segment `C -> B`. -/
theorem getSegmentsThatStartWith_load_witness :
    getSegmentsThatStartWith lengthHash (load lengthHash construct sampleRecords) coordC
        [{ start := coordA, end_ := coordA, name := "stale" }]
      = (true, [{ start := coordC, end_ := coordB, name := "Oak" }]) ∧
    ((getSegmentsThatStartWith lengthHash (load lengthHash construct sampleRecords) coordC
        [{ start := coordA, end_ := coordA, name := "stale" }]).1 = true
      ↔ ∃ r ∈ sampleRecords, r.start = coordC ∨ r.end_ = coordC) :=
  ⟨by with_unfolding_all decide,
    (getSegmentsThatStartWith_load lengthHash construct Reachable.construct sampleRecords
      coordC [{ start := coordA, end_ := coordA, name := "stale" }]).1⟩

end StreetMapImpl

namespace PointToPointRouterImpl

open ExpandableHashMap StreetMapImpl

theorem vectorAt_mem {segs : List StreetSegment} {i : Int} {s : StreetSegment}
    (h : vectorAt segs i = some s) : s ∈ segs := by
  unfold vectorAt at h
  split at h
  · exact List.getElem?_mem h
  · simp at h

theorem swapSegInVector_mem {segs segs' : List StreetSegment} {i j : Int}
    (h : swapSegInVector segs i j = Run.done segs') : ∀ s ∈ segs', s ∈ segs := by
  unfold swapSegInVector at h
  split at h
  · rename_i temp other h1 h2
    simp only [Run.done.injEq] at h
    subst h
    intro s hs
    rcases List.mem_or_eq_of_mem_set hs with hs | hs
    · rcases List.mem_or_eq_of_mem_set hs with hs | hs
      · exact hs
      · rw [hs]; exact vectorAt_mem h2
    · rw [hs]; exact vectorAt_mem h1
  · simp at h

theorem partitionLoop_mem (distanceEarthMiles : GeoCoord → GeoCoord → ℚ) (end_ pivot : GeoCoord) :
    ∀ (fuel : Nat) (segs : List StreetSegment) (low high : Int)
      (res : List StreetSegment × Int × Int),
      partitionLoop distanceEarthMiles end_ pivot fuel segs low high = Run.done res →
      ∀ s ∈ res.1, s ∈ segs := by
  intro fuel
  induction fuel with
  | zero => intro segs low high res h; simp [partitionLoop] at h
  | succ fuel ih =>
    intro segs low high res h
    unfold partitionLoop at h
    split at h
    · simp at h
    · simp at h
    · split at h
      · simp at h
      · simp at h
      · rename_i low1 _ high1 _
        split at h
        · split at h
          · rename_i swapped hsw
            intro s hs
            exact swapSegInVector_mem hsw s (ih _ _ _ _ h s hs)
          · simp at h
          · simp at h
        · simp only [Run.done.injEq] at h
          subst h
          intro s hs; exact hs

theorem partition_mem (distanceEarthMiles : GeoCoord → GeoCoord → ℚ) (fuel : Nat)
    (segs : List StreetSegment) (low high : Int) (end_ : GeoCoord)
    (res : List StreetSegment × Int)
    (h : partition distanceEarthMiles fuel segs low high end_ = Run.done res) :
    ∀ s ∈ res.1, s ∈ segs := by
  unfold partition at h
  simp only at h
  split at h
  · simp at h
  · split at h
    · simp at h
    · simp at h
    · rename_i segs1 _ high1 hloop
      split at h
      · rename_i segs2 hsw
        simp only [Run.done.injEq] at h
        subst h
        intro s hs
        exact partitionLoop_mem distanceEarthMiles end_ _ fuel segs low high _ hloop s
          (swapSegInVector_mem hsw s hs)
      · simp at h
      · simp at h

theorem sortSegments_mem (distanceEarthMiles : GeoCoord → GeoCoord → ℚ) :
    ∀ (fuel : Nat) (segs : List StreetSegment) (first last : Int) (end_ : GeoCoord)
      (res : List StreetSegment),
      sortSegments distanceEarthMiles fuel segs first last end_ = Run.done res →
      ∀ s ∈ res, s ∈ segs := by
  intro fuel
  induction fuel with
  | zero => intro segs first last end_ res h; simp [sortSegments] at h
  | succ fuel ih =>
    intro segs first last end_ res h
    unfold sortSegments at h
    split at h
    · simp only [Run.done.injEq] at h
      subst h
      intro s hs; exact hs
    · split at h
      · simp at h
      · simp at h
      · rename_i segs1 pivotIndex hpart
        split at h
        · simp at h
        · simp at h
        · rename_i segs2 hleft
          intro s hs
          exact partition_mem distanceEarthMiles fuel segs first last end_ _ hpart s
            (ih _ _ _ _ _ hleft s (ih _ _ _ _ _ h s hs))

theorem getSegmentsThatStartWith_snd (stdHash : String → Nat) (sm : StreetMapImpl)
    (c : GeoCoord) (segs : List StreetSegment) :
    (getSegmentsThatStartWith stdHash sm c segs).2
      = match ExpandableHashMap.find (hasher stdHash) sm.m_hashMap c with
        | none => segs
        | some v => v := by
  unfold getSegmentsThatStartWith
  cases ExpandableHashMap.find (hasher stdHash) sm.m_hashMap c with
  | none => rfl
  | some v => simp [foldl_push_back]

theorem getSegmentsThatStartWith_fst (stdHash : String → Nat) (sm : StreetMapImpl)
    (c : GeoCoord) (segs : List StreetSegment) :
    (getSegmentsThatStartWith stdHash sm c segs).1 = false
      ↔ ExpandableHashMap.find (hasher stdHash) sm.m_hashMap c = none := by
  unfold getSegmentsThatStartWith
  cases ExpandableHashMap.find (hasher stdHash) sm.m_hashMap c with
  | none => simp
  | some v => simp

theorem matchStreetName_of_name (e sG : GeoCoord) (streetName : String)
    (segs : List StreetSegment) (hn : ∀ s ∈ segs, s.name ≠ "") (h : streetName ≠ "") :
    matchStreetName e sG streetName segs ≠ "" := by
  induction segs with
  | nil => exact h
  | cons a segs ih =>
    unfold matchStreetName
    split
    · exact hn a (by simp)
    · exact ih (fun s hs => hn s (by simp [hs]))

theorem matchStreetName_of_match (e sG : GeoCoord) (streetName : String)
    (segs : List StreetSegment) (hn : ∀ s ∈ segs, s.name ≠ "")
    (h : ∃ s ∈ segs, s.end_ = e ∧ s.start = sG) :
    matchStreetName e sG streetName segs ≠ "" := by
  induction segs with
  | nil => obtain ⟨s, hs, _⟩ := h; simp at hs
  | cons a segs ih =>
    unfold matchStreetName
    split
    · exact hn a (by simp)
    · rename_i hno
      obtain ⟨s, hs, h1, h2⟩ := h
      rcases List.mem_cons.1 hs with hs | hs
      · subst hs
        exact absurd ⟨h1.symm, h2.symm⟩ hno
      · exact ih (fun s hs => hn s (by simp [hs])) ⟨s, hs, h1, h2⟩

/-- The backward walk: unless it aborts, it extends a path from the current coordinate to
`end_` into a path from `start`; with non-empty names in the index it aborts only when the
first predecessor has no indexed segment to `end_`. -/
theorem recreateLoop_isPath (stdHash : String → Nat)
    (distanceEarthMiles : GeoCoord → GeoCoord → ℚ) (sm : StreetMapImpl)
    (m_path : ExpandableHashMap GeoCoord GeoCoord) (start end_ : GeoCoord)
    (hnames : NamesOK stdHash sm) :
    ∀ (fuel : Nat) (endingG : GeoCoord) (startingG : Option GeoCoord)
      (possibleSegs : List StreetSegment) (streetName : String) (route : List StreetSegment)
      (total : ℚ) (res : List StreetSegment × ℚ),
      (∀ s ∈ possibleSegs, s.name ≠ "") → IsPath endingG end_ route →
      (streetName ≠ "" ∨ endingG = start ∨
        ∃ sG, startingG = some sG ∧ ∃ s, SegOK stdHash sm s ∧ s.end_ = endingG ∧ s.start = sG) →
      recreateLoop stdHash distanceEarthMiles sm m_path start fuel endingG startingG
        possibleSegs streetName route total = Run.done res →
      IsPath start end_ res.1 := by
  intro fuel
  induction fuel with
  | zero => intro _ _ _ _ _ _ _ _ _ _ h; simp [recreateLoop] at h
  | succ fuel ih =>
    intro endingG startingG possibleSegs streetName route total res hps hpath hcase h
    unfold recreateLoop at h
    by_cases he : endingG = start
    · simp only [he, if_true, Run.done.injEq] at h
      subst h
      rw [he] at hpath
      exact hpath
    · simp only [he, if_false] at h
      cases hsG : startingG with
      | none => rw [hsG] at h; simp at h
      | some sG =>
        rw [hsG] at h
        simp only at h
        have hps1 : ∀ s ∈ (getSegmentsThatStartWith stdHash sm sG possibleSegs).2,
            s.name ≠ "" := by
          rw [getSegmentsThatStartWith_snd]
          cases hf : ExpandableHashMap.find (hasher stdHash) sm.m_hashMap sG with
          | none => exact hps
          | some v => exact hnames sG v hf
        have hname1 : matchStreetName endingG sG streetName
            (getSegmentsThatStartWith stdHash sm sG possibleSegs).2 ≠ "" := by
          rcases hcase with hc | hc | hc
          · exact matchStreetName_of_name _ _ _ _ hps1 hc
          · exact absurd hc he
          · obtain ⟨sG', e1, s, ⟨v, hv, hsv⟩, h1, h2⟩ := hc
            rw [hsG] at e1
            simp only [Option.some.injEq] at e1
            subst e1
            apply matchStreetName_of_match _ _ _ _ hps1
            rw [getSegmentsThatStartWith_snd]
            rw [h2] at hv
            rw [hv]
            exact ⟨s, hsv, h1, h2⟩
        simp only [hname1, if_false] at h
        refine ih _ _ _ _ _ _ _ hps1 ?_ (Or.inl hname1) h
        unfold IsPath
        exact ⟨rfl, hpath⟩

theorem explore_inv {stdHash : String → Nat} {sm : StreetMapImpl} {start : GeoCoord}
    {st : SearchState} (h : SearchInv stdHash sm start st) (seg : StreetSegment)
    (hseg : SegOK stdHash sm seg) : SearchInv stdHash sm start (explore stdHash st seg) := by
  obtain ⟨hwf, hq, hex⟩ := h
  unfold explore
  by_cases hmem : seg.end_ ∈ st.explored
  · simp only [hmem, if_true]
    exact ⟨hwf, hq, hex⟩
  · simp only [hmem, if_false]
    obtain ⟨w1, w2⟩ := hwf.associate seg.end_ seg.start
    refine ⟨w1, ?_, ?_⟩
    · intro x hx
      simp only [List.mem_append, List.mem_singleton] at hx ⊢
      rcases hx with hx | hx
      · exact Or.inl (hq x hx)
      · exact Or.inr hx
    · intro x hx hne
      simp only [List.mem_append, List.mem_singleton] at hx
      simp only
      rw [w2]
      rcases hx with hx | hx
      · have hxe : x ≠ seg.end_ := fun e => hmem (e ▸ hx)
        simp only [hxe, if_false]
        exact hex x hx hne
      · subst hx
        simp only [if_true]
        exact ⟨seg, hseg, rfl, rfl⟩

theorem foldl_explore_inv {stdHash : String → Nat} {sm : StreetMapImpl} {start : GeoCoord}
    (segs : List StreetSegment) :
    ∀ {st : SearchState}, SearchInv stdHash sm start st → (∀ s ∈ segs, SegOK stdHash sm s) →
      SearchInv stdHash sm start (segs.foldl (explore stdHash) st) := by
  induction segs with
  | nil => intro st h _; exact h
  | cons a segs ih =>
    intro st h hs
    rw [List.foldl_cons]
    exact ih (explore_inv h a (hs a (by simp))) (fun s hs' => hs s (by simp [hs']))

theorem segOK_adjacent {stdHash : String → Nat} {sm : StreetMapImpl}
    (hstarts : StartsOK stdHash sm) (curr : GeoCoord) (adjacentSegs : List StreetSegment)
    (h : ∀ s ∈ adjacentSegs, SegOK stdHash sm s) :
    ∀ s ∈ (getSegmentsThatStartWith stdHash sm curr adjacentSegs).2, SegOK stdHash sm s := by
  rw [getSegmentsThatStartWith_snd]
  cases hf : ExpandableHashMap.find (hasher stdHash) sm.m_hashMap curr with
  | none => exact h
  | some v =>
    intro s hs
    have := hstarts curr v hf s hs
    exact ⟨v, by rw [this]; exact hf, hs⟩

/-- The search loop: when it reports a route, the route leads from `start` to `end_`. -/
theorem searchLoop_isPath (stdHash : String → Nat)
    (distanceEarthMiles : GeoCoord → GeoCoord → ℚ) (sm : StreetMapImpl)
    (start end_ : GeoCoord) (route : List StreetSegment) (hne : start ≠ end_)
    (hnames : NamesOK stdHash sm) (hstarts : StartsOK stdHash sm) :
    ∀ (fuel : Nat) (st : SearchState) (adjacentSegs : List StreetSegment) (res : SearchResult),
      SearchInv stdHash sm start st → (∀ s ∈ adjacentSegs, SegOK stdHash sm s) →
      searchLoop stdHash distanceEarthMiles sm start end_ route fuel st adjacentSegs
        = Run.done res →
      res.found = true → IsPath start end_ res.route := by
  intro fuel
  induction fuel with
  | zero => intro _ _ _ _ _ h; simp [searchLoop] at h
  | succ fuel ih =>
    intro st adjacentSegs res hinv hadj h hfound
    unfold searchLoop at h
    cases htodo : st.toDo with
    | nil =>
      rw [htodo] at h
      simp only [Run.done.injEq] at h
      subst h
      simp at hfound
    | cons curr rest =>
      rw [htodo] at h
      simp only at h
      by_cases hc : curr = end_
      · simp only [hc, if_true] at h
        split at h
        · rename_i route1 total1 hrec
          simp only [Run.done.injEq] at h
          subst h
          unfold recreateRouteHistory at hrec
          have hmem : end_ ∈ st.explored := hinv.2.1 end_ (by rw [htodo, hc]; simp)
          obtain ⟨s, hs, h1, h2⟩ := hinv.2.2 end_ hmem (fun e => hne e.symm)
          exact recreateLoop_isPath stdHash distanceEarthMiles sm st.m_path start end_ hnames
            fuel end_ _ [] "" [] 0 (route1, total1) (by simp) rfl
            (Or.inr (Or.inr ⟨s.start, h2, s, hs, h1, rfl⟩)) hrec
        · simp at h
        · simp at h
      · simp only [hc, if_false] at h
        split at h
        · simp at h
        · simp at h
        · rename_i sorted hsort
          have hadj1 := segOK_adjacent hstarts curr adjacentSegs hadj
          have hsorted : ∀ s ∈ sorted, SegOK stdHash sm s := fun s hs =>
            hadj1 s (sortSegments_mem distanceEarthMiles fuel _ _ _ _ _ hsort s hs)
          have hinv0 : SearchInv stdHash sm start
              { toDo := rest, explored := st.explored, m_path := st.m_path } := by
            refine ⟨hinv.1, ?_, hinv.2.2⟩
            intro x hx
            exact hinv.2.1 x (by rw [htodo]; simp [hx])
          exact ih _ _ res (foldl_explore_inv sorted hinv0 hsorted) hsorted h hfound

theorem IsPath.continuous {x y : GeoCoord} {route : List StreetSegment}
    (h : IsPath x y route) : Continuous x y route := by
  induction route generalizing x with
  | nil => exact ⟨by simp, by simp, List.chain'_nil⟩
  | cons s rest ih =>
    obtain ⟨h1, h2⟩ := h
    obtain ⟨i1, i2, i3⟩ := ih h2
    refine ⟨?_, ?_, ?_⟩
    · intro t ht
      simp only [List.head?_cons, Option.some.injEq] at ht
      rw [← ht]; exact h1
    · intro t ht
      cases rest with
      | nil =>
        simp only [List.getLast?_singleton, Option.some.injEq] at ht
        rw [← ht]; exact h2
      | cons t' rest' =>
        rw [List.getLast?_cons_cons] at ht
        exact i2 t ht
    · cases rest with
      | nil => exact List.chain'_singleton s
      | cons t' rest' =>
        rw [List.chain'_cons]
        exact ⟨h2.1.symm, i3⟩

theorem IsPath.ne_nil {x y : GeoCoord} {route : List StreetSegment}
    (h : IsPath x y route) (hne : x ≠ y) : route ≠ [] := by
  intro e
  subst e
  exact hne h

theorem segmentsAt_name (c : GeoCoord) (recs : List SegmentRecord) :
    ∀ s ∈ segmentsAt c recs, ∃ r ∈ recs, s.name = r.name := by
  induction recs with
  | nil => simp [segmentsAt]
  | cons r recs ih =>
    intro s hs
    simp only [segmentsAt, List.mem_append] at hs
    rcases hs with (hs | hs) | hs
    · by_cases h1 : r.start = c
      · simp only [h1, if_true, List.mem_singleton] at hs
        exact ⟨r, by simp, by rw [hs]⟩
      · simp [h1] at hs
    · by_cases h2 : r.end_ = c
      · simp only [h2, if_true, List.mem_singleton] at hs
        exact ⟨r, by simp, by rw [hs]⟩
      · simp [h2] at hs
    · obtain ⟨r', hr', e⟩ := ih s hs
      exact ⟨r', by simp [hr'], e⟩

theorem find_load_some {stdHash : String → Nat} {sm : StreetMapImpl}
    (hsm : StreetMapImpl.Reachable stdHash sm) (recs : List SegmentRecord) (c : GeoCoord)
    (v : List StreetSegment)
    (h : ExpandableHashMap.find (hasher stdHash) (load stdHash sm recs).m_hashMap c = some v) :
    v = segmentsAt c recs := by
  have := (load_indexes hsm recs).2 c
  rw [h] at this
  by_cases hE : segmentsAt c recs = []
  · simp [hE] at this
  · simp only [hE, if_false, Option.some.injEq] at this
    exact this

theorem load_startsOK {stdHash : String → Nat} {sm : StreetMapImpl}
    (hsm : StreetMapImpl.Reachable stdHash sm) (recs : List SegmentRecord) :
    StartsOK stdHash (load stdHash sm recs) := by
  intro c v hv s hs
  rw [find_load_some hsm recs c v hv] at hs
  exact segmentsAt_start c recs s hs

theorem load_namesOK {stdHash : String → Nat} {sm : StreetMapImpl}
    (hsm : StreetMapImpl.Reachable stdHash sm) (recs : List SegmentRecord)
    (hnames : ∀ r ∈ recs, r.name ≠ "") : NamesOK stdHash (load stdHash sm recs) := by
  intro c v hv s hs
  rw [find_load_some hsm recs c v hv] at hs
  obtain ⟨r, hr, e⟩ := segmentsAt_name c recs s hs
  rw [e]
  exact hnames r hr

theorem validate_false_iff (stdHash : String → Nat) (sm : StreetMapImpl)
    (start end_ : GeoCoord) :
    (¬ ((getSegmentsThatStartWith stdHash sm start []).1
        && (getSegmentsThatStartWith stdHash sm end_ []).1) = true)
      ↔ (ExpandableHashMap.find (hasher stdHash) sm.m_hashMap start = none ∨
         ExpandableHashMap.find (hasher stdHash) sm.m_hashMap end_ = none) := by
  rw [← getSegmentsThatStartWith_fst stdHash sm start [],
    ← getSegmentsThatStartWith_fst stdHash sm end_ []]
  cases (getSegmentsThatStartWith stdHash sm start []).1 <;>
    cases (getSegmentsThatStartWith stdHash sm end_ []).1 <;> simp

/-- C8: `generatePointToPointRoute` returns `BAD_COORD` exactly when `start` or `end` has
no entry in the street map index, and then the route list, the distance and the
predecessor map are what they were before the call (no search is started); `start = end`
is not excluded. -/
theorem bad_coord_iff (stdHash : String → Nat) (distanceEarthMiles : GeoCoord → GeoCoord → ℚ)
    (fuel : Nat) (sm : StreetMapImpl) (m_path : ExpandableHashMap GeoCoord GeoCoord)
    (start end_ : GeoCoord) (route : List StreetSegment) (totalDistanceTravelled : ℚ) :
    (generatePointToPointRoute stdHash distanceEarthMiles fuel sm m_path start end_ route
        totalDistanceTravelled
      = Run.done { result := DeliveryResult.BAD_COORD, route := route,
                   totalDistanceTravelled := totalDistanceTravelled, m_path := m_path }
      ↔ (ExpandableHashMap.find (hasher stdHash) sm.m_hashMap start = none ∨
         ExpandableHashMap.find (hasher stdHash) sm.m_hashMap end_ = none)) ∧
    (∀ out, generatePointToPointRoute stdHash distanceEarthMiles fuel sm m_path start end_
        route totalDistanceTravelled = Run.done out →
      (out.result = DeliveryResult.BAD_COORD
        ↔ (ExpandableHashMap.find (hasher stdHash) sm.m_hashMap start = none ∨
           ExpandableHashMap.find (hasher stdHash) sm.m_hashMap end_ = none))) := by
  have hv := validate_false_iff stdHash sm start end_
  by_cases hbad : (ExpandableHashMap.find (hasher stdHash) sm.m_hashMap start = none ∨
      ExpandableHashMap.find (hasher stdHash) sm.m_hashMap end_ = none)
  · have hcond := hv.2 hbad
    have hrun : generatePointToPointRoute stdHash distanceEarthMiles fuel sm m_path start end_
        route totalDistanceTravelled
        = Run.done { result := DeliveryResult.BAD_COORD, route := route,
                     totalDistanceTravelled := totalDistanceTravelled, m_path := m_path } := by
      unfold generatePointToPointRoute
      rw [if_pos hcond]
    refine ⟨⟨fun _ => hbad, fun _ => hrun⟩, ?_⟩
    intro out hout
    rw [hrun] at hout
    simp only [Run.done.injEq] at hout
    subst hout
    exact ⟨fun _ => hbad, fun _ => rfl⟩
  · have hcond : ¬ ¬ ((getSegmentsThatStartWith stdHash sm start []).1
        && (getSegmentsThatStartWith stdHash sm end_ []).1) = true := fun h => hbad (hv.1 h)
    have hne : ∀ out, generatePointToPointRoute stdHash distanceEarthMiles fuel sm m_path
        start end_ route totalDistanceTravelled = Run.done out →
        out.result ≠ DeliveryResult.BAD_COORD := by
      intro out hout
      unfold generatePointToPointRoute at hout
      rw [if_neg hcond] at hout
      split at hout
      · simp only [Run.done.injEq] at hout
        subst hout
        simp
      · split at hout
        · rename_i r _
          simp only [Run.done.injEq] at hout
          subst hout
          cases r.found <;> simp
        · simp at hout
        · simp at hout
    refine ⟨⟨fun h => absurd rfl (hne _ h), fun h => absurd h hbad⟩, ?_⟩
    intro out hout
    exact ⟨fun h => absurd h (hne out hout), fun h => absurd h hbad⟩

/-- C9: for a coordinate `x` known to the index, `generatePointToPointRoute(x, x)` returns
`DELIVERY_SUCCESS` with the empty route and distance zero, whatever the route list and the
distance held before, and leaves the predecessor map as it was. -/
theorem route_to_self (stdHash : String → Nat) (distanceEarthMiles : GeoCoord → GeoCoord → ℚ)
    (fuel : Nat) (sm : StreetMapImpl) (m_path : ExpandableHashMap GeoCoord GeoCoord)
    (x : GeoCoord) (route : List StreetSegment) (totalDistanceTravelled : ℚ)
    (hx : ExpandableHashMap.find (hasher stdHash) sm.m_hashMap x ≠ none) :
    generatePointToPointRoute stdHash distanceEarthMiles fuel sm m_path x x route
        totalDistanceTravelled
      = Run.done { result := DeliveryResult.DELIVERY_SUCCESS, route := [],
                   totalDistanceTravelled := 0, m_path := m_path } := by
  have hcond : ¬ ¬ ((getSegmentsThatStartWith stdHash sm x []).1
      && (getSegmentsThatStartWith stdHash sm x []).1) = true := by
    intro h
    rcases (validate_false_iff stdHash sm x x).1 h with h | h <;> exact hx h
  unfold generatePointToPointRoute
  rw [if_neg hcond, if_pos rfl]

/-- Path continuity where the backward walk is not cut short: on a street map loaded from
records whose street names are all non-empty, with any reachable predecessor map left by
earlier queries, a query that returns `DELIVERY_SUCCESS` returns a continuous route: its
first segment starts at `start`, its last ends at `end`, each segment ends where the next
starts, and the route is non-empty when `start` and `end` differ. -/
theorem route_continuous (stdHash : String → Nat)
    (distanceEarthMiles : GeoCoord → GeoCoord → ℚ) (fuel : Nat) (sm : StreetMapImpl)
    (hsm : StreetMapImpl.Reachable stdHash sm) (recs : List SegmentRecord)
    (hnames : ∀ r ∈ recs, r.name ≠ "")
    (m_path : ExpandableHashMap GeoCoord GeoCoord)
    (hpath : ExpandableHashMap.Reachable (hasher stdHash) m_path)
    (start end_ : GeoCoord) (route : List StreetSegment) (totalDistanceTravelled : ℚ)
    (out : RouteOutput)
    (hrun : generatePointToPointRoute stdHash distanceEarthMiles fuel (load stdHash sm recs)
      m_path start end_ route totalDistanceTravelled = Run.done out)
    (hres : out.result = DeliveryResult.DELIVERY_SUCCESS) :
    Continuous start end_ out.route ∧ (start ≠ end_ → out.route ≠ []) := by
  unfold generatePointToPointRoute at hrun
  split at hrun
  · simp only [Run.done.injEq] at hrun
    subst hrun
    simp at hres
  · split at hrun
    · rename_i heq
      simp only [Run.done.injEq] at hrun
      subst hrun
      exact ⟨⟨by simp, by simp, List.chain'_nil⟩, fun h => absurd heq h⟩
    · rename_i hne
      split at hrun
      · rename_i r hfind
        simp only [Run.done.injEq] at hrun
        subst hrun
        have hfound : r.found = true := by
          cases hf : r.found with
          | true => rfl
          | false => simp [hf] at hres
        have hinv : SearchInv stdHash (load stdHash sm recs) start
            { toDo := [start], explored := [start], m_path := m_path } := by
          refine ⟨hpath.wf, fun x hx => hx, ?_⟩
          intro x hx hxne
          simp only [List.mem_singleton] at hx
          exact absurd hx hxne
        have hp := searchLoop_isPath stdHash distanceEarthMiles (load stdHash sm recs) start
          end_ route hne (load_namesOK hsm recs hnames) (load_startsOK hsm recs) fuel _ [] r
          hinv (by simp) hfind hfound
        exact ⟨hp.continuous, fun h => hp.ne_nil h⟩
      · simp at hrun
      · simp at hrun

/-- Witness of C9: `A` is known to the map loaded from `sampleRecords`; the query from `A`
to `A` clears a stale route and distance and reports success. -/
theorem route_to_self_witness :
    ExpandableHashMap.find (hasher lengthHash)
      (load lengthHash StreetMapImpl.construct sampleRecords).m_hashMap coordA ≠ none ∧
    generatePointToPointRoute lengthHash unitDistance 0
        (load lengthHash StreetMapImpl.construct sampleRecords)
        (ExpandableHashMap.construct (1 / 2)) coordA coordA
        [{ start := coordB, end_ := coordC, name := "stale" }] 7
      = Run.done { result := DeliveryResult.DELIVERY_SUCCESS, route := [],
                   totalDistanceTravelled := 0,
                   m_path := ExpandableHashMap.construct (1 / 2) } :=
  ⟨by with_unfolding_all decide,
    route_to_self lengthHash unitDistance 0
      (load lengthHash StreetMapImpl.construct sampleRecords)
      (ExpandableHashMap.construct (1 / 2)) coordA
      [{ start := coordB, end_ := coordC, name := "stale" }] 7
      (by with_unfolding_all decide)⟩

/-- C10: path continuity fails on the map loaded from `A - B ""`, `B - C "Main"`: the query
from `A` to `C` returns `DELIVERY_SUCCESS` with the single segment `B -> C`, whose start is
not `A`.  The backward walk of `recreateRouteHistory` finds the segment `A -> B`, takes its
empty name for "street not found" and returns early, and `findOptimalRoute` reports
success all the same. -/
theorem route_not_continuous :
    runMap (fun out => (out.result, out.route))
        (generatePointToPointRoute lengthHash unitDistance 10
          (load lengthHash StreetMapImpl.construct unnamedRecords)
          (ExpandableHashMap.construct (1 / 2)) coordA coordC [] 0)
      = Run.done (DeliveryResult.DELIVERY_SUCCESS,
          [{ start := coordB, end_ := coordC, name := "Main" }]) ∧
    ¬ Continuous coordA coordC [{ start := coordB, end_ := coordC, name := "Main" }] := by
  refine ⟨by with_unfolding_all decide, ?_⟩
  intro h
  have := h.1 { start := coordB, end_ := coordC, name := "Main" } rfl
  exact absurd this (by decide)

/-- An instance of `route_continuous`: the query from `A` to `C` on the map loaded from
`sampleRecords` succeeds with the route `A -> B "Main"`, `B -> C "Oak"`. -/
theorem route_continuous_witness :
    sampleQuery = Run.done sampleOutput ∧
    sampleOutput.result = DeliveryResult.DELIVERY_SUCCESS ∧
    sampleOutput.route = [{ start := coordA, end_ := coordB, name := "Main" },
                          { start := coordB, end_ := coordC, name := "Oak" }] ∧
    Continuous coordA coordC sampleOutput.route :=
  ⟨by with_unfolding_all decide, by with_unfolding_all decide, by with_unfolding_all decide,
    (route_continuous lengthHash unitDistance 10 StreetMapImpl.construct
      StreetMapImpl.Reachable.construct sampleRecords (by decide)
      (ExpandableHashMap.construct (1 / 2)) (ExpandableHashMap.Reachable.construct (1 / 2))
      coordA coordC [] 0 sampleOutput (by with_unfolding_all decide)
      (by with_unfolding_all decide)).1⟩

end PointToPointRouterImpl

namespace PointToPointRouterImpl

open ExpandableHashMap StreetMapImpl

/-- The backward walk keeps the distance equal to the sum over the route, also when it
stops early. -/
theorem recreateLoop_distance (stdHash : String → Nat)
    (distanceEarthMiles : GeoCoord → GeoCoord → ℚ) (sm : StreetMapImpl)
    (m_path : ExpandableHashMap GeoCoord GeoCoord) (start : GeoCoord) :
    ∀ (fuel : Nat) (endingG : GeoCoord) (startingG : Option GeoCoord)
      (possibleSegs : List StreetSegment) (streetName : String) (route : List StreetSegment)
      (total : ℚ) (res : List StreetSegment × ℚ),
      total = routeDistance distanceEarthMiles route →
      recreateLoop stdHash distanceEarthMiles sm m_path start fuel endingG startingG
        possibleSegs streetName route total = Run.done res →
      res.2 = routeDistance distanceEarthMiles res.1 := by
  intro fuel
  induction fuel with
  | zero => intro _ _ _ _ _ _ _ _ h; simp [recreateLoop] at h
  | succ fuel ih =>
    intro endingG startingG possibleSegs streetName route total res htot h
    unfold recreateLoop at h
    split at h
    · simp only [Run.done.injEq] at h
      subst h
      exact htot
    · split at h
      · simp at h
      · rename_i sG
        simp only at h
        split at h
        · simp only [Run.done.injEq] at h
          subst h
          exact htot
        · refine ih _ _ _ _ _ _ _ ?_ h
          simp only [routeDistance, List.map_cons, List.sum_cons] at htot ⊢
          rw [htot]
          ring

theorem searchLoop_distance (stdHash : String → Nat)
    (distanceEarthMiles : GeoCoord → GeoCoord → ℚ) (sm : StreetMapImpl)
    (start end_ : GeoCoord) (route : List StreetSegment) :
    ∀ (fuel : Nat) (st : SearchState) (adjacentSegs : List StreetSegment) (res : SearchResult),
      searchLoop stdHash distanceEarthMiles sm start end_ route fuel st adjacentSegs
        = Run.done res →
      res.found = true →
      res.totalDistanceTravelled = routeDistance distanceEarthMiles res.route := by
  intro fuel
  induction fuel with
  | zero => intro _ _ _ h; simp [searchLoop] at h
  | succ fuel ih =>
    intro st adjacentSegs res h hfound
    unfold searchLoop at h
    split at h
    · simp only [Run.done.injEq] at h
      subst h
      simp at hfound
    · split at h
      · split at h
        · rename_i route1 total1 hrec
          simp only [Run.done.injEq] at h
          subst h
          unfold recreateRouteHistory at hrec
          exact recreateLoop_distance stdHash distanceEarthMiles sm st.m_path start fuel _ _ _ _
            _ _ (route1, total1) (by simp [routeDistance]) hrec
        · simp at h
        · simp at h
      · simp only at h
        split at h
        · simp at h
        · simp at h
        · exact ih _ _ res h hfound

/-- C11: whenever a query returns `DELIVERY_SUCCESS`, the returned distance is the sum,
over the segments of the returned route, of the distance between the segment's start and
end; the value the distance variable held before the call has no part in it.  It holds
for every street map, every predecessor map and every step budget. -/
theorem distance_is_route_sum (stdHash : String → Nat)
    (distanceEarthMiles : GeoCoord → GeoCoord → ℚ) (fuel : Nat) (sm : StreetMapImpl)
    (m_path : ExpandableHashMap GeoCoord GeoCoord) (start end_ : GeoCoord)
    (route : List StreetSegment) (totalDistanceTravelled : ℚ) (out : RouteOutput)
    (hrun : generatePointToPointRoute stdHash distanceEarthMiles fuel sm m_path start end_
      route totalDistanceTravelled = Run.done out)
    (hres : out.result = DeliveryResult.DELIVERY_SUCCESS) :
    out.totalDistanceTravelled = routeDistance distanceEarthMiles out.route := by
  unfold generatePointToPointRoute at hrun
  split at hrun
  · simp only [Run.done.injEq] at hrun
    subst hrun
    simp at hres
  · split at hrun
    · simp only [Run.done.injEq] at hrun
      subst hrun
      simp [routeDistance]
    · split at hrun
      · rename_i r hfind
        simp only [Run.done.injEq] at hrun
        subst hrun
        have hfound : r.found = true := by
          cases hf : r.found with
          | true => rfl
          | false => simp [hf] at hres
        exact searchLoop_distance stdHash distanceEarthMiles sm start end_ route fuel _ [] r
          hfind hfound
      · simp at hrun
      · simp at hrun

/-- Witness of C11: the query from `A` to `C` on the map loaded from `sampleRecords`,
called with the stale distance 5, returns the two-segment route and the distance
`1 + 1 = 2`. -/
theorem distance_is_route_sum_witness :
    runMap (fun out => (out.result, out.route.length, out.totalDistanceTravelled))
        (generatePointToPointRoute lengthHash unitDistance 10
          (load lengthHash StreetMapImpl.construct sampleRecords) constructPath
          coordA coordC [] 5)
      = Run.done (DeliveryResult.DELIVERY_SUCCESS, 2, 2) ∧
    sampleOutput.totalDistanceTravelled = routeDistance unitDistance sampleOutput.route :=
  ⟨by with_unfolding_all decide,
    distance_is_route_sum lengthHash unitDistance 10
      (load lengthHash StreetMapImpl.construct sampleRecords)
      (ExpandableHashMap.construct (1 / 2)) coordA coordC [] 0 sampleOutput
      (by with_unfolding_all decide) (by with_unfolding_all decide)⟩

/-- A range of two positions is returned as it is: `last - first <= 1` holds for it. -/
theorem sortSegments_two (distanceEarthMiles : GeoCoord → GeoCoord → ℚ) (fuel : Nat)
    (a b : StreetSegment) (target : GeoCoord) :
    sortSegments distanceEarthMiles (fuel + 1) [a, b] 0 (([a, b].length : Int) - 1) target
      = Run.done [a, b] := by
  unfold sortSegments
  simp

/-- The code at the failing input of C17: `sortSegments(segs, 0, 1, C)` on the vector
`[A -> B, A -> C]` returns the vector unchanged, although the first end is at distance 1
from `C` and the second at distance 0. -/
theorem sortSegments_leaves_pair_unsorted :
    sortSegments unitDistance 10 twoSegments 0 ((twoSegments.length : Int) - 1) coordC
      = Run.done twoSegments ∧
    ¬ SortedByDistance unitDistance coordC twoSegments := by
  refine ⟨by with_unfolding_all decide, ?_⟩
  intro h
  unfold SortedByDistance twoSegments at h
  rw [List.pairwise_cons] at h
  have := h.1 _ (List.mem_singleton.2 rfl)
  revert this
  with_unfolding_all decide

end PointToPointRouterImpl

namespace DeliveryOptimizerImpl

theorem foldl_addLeg (distanceEarthMiles : GeoCoord → GeoCoord → ℚ) (depot : GeoCoord)
    (deliveries : List DeliveryRequest) :
    ∀ (acc : ℚ) (prev : GeoCoord),
      (deliveries.foldl (addLeg distanceEarthMiles) (acc, prev)).1
        + distanceEarthMiles (deliveries.foldl (addLeg distanceEarthMiles) (acc, prev)).2 depot
      = acc + ((legs (prev :: deliveries.map DeliveryRequest.location ++ [depot])).map
          (fun p => distanceEarthMiles p.1 p.2)).sum := by
  induction deliveries with
  | nil => intro acc prev; simp [legs]
  | cons d rest ih =>
    intro acc prev
    rw [List.foldl_cons]
    show ((rest.foldl (addLeg distanceEarthMiles)
        (acc + distanceEarthMiles prev d.location, d.location)).1
      + distanceEarthMiles (rest.foldl (addLeg distanceEarthMiles)
        (acc + distanceEarthMiles prev d.location, d.location)).2 depot) = _
    rw [ih]
    simp only [List.map_cons, List.cons_append, legs, List.sum_cons]
    rw [add_assoc]
    rfl

/-- C15: `optimizeDeliveryOrder` sets `oldCrowDistance` to
`dist(depot, x1) + dist(x1, x2) + ... + dist(xn, depot)` over the original order
(`dist(depot, depot)` for the empty list), whatever `oldCrowDistance` held before. -/
theorem oldCrowDistance_is_tour (distanceEarthMiles : GeoCoord → GeoCoord → ℚ)
    (depot : GeoCoord) (deliveries : List DeliveryRequest)
    (oldCrowDistance newCrowDistance : ℚ) :
    (optimizeDeliveryOrder distanceEarthMiles depot deliveries oldCrowDistance
        newCrowDistance).oldCrowDistance
      = tourDistance distanceEarthMiles depot (deliveries.map DeliveryRequest.location) ∧
    (optimizeDeliveryOrder distanceEarthMiles depot [] oldCrowDistance
        newCrowDistance).oldCrowDistance = distanceEarthMiles depot depot := by
  constructor
  · show (deliveries.foldl (addLeg distanceEarthMiles) (0, depot)).1
      + distanceEarthMiles (deliveries.foldl (addLeg distanceEarthMiles) (0, depot)).2 depot = _
    rw [foldl_addLeg]
    simp [tourDistance]
  · show (0 : ℚ) + distanceEarthMiles depot depot = _
    simp

/-- C16: `optimizeDeliveryOrder` returns the delivery list as it was, same elements in the
same order, and `newCrowDistance` equals `oldCrowDistance`. -/
theorem deliveries_unchanged (distanceEarthMiles : GeoCoord → GeoCoord → ℚ)
    (depot : GeoCoord) (deliveries : List DeliveryRequest)
    (oldCrowDistance newCrowDistance : ℚ) :
    (optimizeDeliveryOrder distanceEarthMiles depot deliveries oldCrowDistance
        newCrowDistance).deliveries = deliveries ∧
    List.Perm (optimizeDeliveryOrder distanceEarthMiles depot deliveries oldCrowDistance
        newCrowDistance).deliveries deliveries ∧
    (optimizeDeliveryOrder distanceEarthMiles depot deliveries oldCrowDistance
        newCrowDistance).newCrowDistance
      = (optimizeDeliveryOrder distanceEarthMiles depot deliveries oldCrowDistance
        newCrowDistance).oldCrowDistance :=
  ⟨rfl, List.Perm.refl _, rfl⟩

end DeliveryOptimizerImpl

namespace PointToPointRouterImpl

open ExpandableHashMap StreetMapImpl

/-- What one query may do to the predecessor map, relative to the map `m0` it started
from: the map stays reachable and no association of `m0` disappears. -/
theorem explore_keeps (stdHash : String → Nat) (m0 : ExpandableHashMap GeoCoord GeoCoord)
    (st : SearchState) (seg : StreetSegment)
    (h : ExpandableHashMap.Reachable (hasher stdHash) st.m_path ∧
      ∀ k, ExpandableHashMap.find (hasher stdHash) m0 k ≠ none →
        ExpandableHashMap.find (hasher stdHash) st.m_path k ≠ none) :
    ExpandableHashMap.Reachable (hasher stdHash) (explore stdHash st seg).m_path ∧
      ∀ k, ExpandableHashMap.find (hasher stdHash) m0 k ≠ none →
        ExpandableHashMap.find (hasher stdHash) (explore stdHash st seg).m_path k ≠ none := by
  unfold explore
  by_cases hmem : seg.end_ ∈ st.explored
  · simp only [hmem, if_true]
    exact h
  · simp only [hmem, if_false]
    refine ⟨ExpandableHashMap.Reachable.associate _ _ h.1, ?_⟩
    intro k hk
    rw [(h.1.wf.associate seg.end_ seg.start).2 k]
    by_cases e : k = seg.end_
    · simp [e]
    · simp only [e, if_false]
      exact h.2 k hk

theorem foldl_explore_keeps (stdHash : String → Nat)
    (m0 : ExpandableHashMap GeoCoord GeoCoord) (segs : List StreetSegment) :
    ∀ (st : SearchState),
      (ExpandableHashMap.Reachable (hasher stdHash) st.m_path ∧
        ∀ k, ExpandableHashMap.find (hasher stdHash) m0 k ≠ none →
          ExpandableHashMap.find (hasher stdHash) st.m_path k ≠ none) →
      (ExpandableHashMap.Reachable (hasher stdHash) (segs.foldl (explore stdHash) st).m_path ∧
        ∀ k, ExpandableHashMap.find (hasher stdHash) m0 k ≠ none →
          ExpandableHashMap.find (hasher stdHash)
            (segs.foldl (explore stdHash) st).m_path k ≠ none) := by
  induction segs with
  | nil => intro st h; exact h
  | cons a segs ih =>
    intro st h
    rw [List.foldl_cons]
    exact ih _ (explore_keeps stdHash m0 st a h)

theorem searchLoop_keeps (stdHash : String → Nat)
    (distanceEarthMiles : GeoCoord → GeoCoord → ℚ) (sm : StreetMapImpl)
    (start end_ : GeoCoord) (route : List StreetSegment)
    (m0 : ExpandableHashMap GeoCoord GeoCoord) :
    ∀ (fuel : Nat) (st : SearchState) (adjacentSegs : List StreetSegment) (res : SearchResult),
      (ExpandableHashMap.Reachable (hasher stdHash) st.m_path ∧
        ∀ k, ExpandableHashMap.find (hasher stdHash) m0 k ≠ none →
          ExpandableHashMap.find (hasher stdHash) st.m_path k ≠ none) →
      searchLoop stdHash distanceEarthMiles sm start end_ route fuel st adjacentSegs
        = Run.done res →
      (ExpandableHashMap.Reachable (hasher stdHash) res.m_path ∧
        ∀ k, ExpandableHashMap.find (hasher stdHash) m0 k ≠ none →
          ExpandableHashMap.find (hasher stdHash) res.m_path k ≠ none) := by
  intro fuel
  induction fuel with
  | zero => intro _ _ _ _ h; simp [searchLoop] at h
  | succ fuel ih =>
    intro st adjacentSegs res hst h
    unfold searchLoop at h
    cases htodo : st.toDo with
    | nil =>
      rw [htodo] at h
      simp only [Run.done.injEq] at h
      subst h
      exact hst
    | cons curr rest =>
      rw [htodo] at h
      simp only at h
      split at h
      · split at h
        · simp only [Run.done.injEq] at h
          subst h
          exact hst
        · simp at h
        · simp at h
      · split at h
        · simp at h
        · simp at h
        · exact ih _ _ res
            (foldl_explore_keeps stdHash m0 _ ⟨rest, st.explored, st.m_path⟩ hst) h

theorem generate_keeps (stdHash : String → Nat)
    (distanceEarthMiles : GeoCoord → GeoCoord → ℚ) (fuel : Nat) (sm : StreetMapImpl)
    (m_path : ExpandableHashMap GeoCoord GeoCoord)
    (hpath : ExpandableHashMap.Reachable (hasher stdHash) m_path)
    (start end_ : GeoCoord) (route : List StreetSegment) (totalDistanceTravelled : ℚ)
    (out : RouteOutput)
    (hrun : generatePointToPointRoute stdHash distanceEarthMiles fuel sm m_path start end_
      route totalDistanceTravelled = Run.done out) :
    ExpandableHashMap.Reachable (hasher stdHash) out.m_path ∧
      ∀ k, ExpandableHashMap.find (hasher stdHash) m_path k ≠ none →
        ExpandableHashMap.find (hasher stdHash) out.m_path k ≠ none := by
  unfold generatePointToPointRoute at hrun
  split at hrun
  · simp only [Run.done.injEq] at hrun
    subst hrun
    exact ⟨hpath, fun _ h => h⟩
  · split at hrun
    · simp only [Run.done.injEq] at hrun
      subst hrun
      exact ⟨hpath, fun _ h => h⟩
    · split at hrun
      · rename_i r hfind
        simp only [Run.done.injEq] at hrun
        subst hrun
        exact searchLoop_keeps stdHash distanceEarthMiles sm start end_ route m_path fuel _ []
          r ⟨hpath, fun _ h => h⟩ hfind
      · simp at hrun
      · simp at hrun

theorem pathAfterQueries_keeps (stdHash : String → Nat)
    (distanceEarthMiles : GeoCoord → GeoCoord → ℚ) (fuel : Nat) (sm : StreetMapImpl)
    (queries : List (GeoCoord × GeoCoord)) :
    ∀ (m0 m : ExpandableHashMap GeoCoord GeoCoord),
      ExpandableHashMap.Reachable (hasher stdHash) m0 →
      pathAfterQueries stdHash distanceEarthMiles fuel sm m0 queries = Run.done m →
      ExpandableHashMap.Reachable (hasher stdHash) m ∧
        ∀ k, ExpandableHashMap.find (hasher stdHash) m0 k ≠ none →
          ExpandableHashMap.find (hasher stdHash) m k ≠ none := by
  induction queries with
  | nil =>
    intro m0 m h0 h
    simp only [pathAfterQueries, Run.done.injEq] at h
    subst h
    exact ⟨h0, fun _ h => h⟩
  | cons q rest ih =>
    intro m0 m h0 h
    unfold pathAfterQueries at h
    split at h
    · rename_i out hout
      obtain ⟨g1, g2⟩ := generate_keeps stdHash distanceEarthMiles fuel sm m0 h0 _ _ _ _ out hout
      obtain ⟨i1, i2⟩ := ih out.m_path m g1 h
      exact ⟨i1, fun k hk => i2 k (g2 k hk)⟩
    · simp at h
    · simp at h

theorem pathAfterQueries_append (stdHash : String → Nat)
    (distanceEarthMiles : GeoCoord → GeoCoord → ℚ) (fuel : Nat) (sm : StreetMapImpl)
    (queries more : List (GeoCoord × GeoCoord)) :
    ∀ (m0 m : ExpandableHashMap GeoCoord GeoCoord),
      pathAfterQueries stdHash distanceEarthMiles fuel sm m0 queries = Run.done m →
      pathAfterQueries stdHash distanceEarthMiles fuel sm m0 (queries ++ more)
        = pathAfterQueries stdHash distanceEarthMiles fuel sm m more := by
  induction queries with
  | nil =>
    intro m0 m h
    simp only [pathAfterQueries, Run.done.injEq] at h
    subst h
    rfl
  | cons q rest ih =>
    intro m0 m h
    rw [List.cons_append]
    unfold pathAfterQueries at h
    split at h
    · rename_i out hout
      conv_lhs => unfold pathAfterQueries
      rw [hout]
      exact ih out.m_path m h
    · simp at h
    · simp at h

/-- Counterexample to C18 as stated: after the query from `A` to `C` on the map loaded
from `sampleRecords`, the predecessor map with which the search of the next query starts
holds the association `B -> A` that this query recorded. -/
theorem path_not_empty_at_next_query :
    runMap (fun m => (ExpandableHashMap.find (hasher lengthHash) m coordB, m.m_numItems))
        (pathAfterQueries lengthHash unitDistance 10
          (load lengthHash StreetMapImpl.construct sampleRecords) constructPath
          [(coordA, coordC)])
      = Run.done (some coordA, 2) := by
  with_unfolding_all decide

/-- C18, as amended: the predecessor map is empty when the search of the first query of a
router starts, and it is never emptied afterwards: the search of each later query starts
with the map the previous query left, in which every association present before that
query is still present (with the old or an overwritten value). -/
theorem path_accumulates (stdHash : String → Nat)
    (distanceEarthMiles : GeoCoord → GeoCoord → ℚ) (fuel : Nat) (sm : StreetMapImpl)
    (queries : List (GeoCoord × GeoCoord)) (query : GeoCoord × GeoCoord)
    (m m1 : ExpandableHashMap GeoCoord GeoCoord)
    (h : pathAfterQueries stdHash distanceEarthMiles fuel sm constructPath queries
      = Run.done m)
    (h1 : pathAfterQueries stdHash distanceEarthMiles fuel sm constructPath
      (queries ++ [query]) = Run.done m1) :
    pathAfterQueries stdHash distanceEarthMiles fuel sm constructPath [] = Run.done constructPath ∧
    (∀ k, ExpandableHashMap.find (hasher stdHash) constructPath k = none) ∧
    (∀ k, ExpandableHashMap.find (hasher stdHash) m k ≠ none →
      ExpandableHashMap.find (hasher stdHash) m1 k ≠ none) := by
  refine ⟨rfl, fun k => find_construct (hasher stdHash) _ k, ?_⟩
  have hm := (pathAfterQueries_keeps stdHash distanceEarthMiles fuel sm queries constructPath m
    (ExpandableHashMap.Reachable.construct (1 / 2)) h).1
  rw [pathAfterQueries_append stdHash distanceEarthMiles fuel sm queries [query] constructPath
    m h] at h1
  exact (pathAfterQueries_keeps stdHash distanceEarthMiles fuel sm [query] m m1 hm h1).2

/-- Witness of C18 as amended: the queries `A` to `C` and then `C` to `B` on the map loaded
from `sampleRecords`; the association of `B`, recorded by the first as `B -> A`, is still
present after the second, which overwrote it with `B -> C`. -/
theorem path_accumulates_witness :
    runMap (fun m => ExpandableHashMap.find (hasher lengthHash) m coordB)
        (pathAfterQueries lengthHash unitDistance 10
          (load lengthHash StreetMapImpl.construct sampleRecords) constructPath
          ([(coordA, coordC)] ++ [(coordC, coordB)]))
      = Run.done (some coordC) ∧
    (ExpandableHashMap.find (hasher lengthHash) sampleOutput.m_path coordB ≠ none →
      ExpandableHashMap.find (hasher lengthHash)
        (match pathAfterQueries lengthHash unitDistance 10
            (load lengthHash StreetMapImpl.construct sampleRecords) sampleOutput.m_path
            [(coordC, coordB)] with
          | Run.done m1 => m1
          | _ => constructPath) coordB ≠ none) :=
  ⟨by with_unfolding_all decide,
    (path_accumulates lengthHash unitDistance 10
      (load lengthHash StreetMapImpl.construct sampleRecords) [(coordA, coordC)]
      (coordC, coordB) sampleOutput.m_path
      (match pathAfterQueries lengthHash unitDistance 10
          (load lengthHash StreetMapImpl.construct sampleRecords) sampleOutput.m_path
          [(coordC, coordB)] with
        | Run.done m1 => m1
        | _ => constructPath)
      (by with_unfolding_all decide) (by with_unfolding_all decide)).2.2 coordB⟩

/-- The code at the failing input of C19: on the map loaded from `A - B ""`, `B - C "Main"`
the search from `A` reaches `C`, and `recreateRouteHistory` leaves through its
`streetName == ""` branch after one segment: the route is `[B -> C]`, not a path from `A`. -/
theorem reconstruction_aborts_on_empty_name :
    runMap (fun r => (r.found, r.route))
        (findOptimalRoute lengthHash unitDistance 10
          (load lengthHash StreetMapImpl.construct unnamedRecords) constructPath
          coordA coordC [])
      = Run.done (true, [{ start := coordB, end_ := coordC, name := "Main" }]) ∧
    ¬ IsPath coordA coordC [{ start := coordB, end_ := coordC, name := "Main" }] := by
  refine ⟨by with_unfolding_all decide, ?_⟩
  intro h
  exact absurd h.1 (by decide)

end PointToPointRouterImpl

namespace PointToPointRouterImpl

open ExpandableHashMap StreetMapImpl

theorem vectorAt_some_iff (segs : List StreetSegment) (i : Int) (s : StreetSegment) :
    vectorAt segs i = some s ↔ 0 ≤ i ∧ segs[i.toNat]? = some s := by
  unfold vectorAt
  by_cases h : 0 ≤ i
  · simp [h]
  · simp [h]

theorem vectorAt_range {segs : List StreetSegment} {i : Int} {s : StreetSegment}
    (h : vectorAt segs i = some s) : 0 ≤ i ∧ i < (segs.length : Int) := by
  rw [vectorAt_some_iff] at h
  refine ⟨h.1, ?_⟩
  have := (List.getElem?_eq_some.1 h.2).1
  omega

theorem vectorAt_exists {segs : List StreetSegment} {i : Int} (h0 : 0 ≤ i)
    (h1 : i < (segs.length : Int)) : ∃ s, vectorAt segs i = some s := by
  have hlt : i.toNat < segs.length := by omega
  exact ⟨segs[i.toNat], by rw [vectorAt_some_iff]; exact ⟨h0, List.getElem?_eq_getElem hlt⟩⟩

theorem set_set_perm (l : List StreetSegment) (n m : Nat) (a b : StreetSegment)
    (ha : l[n]? = some a) (hb : l[m]? = some b) : ((l.set n b).set m a).Perm l := by
  obtain ⟨hn, han⟩ := List.getElem?_eq_some.1 ha
  obtain ⟨hm, hbm⟩ := List.getElem?_eq_some.1 hb
  by_cases e : n = m
  · subst e
    have hab : a = b := by rw [← han, ← hbm]
    subst hab
    have h1 : l.set n a = l := by
      apply List.ext_getElem (by simp)
      intro k h1 h2
      rw [List.getElem_set]
      split
      · rename_i e; subst e; exact han.symm
      · rfl
    rw [h1, h1]
  · rw [List.perm_iff_count]
    intro x
    have hm' : m < (l.set n b).length := by simpa using hm
    rw [List.count_set _ _ _ _ hm', List.count_set _ _ _ _ hn]
    have h2 : (l.set n b)[m] = b := by
      rw [List.getElem_set]
      simp [e, hbm]
    rw [h2, han]
    have hca : (a == x) = true → 0 < List.count x l := by
      intro h
      have hax : a = x := by simpa using h
      rw [List.count_pos_iff]
      rw [← hax, ← han]
      exact List.getElem_mem _
    by_cases h1 : (a == x) = true <;> by_cases h3 : (b == x) = true
    · have := hca h1
      simp only [h1, h3, if_true]
      omega
    · have := hca h1
      simp only [h1, h3, if_true, if_false]
      omega
    · simp only [h1, h3, if_true, if_false, Bool.false_eq_true]
      omega
    · simp only [h1, h3, if_false, Bool.false_eq_true]
      omega

theorem swapSegInVector_eq {segs : List StreetSegment} {i j : Int} {a b : StreetSegment}
    (ha : vectorAt segs i = some a) (hb : vectorAt segs j = some b) :
    swapSegInVector segs i j = Run.done ((segs.set i.toNat b).set j.toNat a) := by
  unfold swapSegInVector
  rw [ha, hb]

theorem swapSegInVector_perm {segs segs' : List StreetSegment} {i j : Int}
    (h : swapSegInVector segs i j = Run.done segs') : segs'.Perm segs := by
  unfold swapSegInVector at h
  split at h
  · rename_i temp other h1 h2
    simp only [Run.done.injEq] at h
    subst h
    exact set_set_perm segs _ _ temp other ((vectorAt_some_iff _ _ _).1 h1).2
      ((vectorAt_some_iff _ _ _).1 h2).2
  · simp at h

theorem vectorAt_swap {segs : List StreetSegment} {i j : Int} {a b : StreetSegment}
    (ha : vectorAt segs i = some a) (hb : vectorAt segs j = some b) (k : Int) :
    vectorAt ((segs.set i.toNat b).set j.toNat a) k
      = if k = j then some a else if k = i then some b else vectorAt segs k := by
  obtain ⟨hi0, hi1⟩ := vectorAt_range ha
  obtain ⟨hj0, hj1⟩ := vectorAt_range hb
  unfold vectorAt
  by_cases hk : 0 ≤ k
  · simp only [hk, if_true, List.getElem?_set, List.length_set]
    by_cases e1 : k = j
    · subst e1
      have : k.toNat < segs.length := by omega
      simp [this]
    · have n1 : ¬ j.toNat = k.toNat := by omega
      simp only [n1, e1, if_false]
      by_cases e2 : k = i
      · subst e2
        have : k.toNat < segs.length := by omega
        simp [this]
      · have n2 : ¬ i.toNat = k.toNat := by omega
        simp only [n2, e2, if_false]
  · have e1 : ¬ k = j := by omega
    have e2 : ¬ k = i := by omega
    simp only [hk, e1, e2, if_false]

theorem partitionLoop_perm (distanceEarthMiles : GeoCoord → GeoCoord → ℚ) (end_ pivot : GeoCoord) :
    ∀ (fuel : Nat) (segs : List StreetSegment) (low high : Int)
      (res : List StreetSegment × Int × Int),
      partitionLoop distanceEarthMiles end_ pivot fuel segs low high = Run.done res →
      res.1.Perm segs := by
  intro fuel
  induction fuel with
  | zero => intro segs low high res h; simp [partitionLoop] at h
  | succ fuel ih =>
    intro segs low high res h
    unfold partitionLoop at h
    split at h
    · simp at h
    · simp at h
    · split at h
      · simp at h
      · simp at h
      · split at h
        · split at h
          · rename_i swapped hsw
            exact (ih _ _ _ _ h).trans (swapSegInVector_perm hsw)
          · simp at h
          · simp at h
        · simp only [Run.done.injEq] at h
          subst h
          exact List.Perm.refl _

theorem partition_perm (distanceEarthMiles : GeoCoord → GeoCoord → ℚ) (fuel : Nat)
    (segs : List StreetSegment) (low high : Int) (end_ : GeoCoord)
    (res : List StreetSegment × Int)
    (h : partition distanceEarthMiles fuel segs low high end_ = Run.done res) :
    res.1.Perm segs := by
  unfold partition at h
  simp only at h
  split at h
  · simp at h
  · split at h
    · simp at h
    · simp at h
    · rename_i segs1 _ high1 hloop
      split at h
      · rename_i segs2 hsw
        simp only [Run.done.injEq] at h
        subst h
        exact (swapSegInVector_perm hsw).trans
          (partitionLoop_perm distanceEarthMiles end_ _ fuel segs low high _ hloop)
      · simp at h
      · simp at h

theorem sortSegments_perm (distanceEarthMiles : GeoCoord → GeoCoord → ℚ) :
    ∀ (fuel : Nat) (segs : List StreetSegment) (first last : Int) (end_ : GeoCoord)
      (res : List StreetSegment),
      sortSegments distanceEarthMiles fuel segs first last end_ = Run.done res →
      res.Perm segs := by
  intro fuel
  induction fuel with
  | zero => intro segs first last end_ res h; simp [sortSegments] at h
  | succ fuel ih =>
    intro segs first last end_ res h
    unfold sortSegments at h
    split at h
    · simp only [Run.done.injEq] at h
      subst h
      exact List.Perm.refl _
    · split at h
      · simp at h
      · simp at h
      · rename_i segs1 pivotIndex hpart
        split at h
        · simp at h
        · simp at h
        · rename_i segs2 hleft
          exact ((ih _ _ _ _ _ h).trans (ih _ _ _ _ _ hleft)).trans
            (partition_perm distanceEarthMiles fuel segs first last end_ _ hpart)

end PointToPointRouterImpl

namespace PointToPointRouterImpl

open ExpandableHashMap StreetMapImpl

/-- The first inner loop of `partition` ends without a fault when the positions from `low`
to `high` are in range; it never moves `low` down, stops at `high + 1` at the latest, and
moves past a first position whose distance is not above the pivot's. -/
theorem advanceLow_total (distanceEarthMiles : GeoCoord → GeoCoord → ℚ) (end_ : GeoCoord)
    (segs : List StreetSegment) (pivot : GeoCoord) (high : Int)
    (hhigh : high < (segs.length : Int)) :
    ∀ (fuel : Nat) (low : Int), 0 ≤ low → (high + 1 - low).toNat < fuel →
      ∃ low1, advanceLow distanceEarthMiles end_ segs pivot high fuel low = Run.done low1 ∧
        low ≤ low1 ∧ (low1 ≤ high + 1 ∨ low1 = low) ∧
        (∀ s, low ≤ high → vectorAt segs low = some s →
          distanceEarthMiles s.end_ end_ ≤ distanceEarthMiles pivot end_ → low + 1 ≤ low1) := by
  intro fuel
  induction fuel with
  | zero => intro low _ h; omega
  | succ fuel ih =>
    intro low h0 hf
    unfold advanceLow
    by_cases hle : low ≤ high
    · simp only [hle, if_true]
      obtain ⟨s, hs⟩ := vectorAt_exists h0 (by omega : low < (segs.length : Int))
      rw [hs]
      simp only
      by_cases hd : distanceEarthMiles s.end_ end_ ≤ distanceEarthMiles pivot end_
      · simp only [hd, if_true]
        obtain ⟨low1, e1, e2, e3, _⟩ := ih (low + 1) (by omega) (by omega)
        refine ⟨low1, e1, by omega, ?_, ?_⟩
        · rcases e3 with e3 | e3
          · exact Or.inl e3
          · exact Or.inl (by omega)
        · intro _ _ _ _; omega
      · simp only [hd, if_false]
        refine ⟨low, rfl, le_refl _, Or.inr rfl, ?_⟩
        intro s' _ hs' hd'
        simp only [Option.some.injEq] at hs'
        subst hs'
        exact absurd hd' hd
    · simp only [hle, if_false]
      exact ⟨low, rfl, le_refl _, Or.inr rfl, fun _ h => h.elim⟩

/-- The second inner loop of `partition` ends without a fault at or above a position `pi`
whose distance is not above the pivot's. -/
theorem retreatHigh_total (distanceEarthMiles : GeoCoord → GeoCoord → ℚ) (end_ : GeoCoord)
    (segs : List StreetSegment) (pivot : GeoCoord) (pi : Int) (hpi : 0 ≤ pi)
    (hpivot : ∃ s, vectorAt segs pi = some s ∧
      ¬ distanceEarthMiles s.end_ end_ > distanceEarthMiles pivot end_) :
    ∀ (fuel : Nat) (high : Int), pi ≤ high → high < (segs.length : Int) →
      (high - pi).toNat < fuel →
      ∃ high1, retreatHigh distanceEarthMiles end_ segs pivot fuel high = Run.done high1 ∧
        pi ≤ high1 ∧ high1 ≤ high ∧
        ∃ s, vectorAt segs high1 = some s ∧
          ¬ distanceEarthMiles s.end_ end_ > distanceEarthMiles pivot end_ := by
  intro fuel
  induction fuel with
  | zero => intro high _ _ h; omega
  | succ fuel ih =>
    intro high h1 h2 hf
    unfold retreatHigh
    obtain ⟨s, hs⟩ := vectorAt_exists (by omega : 0 ≤ high) h2
    rw [hs]
    simp only
    by_cases hd : distanceEarthMiles s.end_ end_ > distanceEarthMiles pivot end_
    · simp only [hd, if_true]
      have hne : pi ≠ high := by
        intro e
        subst e
        obtain ⟨s', hs', hd'⟩ := hpivot
        rw [hs] at hs'
        simp only [Option.some.injEq] at hs'
        subst hs'
        exact hd' hd
      obtain ⟨high1, e1, e2, e3, e4⟩ := ih (high - 1) (by omega) (by omega) (by omega)
      exact ⟨high1, e1, e2, by omega, e4⟩
    · simp only [hd, if_false]
      exact ⟨high, rfl, h1, le_refl _, s, hs, hd⟩

/-- The `do ... while` loop of `partition` ends without a fault, with `high` between the
pivot index and its initial value. -/
theorem partitionLoop_total (distanceEarthMiles : GeoCoord → GeoCoord → ℚ)
    (end_ pivot : GeoCoord) (pi : Int) (hpi : 0 ≤ pi) :
    ∀ (fuel : Nat) (segs : List StreetSegment) (low high : Int),
      pi ≤ low → low ≤ high → high < (segs.length : Int) →
      (∃ s, vectorAt segs pi = some s ∧
        ¬ distanceEarthMiles s.end_ end_ > distanceEarthMiles pivot end_) →
      (∃ s, vectorAt segs low = some s ∧
        distanceEarthMiles s.end_ end_ ≤ distanceEarthMiles pivot end_) →
      (high - low).toNat + segs.length + 2 ≤ fuel →
      ∃ res, partitionLoop distanceEarthMiles end_ pivot fuel segs low high = Run.done res ∧
        pi ≤ res.2.2 ∧ res.2.2 ≤ high := by
  intro fuel
  induction fuel with
  | zero => intro _ _ _ _ _ _ _ _ h; omega
  | succ fuel ih =>
    intro segs low high h1 h2 h3 hpivot hlow hf
    unfold partitionLoop
    obtain ⟨low1, a1, a2, a3, a4⟩ := advanceLow_total distanceEarthMiles end_ segs pivot high h3
      fuel low (by omega) (by omega)
    obtain ⟨s0, hs0, hd0⟩ := hlow
    have a5 := a4 s0 h2 hs0 hd0
    obtain ⟨high1, b1, b2, b3, sh, hsh, hdh⟩ := retreatHigh_total distanceEarthMiles end_ segs
      pivot pi hpi hpivot fuel high (by omega) h3 (by omega)
    rw [a1]
    simp only
    rw [b1]
    simp only
    by_cases hlt : low1 < high1
    · simp only [hlt, if_true]
      obtain ⟨sl, hsl⟩ := vectorAt_exists (by omega : 0 ≤ low1)
        (by omega : low1 < (segs.length : Int))
      rw [swapSegInVector_eq hsl hsh]
      simp only
      have hlen : ((segs.set low1.toNat sh).set high1.toNat sl).length = segs.length := by simp
      obtain ⟨res, r1, r2, r3⟩ := ih ((segs.set low1.toNat sh).set high1.toNat sl) low1 high1
        (by omega) (by omega) (by rw [hlen]; omega)
        (by
          obtain ⟨sp, hsp, hdp⟩ := hpivot
          refine ⟨sp, ?_, hdp⟩
          rw [vectorAt_swap hsl hsh]
          have e1 : ¬ pi = high1 := by omega
          have e2 : ¬ pi = low1 := by omega
          simp only [e1, e2, if_false]
          exact hsp)
        (by
          refine ⟨sh, ?_, not_lt.1 hdh⟩
          rw [vectorAt_swap hsl hsh]
          have e1 : ¬ low1 = high1 := by omega
          simp only [e1, if_false, if_true])
        (by rw [hlen]; omega)
      exact ⟨res, r1, r2, by omega⟩
    · simp only [hlt, if_false]
      exact ⟨_, rfl, b2, b3⟩

/-- `partition` on a range inside the vector ends without a fault and returns an index
inside the range. -/
theorem partition_total (distanceEarthMiles : GeoCoord → GeoCoord → ℚ) (fuel : Nat)
    (segs : List StreetSegment) (low high : Int) (end_ : GeoCoord)
    (h0 : 0 ≤ low) (h1 : low ≤ high) (h2 : high < (segs.length : Int))
    (hf : (high - low).toNat + segs.length + 2 ≤ fuel) :
    ∃ res, partition distanceEarthMiles fuel segs low high end_ = Run.done res ∧
      low ≤ res.2 ∧ res.2 ≤ high := by
  unfold partition
  simp only
  obtain ⟨seg, hseg⟩ := vectorAt_exists h0 (by omega : low < (segs.length : Int))
  rw [hseg]
  simp only
  obtain ⟨res, r1, r2, r3⟩ := partitionLoop_total distanceEarthMiles end_ seg.end_ low h0 fuel
    segs low high (le_refl _) h1 h2 ⟨seg, hseg, by simp⟩ ⟨seg, hseg, le_refl _⟩ hf
  rw [r1]
  simp only
  have hlen := (partitionLoop_perm distanceEarthMiles end_ seg.end_ fuel segs low high res
    r1).length_eq
  obtain ⟨sa, hsa⟩ := vectorAt_exists h0 (by omega : low < (res.1.length : Int))
  obtain ⟨sb, hsb⟩ := vectorAt_exists (by omega : 0 ≤ res.2.2)
    (by omega : res.2.2 < (res.1.length : Int))
  rw [swapSegInVector_eq hsa hsb]
  exact ⟨_, rfl, r2, r3⟩

/-- `sortSegments` on a range inside the vector (or on a range of at most two positions)
ends without a fault once the step budget is at least the size of the range plus the
size of the vector plus 3. -/
theorem sortSegments_total (distanceEarthMiles : GeoCoord → GeoCoord → ℚ) :
    ∀ (fuel : Nat) (segs : List StreetSegment) (first last : Int) (end_ : GeoCoord),
      (last - first ≤ 1 ∨ (0 ≤ first ∧ last < (segs.length : Int))) →
      (last - first).toNat + segs.length + 3 ≤ fuel →
      ∃ res, sortSegments distanceEarthMiles fuel segs first last end_ = Run.done res := by
  intro fuel
  induction fuel with
  | zero => intro _ _ _ _ _ h; omega
  | succ fuel ih =>
    intro segs first last end_ hrange hf
    unfold sortSegments
    by_cases hsmall : last - first ≤ 1
    · simp only [hsmall, if_true]
      exact ⟨_, rfl⟩
    · simp only [hsmall, if_false]
      have hr : 0 ≤ first ∧ last < (segs.length : Int) := by
        rcases hrange with h | h
        · exact absurd h hsmall
        · exact h
      obtain ⟨res, r1, r2, r3⟩ := partition_total distanceEarthMiles fuel segs first last end_
        hr.1 (by omega) hr.2 (by omega)
      rw [r1]
      simp only
      have hlen := (partition_perm distanceEarthMiles fuel segs first last end_ res r1).length_eq
      obtain ⟨segs2, s1⟩ := ih res.1 first (res.2 - 1) end_
        (Or.inr ⟨hr.1, by omega⟩) (by omega)
      rw [s1]
      simp only
      have hlen2 := (sortSegments_perm distanceEarthMiles fuel res.1 first (res.2 - 1) end_
        segs2 s1).length_eq
      exact ih segs2 (res.2 + 1) last end_ (Or.inr ⟨by omega, by omega⟩) (by omega)

end PointToPointRouterImpl

namespace PointToPointRouterImpl

open ExpandableHashMap StreetMapImpl

theorem filter_unexplored_le (U E : List GeoCoord) (e : GeoCoord) :
    (U.filter (fun x => decide (x ∉ E ++ [e]))).length
      ≤ (U.filter (fun x => decide (x ∉ E))).length := by
  induction U with
  | nil => simp
  | cons u U ih =>
    by_cases h1 : u ∈ E
    · have h2 : u ∈ E ++ [e] := List.mem_append_left _ h1
      simp only [List.filter_cons, h1, h2, not_true_eq_false, decide_False]
      exact ih
    · by_cases h3 : u = e
      · have h2 : u ∈ E ++ [e] := by simp [h3]
        simp only [List.filter_cons, h1, h2, not_true_eq_false, not_false_eq_true,
          decide_False, decide_True, if_true, List.length_cons]
        simp only [Bool.false_eq_true, if_false]
        omega
      · have h2 : u ∉ E ++ [e] := by simp [h1, h3]
        simp only [List.filter_cons, h1, h2, not_false_eq_true, decide_True, if_true,
          List.length_cons]
        omega

theorem filter_unexplored_lt (U E : List GeoCoord) (e : GeoCoord) (he : e ∉ E)
    (hU : e ∈ U) :
    (U.filter (fun x => decide (x ∉ E ++ [e]))).length + 1
      ≤ (U.filter (fun x => decide (x ∉ E))).length := by
  induction U with
  | nil => simp at hU
  | cons u U ih =>
    by_cases h3 : u = e
    · subst h3
      have h2 : u ∈ E ++ [u] := by simp
      have := filter_unexplored_le U E u
      simp only [List.filter_cons, he, h2, not_true_eq_false, not_false_eq_true,
        decide_False, decide_True, if_true, List.length_cons]
      simp only [Bool.false_eq_true, if_false]
      omega
    · have hU' : e ∈ U := by
        rcases List.mem_cons.1 hU with h | h
        · exact absurd h.symm h3
        · exact h
      have := ih hU'
      by_cases h1 : u ∈ E
      · have h2 : u ∈ E ++ [e] := List.mem_append_left _ h1
        simp only [List.filter_cons, h1, h2, not_true_eq_false, decide_False]
        simp only [Bool.false_eq_true, if_false]
        exact this
      · have h2 : u ∉ E ++ [e] := by simp [h1, h3]
        simp only [List.filter_cons, h1, h2, not_false_eq_true, decide_True, if_true,
          List.length_cons]
        omega

theorem explore_old (stdHash : String → Nat) (st : SearchState) (seg : StreetSegment)
    (h : seg.end_ ∈ st.explored) : explore stdHash st seg = st := by
  unfold explore
  simp only [h, if_true]

theorem explore_new (stdHash : String → Nat) (st : SearchState) (seg : StreetSegment)
    (h : seg.end_ ∉ st.explored) :
    explore stdHash st seg =
      { toDo := st.toDo ++ [seg.end_]
        explored := st.explored ++ [seg.end_]
        m_path := ExpandableHashMap.associate (hasher stdHash) st.m_path seg.end_ seg.start } := by
  unfold explore
  simp only [h, if_false]

/-- One pass through the body of the `for` loop keeps the invariant of the search. -/
theorem BfsInv.explore {stdHash : String → Nat} {sm : StreetMapImpl} {U : List GeoCoord}
    {start end_ c : GeoCoord} {lvl : GeoCoord → Nat} {lev : Nat} {st : SearchState}
    (h : BfsInv stdHash sm U start end_ (some c) lvl lev st) (seg : StreetSegment)
    (hseg : SegOK stdHash sm seg) (hstart : seg.start = c) (hU : seg.end_ ∈ U)
    (hk : ExpandableHashMap.find (hasher stdHash) sm.m_hashMap seg.end_ ≠ none) :
    ∃ lvl', BfsInv stdHash sm U start end_ (some c) lvl' lev
        (PointToPointRouterImpl.explore stdHash st seg) ∧
      seg.end_ ∈ (PointToPointRouterImpl.explore stdHash st seg).explored ∧
      (∀ x ∈ st.explored, x ∈ (PointToPointRouterImpl.explore stdHash st seg).explored) ∧
      searchMeasure U (PointToPointRouterImpl.explore stdHash st seg) ≤ searchMeasure U st := by
  by_cases hmem : seg.end_ ∈ st.explored
  · rw [explore_old stdHash st seg hmem]
    exact ⟨lvl, h, hmem, fun _ hx => hx, le_refl _⟩
  · rw [explore_new stdHash st seg hmem]
    have hc := h.cur_ok c rfl
    have hold : ∀ x ∈ st.explored,
        (if x = seg.end_ then lev + 1 else lvl x) = lvl x := by
      intro x hx
      have : x ≠ seg.end_ := fun e => hmem (e ▸ hx)
      simp only [this, if_false]
    have hnew : (if seg.end_ = seg.end_ then lev + 1 else lvl seg.end_) = lev + 1 := by
      simp only [if_true]
    obtain ⟨w1, w2⟩ := h.wf.associate seg.end_ seg.start
    refine ⟨fun y => if y = seg.end_ then lev + 1 else lvl y, ?_, ?_, ?_, ?_⟩
    · refine
        { wf := w1
          start_mem := List.mem_append_left _ h.start_mem
          lvl_start := by rw [hold start h.start_mem]; exact h.lvl_start
          cur_ok := ?_
          queue := ?_
          todo_explored := ?_
          lvl_le := ?_
          lvl_lt := ?_
          pred := ?_
          proc := ?_
          known := ?_
          size := ?_ }
      · intro c' hc'
        simp only [Option.some.injEq] at hc'
        subst hc'
        exact ⟨List.mem_append_left _ hc.1, by rw [hold c hc.1]; exact hc.2⟩
      · obtain ⟨A, B, hAB, hA, hB⟩ := h.queue
        refine ⟨A, B ++ [seg.end_], by simp only [hAB, List.append_assoc], ?_, ?_⟩
        · intro x hx
          have hx' : x ∈ st.explored :=
            h.todo_explored x (by rw [hAB]; exact List.mem_append_left _ hx)
          rw [hold x hx']; exact hA x hx
        · intro x hx
          rcases List.mem_append.1 hx with hx | hx
          · have hx' : x ∈ st.explored :=
              h.todo_explored x (by rw [hAB]; exact List.mem_append_right _ hx)
            rw [hold x hx']; exact hB x hx
          · rw [List.mem_singleton.1 hx]; exact hnew
      · intro x hx
        rcases List.mem_append.1 hx with hx | hx
        · exact List.mem_append_left _ (h.todo_explored x hx)
        · exact List.mem_append_right _ hx
      · intro x hx
        rcases List.mem_append.1 hx with hx | hx
        · rw [hold x hx]; exact h.lvl_le x hx
        · rw [List.mem_singleton.1 hx, hnew]
      · intro x hx
        rw [List.length_append, List.length_singleton]
        rcases List.mem_append.1 hx with hx | hx
        · rw [hold x hx]
          have := h.lvl_lt x hx
          omega
        · rw [List.mem_singleton.1 hx, hnew]
          have := h.lvl_lt c hc.1
          omega
      · intro x hx hne
        rcases List.mem_append.1 hx with hx | hx
        · obtain ⟨s, s1, s2, s3, s4, s5⟩ := h.pred x hx hne
          refine ⟨s, s1, s2, ?_, List.mem_append_left _ s4, ?_⟩
          · show ExpandableHashMap.find (hasher stdHash)
              (ExpandableHashMap.associate (hasher stdHash) st.m_path seg.end_ seg.start) x = _
            rw [w2]
            have : x ≠ seg.end_ := fun e => hmem (e ▸ hx)
            simp only [this, if_false]
            exact s3
          · rw [hold x hx, hold s.start s4]; exact s5
        · have hx' := List.mem_singleton.1 hx
          subst hx'
          refine ⟨seg, hseg, rfl, ?_, List.mem_append_left _ (hstart ▸ hc.1), ?_⟩
          · show ExpandableHashMap.find (hasher stdHash)
              (ExpandableHashMap.associate (hasher stdHash) st.m_path seg.end_ seg.start)
              seg.end_ = _
            rw [w2]
            simp only [if_true]
          · rw [hnew, hold seg.start (hstart ▸ hc.1), hstart, hc.2]
      · intro x hx
        rcases List.mem_append.1 hx with hx | hx
        · rcases h.proc x hx with hp | hp | hp
          · exact Or.inl (List.mem_append_left _ hp)
          · exact Or.inr (Or.inl hp)
          · refine Or.inr (Or.inr
              ⟨hp.1, by beta_reduce; rw [hold x hx]; exact hp.2.1, ?_⟩)
            intro v hv s hs
            obtain ⟨p1, p2⟩ := hp.2.2 v hv s hs
            refine ⟨List.mem_append_left _ p1, ?_⟩
            beta_reduce
            rw [hold s.end_ p1, hold x hx]
            exact p2
        · exact Or.inl (List.mem_append_right _ hx)
      · intro x hx
        rcases List.mem_append.1 hx with hx | hx
        · exact h.known x hx
        · rw [List.mem_singleton.1 hx]; exact hk
      · have := filter_unexplored_lt U st.explored seg.end_ hmem hU
        have := h.size
        show (st.explored ++ [seg.end_]).length
          + (U.filter (fun x => decide (x ∉ st.explored ++ [seg.end_]))).length ≤ U.length + 1
        rw [List.length_append, List.length_singleton]
        omega
    · exact List.mem_append_right _ (List.mem_singleton.2 rfl)
    · intro x hx
      exact List.mem_append_left _ hx
    · have := filter_unexplored_lt U st.explored seg.end_ hmem hU
      unfold searchMeasure
      show (U.filter (fun x => decide (x ∉ st.explored ++ [seg.end_]))).length
        + (st.toDo ++ [seg.end_]).length ≤ _
      rw [List.length_append, List.length_singleton]
      omega

/-- The `for` loop over the segments of the coordinate being expanded keeps the invariant
and leaves every segment's end explored. -/
theorem BfsInv.foldl_explore {stdHash : String → Nat} {sm : StreetMapImpl}
    {U : List GeoCoord} {start end_ c : GeoCoord} {lev : Nat} (segs : List StreetSegment) :
    ∀ {lvl : GeoCoord → Nat} {st : SearchState},
      BfsInv stdHash sm U start end_ (some c) lvl lev st →
      (∀ s ∈ segs, SegOK stdHash sm s ∧ s.start = c ∧ s.end_ ∈ U ∧
        ExpandableHashMap.find (hasher stdHash) sm.m_hashMap s.end_ ≠ none) →
      ∃ lvl', BfsInv stdHash sm U start end_ (some c) lvl' lev
          (segs.foldl (PointToPointRouterImpl.explore stdHash) st) ∧
        (∀ s ∈ segs,
          s.end_ ∈ (segs.foldl (PointToPointRouterImpl.explore stdHash) st).explored) ∧
        (∀ x ∈ st.explored,
          x ∈ (segs.foldl (PointToPointRouterImpl.explore stdHash) st).explored) ∧
        searchMeasure U (segs.foldl (PointToPointRouterImpl.explore stdHash) st)
          ≤ searchMeasure U st := by
  induction segs with
  | nil => intro lvl st h _; exact ⟨lvl, h, by simp, fun _ hx => hx, le_refl _⟩
  | cons a segs ih =>
    intro lvl st h hs
    obtain ⟨a1, a2, a3, a4⟩ := hs a (by simp)
    obtain ⟨lvl1, e1, e2, e3, e4⟩ := h.explore a a1 a2 a3 a4
    obtain ⟨lvl2, f1, f2, f3, f4⟩ := ih e1 (fun s hs' => hs s (by simp [hs']))
    rw [List.foldl_cons]
    refine ⟨lvl2, f1, ?_, fun x hx => f3 x (e3 x hx), le_trans f4 e4⟩
    intro s hs'
    rcases List.mem_cons.1 hs' with hs' | hs'
    · rw [hs']; exact f3 _ e2
    · exact f2 s hs'

/-- After its segments are explored, the expanded coordinate is processed. -/
theorem BfsInv.finish {stdHash : String → Nat} {sm : StreetMapImpl} {U : List GeoCoord}
    {start end_ c : GeoCoord} {lvl : GeoCoord → Nat} {lev : Nat} {st : SearchState}
    (h : BfsInv stdHash sm U start end_ (some c) lvl lev st) (hne : c ≠ end_)
    (hclosed : ∀ v, ExpandableHashMap.find (hasher stdHash) sm.m_hashMap c = some v →
      ∀ s ∈ v, s.end_ ∈ st.explored) :
    BfsInv stdHash sm U start end_ none lvl lev st := by
  have hc := h.cur_ok c rfl
  refine
    { wf := h.wf, start_mem := h.start_mem, lvl_start := h.lvl_start
      cur_ok := by intro c' hc'; simp at hc'
      queue := h.queue, todo_explored := h.todo_explored, lvl_le := h.lvl_le
      lvl_lt := h.lvl_lt, pred := h.pred
      proc := ?_
      known := h.known, size := h.size }
  intro x hx
  rcases h.proc x hx with hp | hp | hp
  · exact Or.inl hp
  · simp only [Option.some.injEq] at hp
    subst hp
    refine Or.inr (Or.inr ⟨hne, le_of_eq hc.2, ?_⟩)
    intro v hv s hs
    have := hclosed v hv s hs
    exact ⟨this, by rw [hc.2]; exact h.lvl_le _ this⟩
  · exact Or.inr (Or.inr hp)

/-- Taking the front of the queue: the invariant holds for the rest of the queue with the
front as the coordinate being expanded, at the front's level. -/
theorem BfsInv.pop {stdHash : String → Nat} {sm : StreetMapImpl} {U : List GeoCoord}
    {start end_ : GeoCoord} {lvl : GeoCoord → Nat} {lev : Nat} {st : SearchState}
    (h : BfsInv stdHash sm U start end_ none lvl lev st) (curr : GeoCoord)
    (rest : List GeoCoord) (htodo : st.toDo = curr :: rest) :
    ∃ lev', BfsInv stdHash sm U start end_ (some curr) lvl lev'
      { toDo := rest, explored := st.explored, m_path := st.m_path } := by
  obtain ⟨A, B, hAB, hA, hB⟩ := h.queue
  have hcur : curr ∈ st.explored := h.todo_explored curr (by rw [htodo]; simp)
  have hprocessed : ∀ lev', lev ≤ lev' → ∀ x,
      Processed stdHash sm end_ lvl lev st.explored x →
      Processed stdHash sm end_ lvl lev' st.explored x := by
    intro lev' hle x hp
    exact ⟨hp.1, le_trans hp.2.1 hle, hp.2.2⟩
  have hproc : ∀ lev', lev ≤ lev' → ∀ x ∈ st.explored,
      x ∈ rest ∨ some curr = some x ∨ Processed stdHash sm end_ lvl lev' st.explored x := by
    intro lev' hle x hx
    rcases h.proc x hx with hp | hp | hp
    · rw [htodo] at hp
      rcases List.mem_cons.1 hp with hp | hp
      · exact Or.inr (Or.inl (by rw [hp]))
      · exact Or.inl hp
    · simp at hp
    · exact Or.inr (Or.inr (hprocessed lev' hle x hp))
  cases A with
  | cons a A' =>
    rw [htodo, List.cons_append] at hAB
    obtain ⟨e1, e2⟩ := List.cons.inj hAB
    refine ⟨lev,
      { wf := h.wf, start_mem := h.start_mem, lvl_start := h.lvl_start
        cur_ok := ?_
        queue := ⟨A', B, e2, fun x hx => hA x (by simp [hx]), hB⟩
        todo_explored := fun x hx => h.todo_explored x (by rw [htodo]; simp [hx])
        lvl_le := h.lvl_le, lvl_lt := h.lvl_lt, pred := h.pred
        proc := hproc lev (le_refl _)
        known := h.known, size := h.size }⟩
    intro c hc
    simp only [Option.some.injEq] at hc
    subst hc
    exact ⟨hcur, by rw [e1]; exact hA a (by simp)⟩
  | nil =>
    rw [htodo, List.nil_append] at hAB
    refine ⟨lev + 1,
      { wf := h.wf, start_mem := h.start_mem, lvl_start := h.lvl_start
        cur_ok := ?_
        queue := ⟨rest, [], by simp, fun x hx => hB x (by rw [← hAB]; simp [hx]), by simp⟩
        todo_explored := fun x hx => h.todo_explored x (by rw [htodo]; simp [hx])
        lvl_le := fun x hx => le_trans (h.lvl_le x hx) (by omega)
        lvl_lt := h.lvl_lt, pred := h.pred
        proc := hproc (lev + 1) (by omega)
        known := h.known, size := h.size }⟩
    intro c hc
    simp only [Option.some.injEq] at hc
    subst hc
    exact ⟨hcur, hB curr (by rw [← hAB]; simp)⟩

end PointToPointRouterImpl

namespace PointToPointRouterImpl

open ExpandableHashMap StreetMapImpl

theorem IsPath.append {x y z : GeoCoord} {r r' : List StreetSegment}
    (h : IsPath x y r) (h' : IsPath y z r') : IsPath x z (r ++ r') := by
  induction r generalizing x with
  | nil =>
    have : x = y := h
    subst this
    exact h'
  | cons s rest ih =>
    obtain ⟨h1, h2⟩ := h
    exact ⟨h1, ih h2⟩

theorem IsPath.single (s : StreetSegment) : IsPath s.start s.end_ [s] :=
  ⟨rfl, rfl⟩

/-- Along a path of indexed segments that starts at an explored coordinate and stays
below level `L`, every coordinate is explored, at a level bounded by the number of
segments walked. -/
theorem path_closure {stdHash : String → Nat} {sm : StreetMapImpl} {end_ : GeoCoord}
    {lvl : GeoCoord → Nat} {lev L : Nat} {explored : List GeoCoord}
    (hproc : ∀ x ∈ explored, lvl x < L → Processed stdHash sm end_ lvl lev explored x) :
    ∀ (route : List StreetSegment) (x y : GeoCoord), x ∈ explored → IsPath x y route →
      (∀ s ∈ route, SegOK stdHash sm s) → lvl x + route.length ≤ L →
      y ∈ explored ∧ lvl y ≤ lvl x + route.length := by
  intro route
  induction route with
  | nil =>
    intro x y hx hp _ _
    have : x = y := hp
    subst this
    exact ⟨hx, by simp⟩
  | cons s rest ih =>
    intro x y hx hp hs hL
    obtain ⟨h1, h2⟩ := hp
    rw [List.length_cons] at hL
    have hP := hproc x hx (by omega)
    obtain ⟨v, hv, hsv⟩ := hs s (by simp)
    rw [h1] at hv
    obtain ⟨p1, p2⟩ := hP.2.2 v hv s hsv
    obtain ⟨q1, q2⟩ := ih s.end_ y p1 h2 (fun t ht => hs t (by simp [ht])) (by omega)
    exact ⟨q1, by rw [List.length_cons]; omega⟩

theorem BfsInv.processed_of_lt {stdHash : String → Nat} {sm : StreetMapImpl}
    {U : List GeoCoord} {start end_ c : GeoCoord} {lvl : GeoCoord → Nat} {lev : Nat}
    {st : SearchState} (h : BfsInv stdHash sm U start end_ (some c) lvl lev st) :
    ∀ x ∈ st.explored, lvl x < lev → Processed stdHash sm end_ lvl lev st.explored x := by
  intro x hx hlt
  obtain ⟨A, B, hAB, hA, hB⟩ := h.queue
  rcases h.proc x hx with hp | hp | hp
  · rw [hAB] at hp
    rcases List.mem_append.1 hp with hp | hp
    · have := hA x hp; omega
    · have := hB x hp; omega
  · simp only [Option.some.injEq] at hp
    subst hp
    have := (h.cur_ok c rfl).2
    omega
  · exact hp

/-- No path of indexed segments from `start` to the coordinate being expanded is shorter
than that coordinate's level. -/
theorem BfsInv.level_le_path {stdHash : String → Nat} {sm : StreetMapImpl}
    {U : List GeoCoord} {start end_ c : GeoCoord} {lvl : GeoCoord → Nat} {lev : Nat}
    {st : SearchState} (h : BfsInv stdHash sm U start end_ (some c) lvl lev st)
    (route : List StreetSegment) (hp : IsPath start c route)
    (hs : ∀ s ∈ route, SegOK stdHash sm s) : lev ≤ route.length := by
  by_contra hlt
  have hc := h.cur_ok c rfl
  have := path_closure h.processed_of_lt route start c h.start_mem hp hs
    (by rw [h.lvl_start]; omega)
  rw [h.lvl_start, hc.2] at this
  omega

/-- When the queue is empty, nothing outside the explored coordinates is connected to
`start`, and the target is not among them. -/
theorem BfsInv.not_connected {stdHash : String → Nat} {sm : StreetMapImpl}
    {U : List GeoCoord} {start end_ : GeoCoord} {lvl : GeoCoord → Nat} {lev : Nat}
    {st : SearchState} (h : BfsInv stdHash sm U start end_ none lvl lev st)
    (htodo : st.toDo = []) : ¬ Connected stdHash sm start end_ := by
  rintro ⟨route, hp, hs⟩
  have hall : ∀ x ∈ st.explored, lvl x < lvl start + route.length + 1 →
      Processed stdHash sm end_ lvl lev st.explored x := by
    intro x hx _
    rcases h.proc x hx with hp | hp | hp
    · rw [htodo] at hp; simp at hp
    · simp at hp
    · exact hp
  have := path_closure hall route start end_ h.start_mem hp hs (by omega)
  have hP := hall end_ this.1 (by omega)
  exact hP.1 rfl

/-- Every explored coordinate is connected to `start`. -/
theorem BfsInv.connected {stdHash : String → Nat} {sm : StreetMapImpl}
    {U : List GeoCoord} {start end_ : GeoCoord} {cur : Option GeoCoord}
    {lvl : GeoCoord → Nat} {lev : Nat} {st : SearchState}
    (h : BfsInv stdHash sm U start end_ cur lvl lev st) :
    ∀ (n : Nat) (x : GeoCoord), x ∈ st.explored → lvl x ≤ n →
      Connected stdHash sm start x := by
  intro n
  induction n with
  | zero =>
    intro x hx hl
    by_cases e : x = start
    · subst e
      exact ⟨[], rfl, by simp⟩
    · obtain ⟨s, _, _, _, _, s5⟩ := h.pred x hx e
      omega
  | succ n ih =>
    intro x hx hl
    by_cases e : x = start
    · subst e
      exact ⟨[], rfl, by simp⟩
    · obtain ⟨s, s1, s2, _, s4, s5⟩ := h.pred x hx e
      obtain ⟨r, r1, r2⟩ := ih s.start s4 (by omega)
      refine ⟨r ++ [s], ?_, ?_⟩
      · rw [← s2]
        exact r1.append (IsPath.single s)
      · intro t ht
        rcases List.mem_append.1 ht with ht | ht
        · exact r2 t ht
        · rw [List.mem_singleton.1 ht]; exact s1

theorem matchStreetName_first (e sG : GeoCoord) (streetName : String)
    (v : List StreetSegment) (hstart : ∀ t ∈ v, t.start = sG)
    (hex : ∃ t ∈ v, t.end_ = e) :
    ∃ t, v.find? (fun t => decide (t.end_ = e)) = some t ∧
      matchStreetName e sG streetName v = t.name ∧ t ∈ v ∧ t.end_ = e := by
  induction v with
  | nil => obtain ⟨t, ht, _⟩ := hex; simp at ht
  | cons a v ih =>
    by_cases ha : a.end_ = e
    · refine ⟨a, ?_, ?_, by simp, ha⟩
      · simp [List.find?_cons, ha]
      · unfold matchStreetName
        have : e = a.end_ ∧ sG = a.start := ⟨ha.symm, (hstart a (by simp)).symm⟩
        simp only [this, and_self, if_true]
    · have hex' : ∃ t ∈ v, t.end_ = e := by
        obtain ⟨t, ht, hte⟩ := hex
        rcases List.mem_cons.1 ht with ht | ht
        · subst ht; exact absurd hte ha
        · exact ⟨t, ht, hte⟩
      obtain ⟨t, t1, t2, t3, t4⟩ := ih (fun t ht => hstart t (by simp [ht])) hex'
      refine ⟨t, ?_, ?_, by simp [t3], t4⟩
      · simp [List.find?_cons, ha, t1]
      · unfold matchStreetName
        have : ¬ (e = a.end_ ∧ sG = a.start) := fun h => ha h.1.symm
        simp only [this, if_false]
        exact t2

end PointToPointRouterImpl

namespace PointToPointRouterImpl

open ExpandableHashMap StreetMapImpl

/-- The backward walk from an explored coordinate ends without a fault within as many
steps as its level plus one. -/
theorem recreateLoop_total {stdHash : String → Nat}
    (distanceEarthMiles : GeoCoord → GeoCoord → ℚ) {sm : StreetMapImpl} {U : List GeoCoord}
    {start end_ : GeoCoord} {cur : Option GeoCoord} {lvl : GeoCoord → Nat} {lev : Nat}
    {st : SearchState} (h : BfsInv stdHash sm U start end_ cur lvl lev st) :
    ∀ (fuel : Nat) (endingG : GeoCoord) (possibleSegs : List StreetSegment)
      (streetName : String) (route : List StreetSegment) (total : ℚ),
      endingG ∈ st.explored → lvl endingG + 1 ≤ fuel →
      ∃ res, recreateLoop stdHash distanceEarthMiles sm st.m_path start fuel endingG
        (ExpandableHashMap.find (hasher stdHash) st.m_path endingG) possibleSegs streetName
        route total = Run.done res := by
  intro fuel
  induction fuel with
  | zero => intro _ _ _ _ _ _ hf; omega
  | succ fuel ih =>
    intro endingG possibleSegs streetName route total hmem hf
    unfold recreateLoop
    by_cases he : endingG = start
    · simp only [he, if_true]
      exact ⟨_, rfl⟩
    · simp only [he, if_false]
      obtain ⟨s, _, _, s3, s4, s5⟩ := h.pred endingG hmem he
      rw [s3]
      simp only
      split
      · exact ⟨_, rfl⟩
      · exact ih s.start _ _ _ _ s4 (by omega)

/-- The backward walk on an index with non-empty names: it prepends to the route a chain
of as many segments as the level of the coordinate it starts from, leading from `start`
to that coordinate, each segment being the first match of its start's index entry. -/
theorem recreateLoop_chain {stdHash : String → Nat}
    (distanceEarthMiles : GeoCoord → GeoCoord → ℚ) {sm : StreetMapImpl} {U : List GeoCoord}
    {start end_ : GeoCoord} {cur : Option GeoCoord} {lvl : GeoCoord → Nat} {lev : Nat}
    {st : SearchState} (h : BfsInv stdHash sm U start end_ cur lvl lev st)
    (hstarts : StartsOK stdHash sm) (hnames : NamesOK stdHash sm) :
    ∀ (fuel : Nat) (endingG : GeoCoord) (possibleSegs : List StreetSegment)
      (streetName : String) (route : List StreetSegment) (total : ℚ)
      (res : List StreetSegment × ℚ),
      endingG ∈ st.explored →
      recreateLoop stdHash distanceEarthMiles sm st.m_path start fuel endingG
        (ExpandableHashMap.find (hasher stdHash) st.m_path endingG) possibleSegs streetName
        route total = Run.done res →
      ∃ chain, res.1 = chain ++ route ∧ chain.length = lvl endingG ∧
        IsPath start endingG chain ∧
        ∀ t ∈ chain, FirstMatch stdHash sm t ∧ SegOK stdHash sm t := by
  intro fuel
  induction fuel with
  | zero => intro _ _ _ _ _ _ _ hr; simp [recreateLoop] at hr
  | succ fuel ih =>
    intro endingG possibleSegs streetName route total res hmem hr
    unfold recreateLoop at hr
    by_cases he : endingG = start
    · simp only [he, if_true, Run.done.injEq] at hr
      subst hr
      refine ⟨[], rfl, ?_, ?_, by simp⟩
      · rw [he, h.lvl_start]; rfl
      · rw [he]; rfl
    · simp only [he, if_false] at hr
      obtain ⟨s, ⟨v, hv, hsv⟩, s2, s3, s4, s5⟩ := h.pred endingG hmem he
      rw [s3] at hr
      simp only at hr
      have hsegs : (getSegmentsThatStartWith stdHash sm s.start possibleSegs).2 = v := by
        rw [getSegmentsThatStartWith_snd, hv]
      rw [hsegs] at hr
      obtain ⟨t, t1, t2, t3, t4⟩ := matchStreetName_first endingG s.start streetName v
        (hstarts s.start v hv) ⟨s, hsv, s2⟩
      have htname : t.name ≠ "" := hnames s.start v hv t t3
      have htstart : t.start = s.start := hstarts s.start v hv t t3
      rw [t2] at hr
      simp only [htname, if_false] at hr
      have hteq : ({ start := s.start, end_ := endingG, name := t.name } : StreetSegment) = t := by
        cases t
        simp only at htstart t4
        subst htstart t4
        rfl
      rw [hteq] at hr
      obtain ⟨chain, c1, c2, c3, c4⟩ := ih s.start v t.name (t :: route) _ res s4 hr
      refine ⟨chain ++ [t], by rw [c1]; simp, by rw [List.length_append, c2, s5]; rfl, ?_, ?_⟩
      · have : IsPath s.start endingG [t] := by
          rw [← htstart, ← t4]
          exact IsPath.single t
        exact c3.append this
      · intro t' ht'
        rcases List.mem_append.1 ht' with ht' | ht'
        · exact c4 t' ht'
        · rw [List.mem_singleton.1 ht']
          exact ⟨⟨v, by rw [htstart]; exact hv, by rw [t4]; exact t1⟩,
            ⟨v, by rw [htstart]; exact hv, t3⟩⟩

end PointToPointRouterImpl

namespace PointToPointRouterImpl

open ExpandableHashMap StreetMapImpl

theorem searchMeasure_pop (U : List GeoCoord) (st : SearchState) (curr : GeoCoord)
    (rest : List GeoCoord) (htodo : st.toDo = curr :: rest) :
    searchMeasure U { toDo := rest, explored := st.explored, m_path := st.m_path } + 1
      = searchMeasure U st := by
  unfold searchMeasure
  rw [htodo]
  simp only [List.length_cons]
  omega

/-- The search loop under the invariant: with enough steps it ends without a fault, and
whenever it ends, it reports a route exactly when the target is connected to `start`; on
an index with non-empty names the reported route has the properties `RouteProps`. -/
theorem searchLoop_bfs {stdHash : String → Nat}
    (distanceEarthMiles : GeoCoord → GeoCoord → ℚ) {sm : StreetMapImpl} {U : List GeoCoord}
    {M : Nat} (hgood : GoodMap stdHash sm U M) (G : Nat) (hG1 : 2 * M + 3 ≤ G)
    (hG2 : U.length + 2 ≤ G) (start end_ : GeoCoord) (route : List StreetSegment) :
    ∀ (fuel : Nat) (st : SearchState) (adjacentSegs : List StreetSegment)
      (lvl : GeoCoord → Nat) (lev : Nat),
      BfsInv stdHash sm U start end_ none lvl lev st →
      (searchMeasure U st + G + 1 ≤ fuel →
        ∃ res, searchLoop stdHash distanceEarthMiles sm start end_ route fuel st adjacentSegs
          = Run.done res) ∧
      (∀ res, searchLoop stdHash distanceEarthMiles sm start end_ route fuel st adjacentSegs
          = Run.done res →
        (res.found = false → ¬ Connected stdHash sm start end_) ∧
        (res.found = true → Connected stdHash sm start end_ ∧
          (NamesOK stdHash sm → RouteProps stdHash sm start end_ res.route))) := by
  intro fuel
  induction fuel with
  | zero =>
    intro st adjacentSegs lvl lev _
    exact ⟨fun h => by omega, fun res h => by simp [searchLoop] at h⟩
  | succ fuel ih =>
    intro st adjacentSegs lvl lev hinv
    unfold searchLoop
    cases htodo : st.toDo with
    | nil =>
      simp only
      refine ⟨fun _ => ⟨_, rfl⟩, ?_⟩
      intro res hres
      simp only [Run.done.injEq] at hres
      subst hres
      exact ⟨fun _ => hinv.not_connected htodo, fun h => by simp at h⟩
    | cons curr rest =>
      simp only
      obtain ⟨lev1, hpop⟩ := hinv.pop curr rest htodo
      have hcur := hpop.cur_ok curr rfl
      have hmeasure := searchMeasure_pop U st curr rest htodo
      by_cases hc : curr = end_
      · simp only [hc, if_true]
        subst hc
        unfold recreateRouteHistory
        constructor
        · intro hf
          have h1 := hpop.lvl_lt curr hcur.1
          have h2 := hpop.size
          obtain ⟨r, hr⟩ := recreateLoop_total distanceEarthMiles hpop fuel curr [] "" [] 0
            hcur.1 (by
              have e1 : ({ toDo := rest, explored := st.explored, m_path := st.m_path } :
                SearchState).explored = st.explored := rfl
              rw [e1] at h1 h2
              omega)
          have e2 : ({ toDo := rest, explored := st.explored, m_path := st.m_path } :
            SearchState).m_path = st.m_path := rfl
          rw [e2] at hr
          rw [hr]
          exact ⟨_, rfl⟩
        · intro res hres
          split at hres
          · rename_i route1 total1 hrec
            simp only [Run.done.injEq] at hres
            subst hres
            refine ⟨fun h => by simp at h, fun _ => ⟨hpop.connected _ curr hcur.1 (le_refl _), ?_⟩⟩
            intro hnames
            obtain ⟨chain, c1, c2, c3, c4⟩ := recreateLoop_chain distanceEarthMiles hpop
              hgood.starts hnames fuel curr [] "" [] 0 (route1, total1) hcur.1 hrec
            simp only [List.append_nil] at c1
            subst c1
            refine ⟨c3, c4, ?_⟩
            intro route' hp hs
            rw [c2, hcur.2]
            exact hpop.level_le_path route' hp hs
          · simp at hres
          · simp at hres
      · simp only [hc, if_false]
        have hknown := hinv.known curr hcur.1
        obtain ⟨v, hv⟩ := Option.ne_none_iff_exists'.1 hknown
        have hadj : (getSegmentsThatStartWith stdHash sm curr adjacentSegs).2 = v := by
          rw [getSegmentsThatStartWith_snd, hv]
        rw [hadj]
        have hstep : ∀ sorted : List StreetSegment, sorted.Perm v →
            ∃ lvl2, BfsInv stdHash sm U start end_ none lvl2 lev1
                (sorted.foldl (explore stdHash)
                  { toDo := rest, explored := st.explored, m_path := st.m_path }) ∧
              searchMeasure U (sorted.foldl (explore stdHash)
                  { toDo := rest, explored := st.explored, m_path := st.m_path }) + 1
                ≤ searchMeasure U st := by
          intro sorted hperm
          have hsegs : ∀ s ∈ sorted, SegOK stdHash sm s ∧ s.start = curr ∧ s.end_ ∈ U ∧
              ExpandableHashMap.find (hasher stdHash) sm.m_hashMap s.end_ ≠ none := by
            intro s hs
            have hsv : s ∈ v := hperm.mem_iff.1 hs
            have hst := hgood.starts curr v hv s hsv
            exact ⟨⟨v, by rw [hst]; exact hv, hsv⟩, hst, hgood.endsIn curr v hv s hsv,
              hgood.endsKnown curr v hv s hsv⟩
          obtain ⟨lvl2, f1, f2, _, f4⟩ := hpop.foldl_explore sorted hsegs
          refine ⟨lvl2, f1.finish hc ?_, by omega⟩
          intro v' hv' s hs
          rw [hv] at hv'
          simp only [Option.some.injEq] at hv'
          subst hv'
          exact f2 s (hperm.mem_iff.2 hs)
        cases hsort : sortSegments distanceEarthMiles fuel v 0 ((v.length : Int) - 1) end_ with
        | done sorted =>
          simp only
          have hperm := sortSegments_perm distanceEarthMiles fuel v 0 _ end_ sorted hsort
          obtain ⟨lvl2, g1, g2⟩ := hstep sorted hperm
          obtain ⟨i1, i2⟩ := ih _ sorted lvl2 lev1 g1
          exact ⟨fun hf => i1 (by omega), i2⟩
        | fault =>
          simp only
          refine ⟨?_, fun res h => by simp at h⟩
          intro hf
          have hb := hgood.bounded curr v hv
          obtain ⟨r, hr⟩ := sortSegments_total distanceEarthMiles fuel v 0
            ((v.length : Int) - 1) end_ (Or.inr ⟨le_refl _, by omega⟩) (by omega)
          rw [hsort] at hr
          simp at hr
        | timeout =>
          simp only
          refine ⟨?_, fun res h => by simp at h⟩
          intro hf
          have hb := hgood.bounded curr v hv
          obtain ⟨r, hr⟩ := sortSegments_total distanceEarthMiles fuel v 0
            ((v.length : Int) - 1) end_ (Or.inr ⟨le_refl _, by omega⟩) (by omega)
          rw [hsort] at hr
          simp at hr

end PointToPointRouterImpl

namespace PointToPointRouterImpl

open ExpandableHashMap StreetMapImpl

/-- The three ways in which `generatePointToPointRoute` produces a result. -/
theorem generate_cases (stdHash : String → Nat)
    (distanceEarthMiles : GeoCoord → GeoCoord → ℚ) (fuel : Nat) (sm : StreetMapImpl)
    (m_path : ExpandableHashMap GeoCoord GeoCoord) (start end_ : GeoCoord)
    (route : List StreetSegment) (totalDistanceTravelled : ℚ) (out : RouteOutput)
    (hrun : generatePointToPointRoute stdHash distanceEarthMiles fuel sm m_path start end_
      route totalDistanceTravelled = Run.done out) :
    (out.result = DeliveryResult.BAD_COORD) ∨
    (start = end_ ∧ out.result = DeliveryResult.DELIVERY_SUCCESS ∧ out.route = []) ∨
    (start ≠ end_ ∧
      ExpandableHashMap.find (hasher stdHash) sm.m_hashMap start ≠ none ∧
      ExpandableHashMap.find (hasher stdHash) sm.m_hashMap end_ ≠ none ∧
      ∃ r, findOptimalRoute stdHash distanceEarthMiles fuel sm m_path start end_ route
          = Run.done r ∧
        out.route = r.route ∧
        out.result = (if r.found then DeliveryResult.DELIVERY_SUCCESS
          else DeliveryResult.NO_ROUTE)) := by
  unfold generatePointToPointRoute at hrun
  split at hrun
  · simp only [Run.done.injEq] at hrun
    subst hrun
    exact Or.inl rfl
  · rename_i hval
    split at hrun
    · rename_i heq
      simp only [Run.done.injEq] at hrun
      subst hrun
      exact Or.inr (Or.inl ⟨heq, rfl, rfl⟩)
    · rename_i hne
      have hk := (validate_false_iff stdHash sm start end_).not.1 hval
      rw [not_or] at hk
      split at hrun
      · rename_i r hfind
        simp only [Run.done.injEq] at hrun
        subst hrun
        exact Or.inr (Or.inr ⟨hne, hk.1, hk.2, r, hfind, rfl, rfl⟩)
      · simp at hrun
      · simp at hrun

theorem generate_of_find (stdHash : String → Nat)
    (distanceEarthMiles : GeoCoord → GeoCoord → ℚ) (fuel : Nat) (sm : StreetMapImpl)
    (m_path : ExpandableHashMap GeoCoord GeoCoord) (start end_ : GeoCoord)
    (route : List StreetSegment) (totalDistanceTravelled : ℚ) (hne : start ≠ end_)
    (hs : ExpandableHashMap.find (hasher stdHash) sm.m_hashMap start ≠ none)
    (he : ExpandableHashMap.find (hasher stdHash) sm.m_hashMap end_ ≠ none)
    (r : SearchResult)
    (hr : findOptimalRoute stdHash distanceEarthMiles fuel sm m_path start end_ route
      = Run.done r) :
    generatePointToPointRoute stdHash distanceEarthMiles fuel sm m_path start end_ route
        totalDistanceTravelled
      = Run.done { result := if r.found then DeliveryResult.DELIVERY_SUCCESS
                             else DeliveryResult.NO_ROUTE
                   route := r.route, totalDistanceTravelled := r.totalDistanceTravelled
                   m_path := r.m_path } := by
  have hval : ¬ ¬ ((getSegmentsThatStartWith stdHash sm start []).1
      && (getSegmentsThatStartWith stdHash sm end_ []).1) = true := by
    intro h
    rcases (validate_false_iff stdHash sm start end_).1 h with h | h
    · exact hs h
    · exact he h
  unfold generatePointToPointRoute
  rw [if_neg hval, if_neg hne, hr]

theorem BfsInv.initial (stdHash : String → Nat) (sm : StreetMapImpl) (U : List GeoCoord)
    (start end_ : GeoCoord) (m_path : ExpandableHashMap GeoCoord GeoCoord)
    (hpath : ExpandableHashMap.WF (hasher stdHash) m_path)
    (hs : ExpandableHashMap.find (hasher stdHash) sm.m_hashMap start ≠ none) :
    BfsInv stdHash sm U start end_ none (fun _ => 0) 0
      { toDo := [start], explored := [start], m_path := m_path } := by
  refine
    { wf := hpath
      start_mem := by simp
      lvl_start := rfl
      cur_ok := by intro c hc; simp at hc
      queue := ⟨[start], [], rfl, fun _ _ => rfl, by simp⟩
      todo_explored := fun x hx => hx
      lvl_le := fun _ _ => by simp
      lvl_lt := fun _ _ => by simp
      pred := ?_
      proc := fun x hx => Or.inl hx
      known := ?_
      size := ?_ }
  · intro x hx hne
    simp only [List.mem_singleton] at hx
    exact absurd hx hne
  · intro x hx
    simp only [List.mem_singleton] at hx
    rw [hx]; exact hs
  · have := List.length_filter_le (fun x => decide (x ∉ [start])) U
    simp only [List.length_singleton]
    omega

/-- A query between two different known coordinates on a good index: with enough steps it
returns, and whenever it returns, the result is `NO_ROUTE` exactly when the target is not
connected to the start and `DELIVERY_SUCCESS` exactly when it is. -/
theorem generate_bfs {stdHash : String → Nat}
    (distanceEarthMiles : GeoCoord → GeoCoord → ℚ) {sm : StreetMapImpl} {U : List GeoCoord}
    {M : Nat} (hgood : GoodMap stdHash sm U M) (G : Nat) (hG1 : 2 * M + 3 ≤ G)
    (hG2 : U.length + 2 ≤ G) (m_path : ExpandableHashMap GeoCoord GeoCoord)
    (hpath : ExpandableHashMap.WF (hasher stdHash) m_path) (start end_ : GeoCoord)
    (hne : start ≠ end_)
    (hs : ExpandableHashMap.find (hasher stdHash) sm.m_hashMap start ≠ none)
    (he : ExpandableHashMap.find (hasher stdHash) sm.m_hashMap end_ ≠ none)
    (route : List StreetSegment) (totalDistanceTravelled : ℚ) (fuel : Nat) :
    (U.length + G + 2 ≤ fuel →
      ∃ out, generatePointToPointRoute stdHash distanceEarthMiles fuel sm m_path start end_
        route totalDistanceTravelled = Run.done out) ∧
    (∀ out, generatePointToPointRoute stdHash distanceEarthMiles fuel sm m_path start end_
        route totalDistanceTravelled = Run.done out →
      (out.result = DeliveryResult.NO_ROUTE ↔ ¬ Connected stdHash sm start end_) ∧
      (out.result = DeliveryResult.DELIVERY_SUCCESS ↔ Connected stdHash sm start end_) ∧
      (out.result = DeliveryResult.DELIVERY_SUCCESS → NamesOK stdHash sm →
        RouteProps stdHash sm start end_ out.route)) := by
  have hinit := BfsInv.initial stdHash sm U start end_ m_path hpath hs
  obtain ⟨t1, t2⟩ := searchLoop_bfs distanceEarthMiles hgood G hG1 hG2 start end_ route fuel
    _ [] _ _ hinit
  constructor
  · intro hf
    have hm : searchMeasure U { toDo := [start], explored := [start], m_path := m_path }
        ≤ U.length + 1 := by
      unfold searchMeasure
      have := List.length_filter_le (fun x => decide (x ∉ [start])) U
      simp only [List.length_singleton]
      omega
    obtain ⟨r, hr⟩ := t1 (by omega)
    exact ⟨_, generate_of_find stdHash distanceEarthMiles fuel sm m_path start end_ route
      totalDistanceTravelled hne hs he r hr⟩
  · intro out hout
    rcases generate_cases stdHash distanceEarthMiles fuel sm m_path start end_ route
      totalDistanceTravelled out hout with h | h | h
    · exfalso
      unfold generatePointToPointRoute at hout
      have hval : ¬ ¬ ((getSegmentsThatStartWith stdHash sm start []).1
          && (getSegmentsThatStartWith stdHash sm end_ []).1) = true := by
        intro h'
        rcases (validate_false_iff stdHash sm start end_).1 h' with h' | h'
        · exact hs h'
        · exact he h'
      rw [if_neg hval, if_neg hne] at hout
      split at hout
      · rename_i r _
        simp only [Run.done.injEq] at hout
        subst hout
        revert h
        cases r.found <;> simp
      · simp at hout
      · simp at hout
    · exact absurd h.1 hne
    · obtain ⟨_, _, _, r, hr, e1, e2⟩ := h
      obtain ⟨p1, p2⟩ := t2 r hr
      rw [e1, e2]
      cases hf : r.found with
      | true =>
        obtain ⟨q1, q2⟩ := p2 hf
        simp only [if_true]
        exact ⟨⟨fun h => by simp at h, fun h => absurd q1 h⟩, ⟨fun _ => q1, fun _ => trivial⟩,
          fun _ hn => q2 hn⟩
      | false =>
        have q1 := p1 hf
        simp only [Bool.false_eq_true, if_false]
        exact ⟨⟨fun _ => q1, fun _ => trivial⟩, ⟨fun h => by simp at h, fun h => absurd h q1⟩,
          fun h => by simp at h⟩

end PointToPointRouterImpl

namespace PointToPointRouterImpl

open ExpandableHashMap StreetMapImpl

theorem segmentsAt_end (c : GeoCoord) (recs : List SegmentRecord) :
    ∀ s ∈ segmentsAt c recs, ∃ r ∈ recs, r.start = s.end_ ∨ r.end_ = s.end_ := by
  induction recs with
  | nil => simp [segmentsAt]
  | cons r recs ih =>
    intro s hs
    simp only [segmentsAt, List.mem_append] at hs
    rcases hs with (hs | hs) | hs
    · by_cases h1 : r.start = c
      · simp only [h1, if_true, List.mem_singleton] at hs
        exact ⟨r, by simp, Or.inr (by rw [hs])⟩
      · simp [h1] at hs
    · by_cases h2 : r.end_ = c
      · simp only [h2, if_true, List.mem_singleton] at hs
        exact ⟨r, by simp, Or.inl (by rw [hs])⟩
      · simp [h2] at hs
    · obtain ⟨r', hr', e⟩ := ih s hs
      exact ⟨r', by simp [hr'], e⟩

theorem segmentsAt_length (c : GeoCoord) (recs : List SegmentRecord) :
    (segmentsAt c recs).length ≤ 2 * recs.length := by
  induction recs with
  | nil => simp [segmentsAt]
  | cons r recs ih =>
    simp only [segmentsAt, List.length_append, List.length_cons]
    have h1 : (if r.start = c then
        [({ start := r.start, end_ := r.end_, name := r.name } : StreetSegment)]
        else []).length ≤ 1 := by
      split <;> simp
    have h2 : (if r.end_ = c then
        [({ start := r.end_, end_ := r.start, name := r.name } : StreetSegment)]
        else []).length ≤ 1 := by
      split <;> simp
    omega

theorem coordsOf_length (recs : List SegmentRecord) :
    (coordsOf recs).length = 2 * recs.length := by
  induction recs with
  | nil => rfl
  | cons r recs ih => simp only [coordsOf, List.length_cons, ih]; omega

theorem mem_coordsOf (recs : List SegmentRecord) (r : SegmentRecord) (hr : r ∈ recs) :
    r.start ∈ coordsOf recs ∧ r.end_ ∈ coordsOf recs := by
  induction recs with
  | nil => simp at hr
  | cons r' recs ih =>
    rcases List.mem_cons.1 hr with h | h
    · subst h
      simp [coordsOf]
    · obtain ⟨i1, i2⟩ := ih h
      simp [coordsOf, i1, i2]

theorem find_load_ne_none {stdHash : String → Nat} {sm : StreetMapImpl}
    (hsm : StreetMapImpl.Reachable stdHash sm) (recs : List SegmentRecord) (c : GeoCoord)
    (r : SegmentRecord) (hr : r ∈ recs) (hc : r.start = c ∨ r.end_ = c) :
    ExpandableHashMap.find (hasher stdHash) (load stdHash sm recs).m_hashMap c ≠ none := by
  rw [(load_indexes hsm recs).2 c]
  have hne : segmentsAt c recs ≠ [] := by
    rw [Ne, segmentsAt_eq_nil_iff]
    intro h
    rcases hc with hc | hc
    · exact (h r hr).1 hc
    · exact (h r hr).2 hc
  simp only [hne, if_false]
  simp

/-- A map produced by `load` is a good index, with the coordinates of the records as the
finite universe and twice the number of records as the bound on the index entries. -/
theorem load_goodMap {stdHash : String → Nat} {sm : StreetMapImpl}
    (hsm : StreetMapImpl.Reachable stdHash sm) (recs : List SegmentRecord) :
    GoodMap stdHash (load stdHash sm recs) (coordsOf recs) (2 * recs.length) := by
  refine ⟨load_startsOK hsm recs, ?_, ?_, ?_⟩
  · intro c v hv s hs
    rw [find_load_some hsm recs c v hv] at hs
    obtain ⟨r, hr, e⟩ := segmentsAt_end c recs s hs
    exact find_load_ne_none hsm recs s.end_ r hr e
  · intro c v hv s hs
    rw [find_load_some hsm recs c v hv] at hs
    obtain ⟨r, hr, e⟩ := segmentsAt_end c recs s hs
    rcases e with e | e
    · rw [← e]; exact (mem_coordsOf recs r hr).1
    · rw [← e]; exact (mem_coordsOf recs r hr).2
  · intro c v hv
    rw [find_load_some hsm recs c v hv]
    exact segmentsAt_length c recs

/-- The search theorem instantiated for a loaded map and the budget `searchBudget`. -/
theorem generate_load {stdHash : String → Nat}
    (distanceEarthMiles : GeoCoord → GeoCoord → ℚ) {sm : StreetMapImpl}
    (hsm : StreetMapImpl.Reachable stdHash sm) (recs : List SegmentRecord)
    (m_path : ExpandableHashMap GeoCoord GeoCoord)
    (hpath : ExpandableHashMap.Reachable (hasher stdHash) m_path) (start end_ : GeoCoord)
    (hne : start ≠ end_)
    (hs : ExpandableHashMap.find (hasher stdHash) (load stdHash sm recs).m_hashMap start
      ≠ none)
    (he : ExpandableHashMap.find (hasher stdHash) (load stdHash sm recs).m_hashMap end_
      ≠ none)
    (route : List StreetSegment) (totalDistanceTravelled : ℚ) (fuel : Nat) :
    (searchBudget recs ≤ fuel →
      ∃ out, generatePointToPointRoute stdHash distanceEarthMiles fuel (load stdHash sm recs)
        m_path start end_ route totalDistanceTravelled = Run.done out) ∧
    (∀ out, generatePointToPointRoute stdHash distanceEarthMiles fuel (load stdHash sm recs)
        m_path start end_ route totalDistanceTravelled = Run.done out →
      (out.result = DeliveryResult.NO_ROUTE
        ↔ ¬ Connected stdHash (load stdHash sm recs) start end_) ∧
      (out.result = DeliveryResult.DELIVERY_SUCCESS
        ↔ Connected stdHash (load stdHash sm recs) start end_) ∧
      (out.result = DeliveryResult.DELIVERY_SUCCESS → NamesOK stdHash (load stdHash sm recs) →
        RouteProps stdHash (load stdHash sm recs) start end_ out.route)) := by
  have hU := coordsOf_length recs
  obtain ⟨g1, g2⟩ := generate_bfs distanceEarthMiles (load_goodMap hsm recs)
    (4 * recs.length + 3) (by omega) (by omega) m_path hpath.wf start end_ hne hs he route
    totalDistanceTravelled fuel
  refine ⟨fun hf => g1 ?_, g2⟩
  unfold searchBudget at hf
  omega

/-- C12: on a loaded street map, for distinct coordinates that are both known to the
index, `generatePointToPointRoute` returns once the step budget is at least
`searchBudget`, and whenever it returns, the result is `NO_ROUTE` exactly when no sequence
of indexed segments connects `start` to `end`, and `DELIVERY_SUCCESS` otherwise. -/
theorem no_route_iff_not_connected (stdHash : String → Nat)
    (distanceEarthMiles : GeoCoord → GeoCoord → ℚ) (sm : StreetMapImpl)
    (hsm : StreetMapImpl.Reachable stdHash sm) (recs : List SegmentRecord)
    (m_path : ExpandableHashMap GeoCoord GeoCoord)
    (hpath : ExpandableHashMap.Reachable (hasher stdHash) m_path) (start end_ : GeoCoord)
    (hne : start ≠ end_)
    (hs : ExpandableHashMap.find (hasher stdHash) (load stdHash sm recs).m_hashMap start
      ≠ none)
    (he : ExpandableHashMap.find (hasher stdHash) (load stdHash sm recs).m_hashMap end_
      ≠ none)
    (route : List StreetSegment) (totalDistanceTravelled : ℚ) :
    (∀ fuel, searchBudget recs ≤ fuel →
      ∃ out, generatePointToPointRoute stdHash distanceEarthMiles fuel (load stdHash sm recs)
          m_path start end_ route totalDistanceTravelled = Run.done out ∧
        (out.result = DeliveryResult.NO_ROUTE
          ↔ ¬ Connected stdHash (load stdHash sm recs) start end_) ∧
        (out.result = DeliveryResult.DELIVERY_SUCCESS
          ↔ Connected stdHash (load stdHash sm recs) start end_)) ∧
    (∀ fuel out, generatePointToPointRoute stdHash distanceEarthMiles fuel
        (load stdHash sm recs) m_path start end_ route totalDistanceTravelled = Run.done out →
      (out.result = DeliveryResult.NO_ROUTE
        ↔ ¬ Connected stdHash (load stdHash sm recs) start end_) ∧
      (out.result = DeliveryResult.DELIVERY_SUCCESS
        ↔ Connected stdHash (load stdHash sm recs) start end_)) := by
  constructor
  · intro fuel hf
    obtain ⟨g1, g2⟩ := generate_load distanceEarthMiles hsm recs m_path hpath start end_ hne
      hs he route totalDistanceTravelled fuel
    obtain ⟨out, hout⟩ := g1 hf
    obtain ⟨p1, p2, _⟩ := g2 out hout
    exact ⟨out, hout, p1, p2⟩
  · intro fuel out hout
    obtain ⟨_, g2⟩ := generate_load distanceEarthMiles hsm recs m_path hpath start end_ hne
      hs he route totalDistanceTravelled fuel
    obtain ⟨p1, p2, _⟩ := g2 out hout
    exact ⟨p1, p2⟩

/-- C13: on a street map loaded from records with non-empty street names, the route of a
successful query is a path of indexed segments from `start` to `end`, and no path of
indexed segments from `start` to `end` has fewer segments. -/
theorem route_is_shortest (stdHash : String → Nat)
    (distanceEarthMiles : GeoCoord → GeoCoord → ℚ) (fuel : Nat) (sm : StreetMapImpl)
    (hsm : StreetMapImpl.Reachable stdHash sm) (recs : List SegmentRecord)
    (hnames : ∀ r ∈ recs, r.name ≠ "")
    (m_path : ExpandableHashMap GeoCoord GeoCoord)
    (hpath : ExpandableHashMap.Reachable (hasher stdHash) m_path)
    (start end_ : GeoCoord) (route : List StreetSegment) (totalDistanceTravelled : ℚ)
    (out : RouteOutput)
    (hrun : generatePointToPointRoute stdHash distanceEarthMiles fuel (load stdHash sm recs)
      m_path start end_ route totalDistanceTravelled = Run.done out)
    (hres : out.result = DeliveryResult.DELIVERY_SUCCESS) :
    IsPath start end_ out.route ∧
    (∀ s ∈ out.route, SegOK stdHash (load stdHash sm recs) s) ∧
    (∀ route', IsPath start end_ route' →
      (∀ s ∈ route', SegOK stdHash (load stdHash sm recs) s) →
      out.route.length ≤ route'.length) := by
  rcases generate_cases stdHash distanceEarthMiles fuel (load stdHash sm recs) m_path start
    end_ route totalDistanceTravelled out hrun with h | h | h
  · rw [h] at hres; simp at hres
  · obtain ⟨h1, _, h3⟩ := h
    rw [h3]
    exact ⟨h1, by simp, by simp⟩
  · obtain ⟨hne, hs, he, _⟩ := h
    obtain ⟨_, g2⟩ := generate_load distanceEarthMiles hsm recs m_path hpath start end_ hne
      hs he route totalDistanceTravelled fuel
    obtain ⟨_, _, p3⟩ := g2 out hrun
    obtain ⟨q1, q2, q3⟩ := p3 hres (load_namesOK hsm recs hnames)
    exact ⟨q1, fun s hs' => (q2 s hs').2, q3⟩

/-- C20: on a street map loaded from records with non-empty street names, the route of a
successful query between distinct coordinates is non-empty, continuous from `start` to
`end`, and each of its segments is the first segment of `getSegmentsThatStartWith` of its
start whose end is the segment's end, hence a member of that index entry. -/
theorem route_is_valid_path (stdHash : String → Nat)
    (distanceEarthMiles : GeoCoord → GeoCoord → ℚ) (fuel : Nat) (sm : StreetMapImpl)
    (hsm : StreetMapImpl.Reachable stdHash sm) (recs : List SegmentRecord)
    (hnames : ∀ r ∈ recs, r.name ≠ "")
    (m_path : ExpandableHashMap GeoCoord GeoCoord)
    (hpath : ExpandableHashMap.Reachable (hasher stdHash) m_path)
    (start end_ : GeoCoord) (hne : start ≠ end_) (route : List StreetSegment)
    (totalDistanceTravelled : ℚ) (out : RouteOutput)
    (hrun : generatePointToPointRoute stdHash distanceEarthMiles fuel (load stdHash sm recs)
      m_path start end_ route totalDistanceTravelled = Run.done out)
    (hres : out.result = DeliveryResult.DELIVERY_SUCCESS) :
    out.route ≠ [] ∧ Continuous start end_ out.route ∧
    ∀ s ∈ out.route, ∃ v,
      getSegmentsThatStartWith stdHash (load stdHash sm recs) s.start [] = (true, v) ∧
      v.find? (fun t => decide (t.end_ = s.end_)) = some s ∧ s ∈ v := by
  rcases generate_cases stdHash distanceEarthMiles fuel (load stdHash sm recs) m_path start
    end_ route totalDistanceTravelled out hrun with h | h | h
  · rw [h] at hres; simp at hres
  · exact absurd h.1 hne
  · obtain ⟨_, hs, he, _⟩ := h
    obtain ⟨_, g2⟩ := generate_load distanceEarthMiles hsm recs m_path hpath start end_ hne
      hs he route totalDistanceTravelled fuel
    obtain ⟨_, _, p3⟩ := g2 out hrun
    obtain ⟨q1, q2, _⟩ := p3 hres (load_namesOK hsm recs hnames)
    refine ⟨q1.ne_nil hne, q1.continuous, ?_⟩
    intro s hs'
    obtain ⟨⟨v, hv, hfirst⟩, _⟩ := q2 s hs'
    refine ⟨v, ?_, hfirst, List.mem_of_find?_eq_some hfirst⟩
    unfold getSegmentsThatStartWith
    rw [hv]
    simp [foldl_push_back]

end PointToPointRouterImpl

namespace PointToPointRouterImpl

open ExpandableHashMap StreetMapImpl

/-- Witness of C12: on the map loaded from `sampleRecords` the query from `A` to `C`
returns `DELIVERY_SUCCESS`; on the map loaded from `splitRecords`, where both are known
but on streets that do not meet, it returns `NO_ROUTE`. -/
theorem no_route_iff_not_connected_witness :
    coordA ≠ coordC ∧
    sampleOutput.result = DeliveryResult.DELIVERY_SUCCESS ∧
    runMap (fun out => out.result)
        (generatePointToPointRoute lengthHash unitDistance (searchBudget splitRecords)
          (load lengthHash StreetMapImpl.construct splitRecords) constructPath
          coordA coordC [] 0)
      = Run.done DeliveryResult.NO_ROUTE ∧
    (sampleOutput.result = DeliveryResult.DELIVERY_SUCCESS
      ↔ Connected lengthHash (load lengthHash StreetMapImpl.construct sampleRecords)
          coordA coordC) :=
  ⟨by decide, by with_unfolding_all decide, by with_unfolding_all decide,
    ((no_route_iff_not_connected lengthHash unitDistance StreetMapImpl.construct
      StreetMapImpl.Reachable.construct sampleRecords (ExpandableHashMap.construct (1 / 2))
      (ExpandableHashMap.Reachable.construct (1 / 2)) coordA coordC (by decide)
      (by with_unfolding_all decide) (by with_unfolding_all decide) [] 0).2 10 sampleOutput
      (by with_unfolding_all decide)).2⟩

/-- Witness of C13: the route of `sampleQuery` has two segments and leads from `A` to `C`;
no path of indexed segments from `A` to `C` is shorter. -/
theorem route_is_shortest_witness :
    sampleOutput.route.length = 2 ∧ IsPath coordA coordC sampleOutput.route :=
  ⟨by with_unfolding_all decide,
    (route_is_shortest lengthHash unitDistance 10 StreetMapImpl.construct
      StreetMapImpl.Reachable.construct sampleRecords (by decide)
      (ExpandableHashMap.construct (1 / 2)) (ExpandableHashMap.Reachable.construct (1 / 2))
      coordA coordC [] 0 sampleOutput (by with_unfolding_all decide)
      (by with_unfolding_all decide)).1⟩

/-- Witness of C20: the route of `sampleQuery` is non-empty and continuous from `A` to `C`. -/
theorem route_is_valid_path_witness :
    sampleOutput.route ≠ [] ∧ Continuous coordA coordC sampleOutput.route :=
  have h := route_is_valid_path lengthHash unitDistance 10 StreetMapImpl.construct
    StreetMapImpl.Reachable.construct sampleRecords (by decide)
    (ExpandableHashMap.construct (1 / 2)) (ExpandableHashMap.Reachable.construct (1 / 2))
    coordA coordC (by decide) [] 0 sampleOutput (by with_unfolding_all decide)
    (by with_unfolding_all decide)
  ⟨h.1, h.2.1⟩

end PointToPointRouterImpl

namespace PointToPointRouterImpl

open ExpandableHashMap StreetMapImpl

theorem success_distance (stdHash : String → Nat)
    (distanceEarthMiles : GeoCoord → GeoCoord → ℚ) (fuel : Nat) (sm : StreetMapImpl)
    (m_path : ExpandableHashMap GeoCoord GeoCoord) (start end_ : GeoCoord)
    (hne : start ≠ end_) (route : List StreetSegment) (totalDistanceTravelled : ℚ)
    (out : RouteOutput)
    (hrun : generatePointToPointRoute stdHash distanceEarthMiles fuel sm m_path start end_
      route totalDistanceTravelled = Run.done out)
    (hres : out.result = DeliveryResult.DELIVERY_SUCCESS) :
    out.totalDistanceTravelled = routeDistance distanceEarthMiles out.route := by
  unfold generatePointToPointRoute at hrun
  split at hrun
  · simp only [Run.done.injEq] at hrun
    subst hrun
    simp at hres
  · split at hrun
    · rename_i r hfind
      simp only [Run.done.injEq] at hrun
      subst hrun
      have hfound : r.found = true := by
        cases hf : r.found with
        | true => rfl
        | false => simp [hf] at hres
      exact searchLoop_distance stdHash distanceEarthMiles sm start end_ route fuel _ [] r
        hfind hfound
    · simp at hrun
    · simp at hrun

theorem segOK_load_mem {stdHash : String → Nat} {sm : StreetMapImpl}
    (hsm : StreetMapImpl.Reachable stdHash sm) (recs : List SegmentRecord)
    (s : StreetSegment) (h : SegOK stdHash (load stdHash sm recs) s) :
    s ∈ segmentsAt s.start recs := by
  obtain ⟨v, hv, hs⟩ := h
  rw [find_load_some hsm recs s.start v hv] at hs
  exact hs

theorem segOK_load_of_mem {stdHash : String → Nat} {sm : StreetMapImpl}
    (hsm : StreetMapImpl.Reachable stdHash sm) (recs : List SegmentRecord)
    (s : StreetSegment) (h : s ∈ segmentsAt s.start recs) :
    SegOK stdHash (load stdHash sm recs) s := by
  refine ⟨segmentsAt s.start recs, ?_, h⟩
  rw [(load_indexes hsm recs).2 s.start]
  have : segmentsAt s.start recs ≠ [] := List.ne_nil_of_mem h
  simp only [this, if_false]

/-- C14: the four-corner scenario.  For distinct coordinates `A, B, C, D` and the map
loaded from `A - B "Main"`, `B - C "Main"`, `A - D "Oak"`, `D - C "Oak"`, the query from
`A` to `C` returns (with a step budget of at least 29) `DELIVERY_SUCCESS` with exactly two
segments, either `A -> B`, `B -> C` on "Main" or `A -> D`, `D -> C` on "Oak", and the
distance is the sum of the two hop distances of the returned path. -/
theorem four_corner_scenario (stdHash : String → Nat)
    (distanceEarthMiles : GeoCoord → GeoCoord → ℚ) (A B C D : GeoCoord)
    (hAB : A ≠ B) (hAC : A ≠ C) (hAD : A ≠ D) (hBC : B ≠ C) (hBD : B ≠ D) (hCD : C ≠ D)
    (sm : StreetMapImpl) (hsm : StreetMapImpl.Reachable stdHash sm)
    (m_path : ExpandableHashMap GeoCoord GeoCoord)
    (hpath : ExpandableHashMap.Reachable (hasher stdHash) m_path)
    (route : List StreetSegment) (totalDistanceTravelled : ℚ) (fuel : Nat)
    (hfuel : 29 ≤ fuel) :
    ∃ out, generatePointToPointRoute stdHash distanceEarthMiles fuel
        (load stdHash sm (squareRecords A B C D)) m_path A C route totalDistanceTravelled
        = Run.done out ∧
      out.result = DeliveryResult.DELIVERY_SUCCESS ∧
      ((out.route = [{ start := A, end_ := B, name := "Main" },
                     { start := B, end_ := C, name := "Main" }] ∧
        out.totalDistanceTravelled = distanceEarthMiles A B + distanceEarthMiles B C) ∨
       (out.route = [{ start := A, end_ := D, name := "Oak" },
                     { start := D, end_ := C, name := "Oak" }] ∧
        out.totalDistanceTravelled = distanceEarthMiles A D + distanceEarthMiles D C)) := by
  have hBA : B ≠ A := fun e => hAB e.symm
  have hCA : C ≠ A := fun e => hAC e.symm
  have hDA : D ≠ A := fun e => hAD e.symm
  have hCB : C ≠ B := fun e => hBC e.symm
  have hDB : D ≠ B := fun e => hBD e.symm
  have hDC : D ≠ C := fun e => hCD e.symm
  have hsA : segmentsAt A (squareRecords A B C D)
      = [{ start := A, end_ := B, name := "Main" }, { start := A, end_ := D, name := "Oak" }] := by
    simp [segmentsAt, squareRecords, hBA, hCA, hDA]
  have hsB : segmentsAt B (squareRecords A B C D)
      = [{ start := B, end_ := A, name := "Main" }, { start := B, end_ := C, name := "Main" }] := by
    simp [segmentsAt, squareRecords, hAB, hCB, hDB]
  have hsD : segmentsAt D (squareRecords A B C D)
      = [{ start := D, end_ := A, name := "Oak" }, { start := D, end_ := C, name := "Oak" }] := by
    simp [segmentsAt, squareRecords, hAD, hBD, hCD]
  have hnames : ∀ r ∈ squareRecords A B C D, r.name ≠ "" := by
    intro r hr
    simp only [squareRecords, List.mem_cons, List.mem_singleton, List.not_mem_nil,
      or_false] at hr
    rcases hr with h | h | h | h <;> rw [h] <;> simp
  have hkA : ExpandableHashMap.find (hasher stdHash)
      (load stdHash sm (squareRecords A B C D)).m_hashMap A ≠ none :=
    find_load_ne_none hsm _ A { start := A, end_ := B, name := "Main" }
      (by simp [squareRecords]) (Or.inl rfl)
  have hkC : ExpandableHashMap.find (hasher stdHash)
      (load stdHash sm (squareRecords A B C D)).m_hashMap C ≠ none :=
    find_load_ne_none hsm _ C { start := B, end_ := C, name := "Main" }
      (by simp [squareRecords]) (Or.inr rfl)
  obtain ⟨g1, g2⟩ := generate_load distanceEarthMiles hsm (squareRecords A B C D) m_path
    hpath A C hAC hkA hkC route totalDistanceTravelled fuel
  obtain ⟨out, hout⟩ := g1 (by unfold searchBudget squareRecords; simpa using hfuel)
  obtain ⟨_, p2, p3⟩ := g2 out hout
  have hvia : IsPath A C [({ start := A, end_ := B, name := "Main" } : StreetSegment),
      { start := B, end_ := C, name := "Main" }] := ⟨rfl, rfl, rfl⟩
  have hviaOK : ∀ s ∈ [({ start := A, end_ := B, name := "Main" } : StreetSegment),
      { start := B, end_ := C, name := "Main" }],
      SegOK stdHash (load stdHash sm (squareRecords A B C D)) s := by
    intro s hs
    simp only [List.mem_cons, List.mem_singleton, List.not_mem_nil, or_false] at hs
    rcases hs with h | h
    · subst h
      exact segOK_load_of_mem hsm _ _ (by rw [hsA]; simp)
    · subst h
      exact segOK_load_of_mem hsm _ _ (by rw [hsB]; simp)
  have hsucc : out.result = DeliveryResult.DELIVERY_SUCCESS := p2.2 ⟨_, hvia, hviaOK⟩
  obtain ⟨q1, q2, q3⟩ := p3 hsucc (load_namesOK hsm _ hnames)
  have hlen := q3 _ hvia hviaOK
  have hdist := success_distance stdHash distanceEarthMiles fuel _ m_path A C hAC route
    totalDistanceTravelled out hout hsucc
  refine ⟨out, hout, hsucc, ?_⟩
  have hmem : ∀ s ∈ out.route, s ∈ segmentsAt s.start (squareRecords A B C D) :=
    fun s hs => segOK_load_mem hsm _ s (q2 s hs).2
  rcases hroute : out.route with _ | ⟨s1, _ | ⟨s2, _ | ⟨s3, rest⟩⟩⟩
  · rw [hroute] at q1
    exact absurd q1 hAC
  · rw [hroute] at q1 hmem
    obtain ⟨e1, e2⟩ := q1
    have e2' : s1.end_ = C := e2
    have h1 := hmem s1 (by simp)
    rw [e1, hsA] at h1
    simp only [List.mem_cons, List.mem_singleton, List.not_mem_nil, or_false] at h1
    rcases h1 with h | h
    · rw [h] at e2'; exact absurd e2' hBC
    · rw [h] at e2'; exact absurd e2' hDC
  · rw [hroute] at q1 hmem hdist
    obtain ⟨e1, e2, e3⟩ := q1
    have e3' : s2.end_ = C := e3
    have h1 := hmem s1 (by simp)
    have h2 := hmem s2 (by simp)
    rw [e1, hsA] at h1
    simp only [List.mem_cons, List.mem_singleton, List.not_mem_nil, or_false] at h1
    rcases h1 with h | h
    · subst h
      simp only at e2
      rw [e2, hsB] at h2
      simp only [List.mem_cons, List.mem_singleton, List.not_mem_nil, or_false] at h2
      rcases h2 with h | h
      · rw [h] at e3'; exact absurd e3' hAC
      · subst h
        refine Or.inl ⟨rfl, ?_⟩
        rw [hdist]
        simp [routeDistance]
    · subst h
      simp only at e2
      rw [e2, hsD] at h2
      simp only [List.mem_cons, List.mem_singleton, List.not_mem_nil, or_false] at h2
      rcases h2 with h | h
      · rw [h] at e3'; exact absurd e3' hAC
      · subst h
        refine Or.inr ⟨rfl, ?_⟩
        rw [hdist]
        simp [routeDistance]
  · rw [hroute] at hlen
    simp only [List.length_cons, List.length_nil] at hlen
    omega

/-- Witness of C14: the scenario at the four concrete coordinates, hashed by string length,
with unit distances and the budget 29; the route returned is the one on "Main". -/
theorem four_corner_scenario_witness :
    runMap (fun out => (out.result, out.route, out.totalDistanceTravelled))
        (generatePointToPointRoute lengthHash unitDistance 29
          (load lengthHash StreetMapImpl.construct (squareRecords coordA coordB coordC coordD))
          constructPath coordA coordC [] 0)
      = Run.done (DeliveryResult.DELIVERY_SUCCESS,
          [{ start := coordA, end_ := coordB, name := "Main" },
           { start := coordB, end_ := coordC, name := "Main" }], 2) ∧
    runMap (fun out => out.result)
        (generatePointToPointRoute lengthHash unitDistance 29
          (load lengthHash StreetMapImpl.construct (squareRecords coordA coordB coordC coordD))
          constructPath coordA coordC [] 0)
      = Run.done DeliveryResult.DELIVERY_SUCCESS :=
  ⟨by with_unfolding_all decide,
    by
      obtain ⟨out, h1, h2, _⟩ := four_corner_scenario lengthHash unitDistance coordA coordB
        coordC coordD (by decide) (by decide) (by decide) (by decide) (by decide) (by decide)
        StreetMapImpl.construct StreetMapImpl.Reachable.construct constructPath
        (ExpandableHashMap.Reachable.construct (1 / 2)) [] 0 29 (le_refl 29)
      rw [h1]
      show Run.done out.result = _
      rw [h2]⟩

end PointToPointRouterImpl

namespace ExpandableHashMap

variable {K V : Type} [DecidableEq K]

/-- In a well-placed table without repeated keys inside a chain, no key occurs in two
entries of the whole table. -/
theorem TableOK.keys_nodup {hasher : K → Nat} {numBuckets : Nat}
    {buckets : List (List (Node K V))} (h : TableOK hasher numBuckets buckets) :
    (chainKeys buckets).flatten.Nodup := by
  rw [List.nodup_flatten]
  constructor
  · intro l hl
    unfold chainKeys at hl
    obtain ⟨chain, hchain, rfl⟩ := List.mem_map.1 hl
    obtain ⟨i, hi, rfl⟩ := List.getElem_of_mem hchain
    have := h.nodup i
    rwa [List.getD_eq_getElem _ _ hi] at this
  · rw [List.pairwise_iff_getElem]
    intro i j hi hj hij
    unfold chainKeys at hi hj ⊢
    rw [List.length_map] at hi hj
    simp only [List.getElem_map]
    intro k hk1 hk2
    obtain ⟨n1, hn1, e1⟩ := List.mem_map.1 hk1
    obtain ⟨n2, hn2, e2⟩ := List.mem_map.1 hk2
    have b1 := h.bucket i n1 (by rw [List.getD_eq_getElem _ _ hi]; exact hn1)
    have b2 := h.bucket j n2 (by rw [List.getD_eq_getElem _ _ hj]; exact hn2)
    rw [e1] at b1
    rw [e2] at b2
    omega

end ExpandableHashMap

namespace ExpandableHashMap

variable {K V : Type} [DecidableEq K]

end ExpandableHashMap

namespace PointToPointRouterImpl

open ExpandableHashMap StreetMapImpl

/-- What the first inner loop of `partition` has established when it ends: every position
it moved past holds a distance not above the pivot's, and it stopped beyond `high` or at a
position whose distance is above the pivot's. -/
theorem advanceLow_spec (distanceEarthMiles : GeoCoord → GeoCoord → ℚ) (end_ : GeoCoord)
    (segs : List StreetSegment) (pivot : GeoCoord) (high : Int) :
    ∀ (fuel : Nat) (low low1 : Int),
      advanceLow distanceEarthMiles end_ segs pivot high fuel low = Run.done low1 →
      low ≤ low1 ∧
      (∀ i, low ≤ i → i < low1 → ∃ s, vectorAt segs i = some s ∧
        distanceEarthMiles s.end_ end_ ≤ distanceEarthMiles pivot end_) ∧
      (low1 ≤ high → ∃ s, vectorAt segs low1 = some s ∧
        ¬ distanceEarthMiles s.end_ end_ ≤ distanceEarthMiles pivot end_) := by
  intro fuel
  induction fuel with
  | zero => intro low low1 h; simp [advanceLow] at h
  | succ fuel ih =>
    intro low low1 h
    unfold advanceLow at h
    by_cases hle : low ≤ high
    · simp only [hle, if_true] at h
      cases hs : vectorAt segs low with
      | none => rw [hs] at h; simp at h
      | some s =>
        rw [hs] at h
        simp only at h
        by_cases hd : distanceEarthMiles s.end_ end_ ≤ distanceEarthMiles pivot end_
        · simp only [hd, if_true] at h
          obtain ⟨e1, e2, e3⟩ := ih (low + 1) low1 h
          refine ⟨by omega, ?_, e3⟩
          intro i hi1 hi2
          by_cases hi : i = low
          · subst hi; exact ⟨s, hs, hd⟩
          · exact e2 i (by omega) hi2
        · simp only [hd, if_false, Run.done.injEq] at h
          subst h
          exact ⟨le_refl _, fun i h1 h2 => by omega, fun _ => ⟨s, hs, hd⟩⟩
    · simp only [hle, if_false, Run.done.injEq] at h
      subst h
      exact ⟨le_refl _, fun i h1 h2 => by omega, fun h => absurd h hle⟩

/-- What the second inner loop of `partition` has established when it ends: every position
it moved past holds a distance above the pivot's, and it stopped at a position whose
distance is not above the pivot's. -/
theorem retreatHigh_spec (distanceEarthMiles : GeoCoord → GeoCoord → ℚ) (end_ : GeoCoord)
    (segs : List StreetSegment) (pivot : GeoCoord) :
    ∀ (fuel : Nat) (high high1 : Int),
      retreatHigh distanceEarthMiles end_ segs pivot fuel high = Run.done high1 →
      high1 ≤ high ∧
      (∀ i, high1 < i → i ≤ high → ∃ s, vectorAt segs i = some s ∧
        distanceEarthMiles s.end_ end_ > distanceEarthMiles pivot end_) ∧
      (∃ s, vectorAt segs high1 = some s ∧
        ¬ distanceEarthMiles s.end_ end_ > distanceEarthMiles pivot end_) := by
  intro fuel
  induction fuel with
  | zero => intro high high1 h; simp [retreatHigh] at h
  | succ fuel ih =>
    intro high high1 h
    unfold retreatHigh at h
    cases hs : vectorAt segs high with
    | none => rw [hs] at h; simp at h
    | some s =>
      rw [hs] at h
      simp only at h
      by_cases hd : distanceEarthMiles s.end_ end_ > distanceEarthMiles pivot end_
      · simp only [hd, if_true] at h
        obtain ⟨e1, e2, e3⟩ := ih (high - 1) high1 h
        refine ⟨by omega, ?_, e3⟩
        intro i hi1 hi2
        by_cases hi : i = high
        · subst hi; exact ⟨s, hs, hd⟩
        · exact e2 i hi1 (by omega)
      · simp only [hd, if_false, Run.done.injEq] at h
        subst h
        exact ⟨le_refl _, fun i h1 h2 => by omega, ⟨s, hs, hd⟩⟩

end PointToPointRouterImpl

namespace PointToPointRouterImpl

open ExpandableHashMap StreetMapImpl

/-- The invariant of the `do ... while` loop of `partition`, for the pivot position `pi`
and the initial upper end `H` of the range: the positions from `pi` up to (not including)
`low` hold distances not above the pivot's, the positions above `high` up to `H` hold
distances above it.  When the loop ends, the final `high` splits the range in this way,
position `pi` still holds what it held, and no position outside `[pi, H]` has changed. -/
theorem partitionLoop_spec (distanceEarthMiles : GeoCoord → GeoCoord → ℚ)
    (end_ pivot : GeoCoord) (pi H : Int) :
    ∀ (fuel : Nat) (segs : List StreetSegment) (low high : Int)
      (res : List StreetSegment × Int × Int),
      pi ≤ low → low ≤ high → high ≤ H →
      (∃ s, vectorAt segs low = some s ∧
        distanceEarthMiles s.end_ end_ ≤ distanceEarthMiles pivot end_) →
      (∀ i, pi ≤ i → i < low → ∃ s, vectorAt segs i = some s ∧
        distanceEarthMiles s.end_ end_ ≤ distanceEarthMiles pivot end_) →
      (∀ i, high < i → i ≤ H → ∃ s, vectorAt segs i = some s ∧
        distanceEarthMiles s.end_ end_ > distanceEarthMiles pivot end_) →
      partitionLoop distanceEarthMiles end_ pivot fuel segs low high = Run.done res →
      pi ≤ res.2.2 ∧ res.2.2 ≤ high ∧
      vectorAt res.1 pi = vectorAt segs pi ∧
      (∀ i, pi ≤ i → i ≤ res.2.2 → ∃ s, vectorAt res.1 i = some s ∧
        distanceEarthMiles s.end_ end_ ≤ distanceEarthMiles pivot end_) ∧
      (∀ i, res.2.2 < i → i ≤ H → ∃ s, vectorAt res.1 i = some s ∧
        distanceEarthMiles s.end_ end_ > distanceEarthMiles pivot end_) ∧
      (∀ i, i < pi ∨ H < i → vectorAt res.1 i = vectorAt segs i) := by
  intro fuel
  induction fuel with
  | zero => intro _ _ _ _ _ _ _ _ _ _ h; simp [partitionLoop] at h
  | succ fuel ih =>
    intro segs low high res h1 h2 h3 hlow hI1 hI2 h
    unfold partitionLoop at h
    cases ha : advanceLow distanceEarthMiles end_ segs pivot high fuel low with
    | fault => rw [ha] at h; simp at h
    | timeout => rw [ha] at h; simp at h
    | done low1 =>
      rw [ha] at h
      simp only at h
      cases hb : retreatHigh distanceEarthMiles end_ segs pivot fuel high with
      | fault => rw [hb] at h; simp at h
      | timeout => rw [hb] at h; simp at h
      | done high1 =>
        rw [hb] at h
        simp only at h
        obtain ⟨a1, a2, a3⟩ := advanceLow_spec distanceEarthMiles end_ segs pivot high fuel low
          low1 ha
        obtain ⟨b1, b2, sh, hsh, hdh⟩ := retreatHigh_spec distanceEarthMiles end_ segs pivot
          fuel high high1 hb
        obtain ⟨s0, hs0, hd0⟩ := hlow
        have hadv : low + 1 ≤ low1 := by
          by_contra hc
          have e : low1 = low := by omega
          obtain ⟨s, hs, hd⟩ := a3 (by omega)
          rw [e, hs0] at hs
          simp only [Option.some.injEq] at hs
          subst hs
          exact hd hd0
        have hleft : ∀ i, pi ≤ i → i < low1 → ∃ s, vectorAt segs i = some s ∧
            distanceEarthMiles s.end_ end_ ≤ distanceEarthMiles pivot end_ := by
          intro i hi1 hi2
          by_cases hi : i < low
          · exact hI1 i hi1 hi
          · exact a2 i (by omega) hi2
        have hright : ∀ i, high1 < i → i ≤ H → ∃ s, vectorAt segs i = some s ∧
            distanceEarthMiles s.end_ end_ > distanceEarthMiles pivot end_ := by
          intro i hi1 hi2
          by_cases hi : i ≤ high
          · exact b2 i hi1 hi
          · exact hI2 i (by omega) hi2
        have hpi : pi ≤ high1 := by
          by_contra hc
          obtain ⟨s, hs, hd⟩ := hright pi (by omega) (by omega)
          obtain ⟨s', hs', hd'⟩ := hleft pi (le_refl _) (by omega)
          rw [hs] at hs'
          simp only [Option.some.injEq] at hs'
          subst hs'
          exact absurd hd (not_lt.2 hd')
        by_cases hlt : low1 < high1
        · simp only [hlt, if_true] at h
          obtain ⟨sl, hsl, _⟩ := a3 (by omega)
          rw [swapSegInVector_eq hsl hsh] at h
          simp only at h
          have hsw := vectorAt_swap hsl hsh
          obtain ⟨r1, r2, r3, r4, r5, r6⟩ := ih ((segs.set low1.toNat sh).set high1.toNat sl)
            low1 high1 res (by omega) (by omega) (by omega)
            (by
              refine ⟨sh, ?_, not_lt.1 hdh⟩
              rw [hsw]
              have e1 : ¬ low1 = high1 := by omega
              simp only [e1, if_false, if_true])
            (by
              intro i hi1 hi2
              rw [hsw]
              have e1 : ¬ i = high1 := by omega
              have e2 : ¬ i = low1 := by omega
              simp only [e1, e2, if_false]
              exact hleft i hi1 hi2)
            (by
              intro i hi1 hi2
              rw [hsw]
              have e1 : ¬ i = high1 := by omega
              have e2 : ¬ i = low1 := by omega
              simp only [e1, e2, if_false]
              exact hright i hi1 hi2)
            h
          refine ⟨r1, by omega, ?_, r4, r5, ?_⟩
          · rw [r3, hsw]
            have e1 : ¬ pi = high1 := by omega
            have e2 : ¬ pi = low1 := by omega
            simp only [e1, e2, if_false]
          · intro i hi
            rw [r6 i hi, hsw]
            have e1 : ¬ i = high1 := by omega
            have e2 : ¬ i = low1 := by omega
            simp only [e1, e2, if_false]
        · simp only [hlt, if_false, Run.done.injEq] at h
          subst h
          refine ⟨hpi, b1, rfl, ?_, hright, fun _ _ => rfl⟩
          intro i hi1 hi2
          by_cases hi : i = high1
          · subst hi; exact ⟨sh, hsh, not_lt.1 hdh⟩
          · exact hleft i hi1 (by simp only at hi2; omega)

end PointToPointRouterImpl

namespace PointToPointRouterImpl

open ExpandableHashMap StreetMapImpl

/-- What `partition` has established when it returns on a range with `low <= high`: the
returned index lies in the range and holds the segment that was at `low`; the positions of
the range below it hold distances not above the pivot's, those above it distances above the
pivot's; no position outside the range has changed. -/
theorem partition_spec (distanceEarthMiles : GeoCoord → GeoCoord → ℚ) (fuel : Nat)
    (segs : List StreetSegment) (low high : Int) (end_ : GeoCoord)
    (res : List StreetSegment × Int) (h1 : low ≤ high)
    (h : partition distanceEarthMiles fuel segs low high end_ = Run.done res) :
    ∃ pivot, vectorAt segs low = some pivot ∧ low ≤ res.2 ∧ res.2 ≤ high ∧
      vectorAt res.1 res.2 = some pivot ∧
      (∀ i, low ≤ i → i < res.2 → ∃ s, vectorAt res.1 i = some s ∧
        distanceEarthMiles s.end_ end_ ≤ distanceEarthMiles pivot.end_ end_) ∧
      (∀ i, res.2 < i → i ≤ high → ∃ s, vectorAt res.1 i = some s ∧
        distanceEarthMiles s.end_ end_ > distanceEarthMiles pivot.end_ end_) ∧
      (∀ i, i < low ∨ high < i → vectorAt res.1 i = vectorAt segs i) := by
  unfold partition at h
  simp only at h
  cases hseg : vectorAt segs low with
  | none => rw [hseg] at h; simp at h
  | some seg =>
    rw [hseg] at h
    simp only at h
    cases hloop : partitionLoop distanceEarthMiles end_ seg.end_ fuel segs low high with
    | fault => rw [hloop] at h; simp at h
    | timeout => rw [hloop] at h; simp at h
    | done r =>
      obtain ⟨segs1, low1, high1⟩ := r
      rw [hloop] at h
      simp only at h
      obtain ⟨r1, r2, r3, r4, r5, r6⟩ := partitionLoop_spec distanceEarthMiles end_ seg.end_ low
        high fuel segs low high (segs1, low1, high1) (le_refl _) h1 (le_refl _)
        ⟨seg, hseg, le_refl _⟩ (fun i a b => by omega) (fun i a b => by omega) hloop
      simp only at r1 r2 r3 r4 r5 r6
      have hsa : vectorAt segs1 low = some seg := by rw [r3, hseg]
      obtain ⟨sb, hsb, hdb⟩ := r4 high1 r1 (le_refl _)
      rw [swapSegInVector_eq hsa hsb] at h
      simp only [Run.done.injEq] at h
      subst h
      have hsw := vectorAt_swap hsa hsb
      refine ⟨seg, rfl, r1, r2, ?_, ?_, ?_, ?_⟩
      · simp only
        rw [hsw]
        simp only [if_true]
      · intro i hi1 hi2
        simp only at hi2 ⊢
        rw [hsw]
        have e1 : ¬ i = high1 := by omega
        simp only [e1, if_false]
        by_cases e2 : i = low
        · simp only [e2, if_true]
          exact ⟨sb, rfl, hdb⟩
        · simp only [e2, if_false]
          exact r4 i hi1 (by omega)
      · intro i hi1 hi2
        simp only at hi1 ⊢
        rw [hsw]
        have e1 : ¬ i = high1 := by omega
        have e2 : ¬ i = low := by omega
        simp only [e1, e2, if_false]
        exact r5 i hi1 hi2
      · intro i hi
        simp only
        rw [hsw]
        have e1 : ¬ i = high1 := by omega
        have e2 : ¬ i = low := by omega
        simp only [e1, e2, if_false]
        exact r6 i hi

end PointToPointRouterImpl

namespace PointToPointRouterImpl

open ExpandableHashMap StreetMapImpl

/-- A position of `mid` is the position shifted by the length of `pre` in
`pre ++ (mid ++ post)`. -/
theorem vectorAt_frame (pre mid post : List StreetSegment) {i : Int} {s : StreetSegment}
    (h : vectorAt mid i = some s) :
    vectorAt (pre ++ (mid ++ post)) (i + (pre.length : Int)) = some s := by
  obtain ⟨h0, h1⟩ := vectorAt_range h
  rw [vectorAt_some_iff] at h ⊢
  refine ⟨by omega, ?_⟩
  have e : (i + (pre.length : Int)).toNat = pre.length + i.toNat := by omega
  rw [e, List.getElem?_append_right (by omega), Nat.add_sub_cancel_left,
    List.getElem?_append_left (by omega)]
  exact h.2

theorem set_frame (pre mid post : List StreetSegment) {i : Int} (h0 : 0 ≤ i)
    (h1 : i < (mid.length : Int)) (x : StreetSegment) :
    (pre ++ (mid ++ post)).set (i + (pre.length : Int)).toNat x
      = pre ++ (mid.set i.toNat x ++ post) := by
  have e : (i + (pre.length : Int)).toNat = pre.length + i.toNat := by omega
  rw [e, List.set_append_right _ _ (by omega), Nat.add_sub_cancel_left,
    List.set_append_left _ _ (by omega)]

/-- A swap inside `mid` is the shifted swap in `pre ++ (mid ++ post)`. -/
theorem swapSegInVector_frame (pre mid post : List StreetSegment) {i j : Int}
    {mid' : List StreetSegment} (h : swapSegInVector mid i j = Run.done mid') :
    swapSegInVector (pre ++ (mid ++ post)) (i + (pre.length : Int)) (j + (pre.length : Int))
      = Run.done (pre ++ (mid' ++ post)) := by
  unfold swapSegInVector at h
  split at h
  · rename_i temp other hi hj
    simp only [Run.done.injEq] at h
    subst h
    rw [swapSegInVector_eq (vectorAt_frame pre mid post hi) (vectorAt_frame pre mid post hj)]
    obtain ⟨i0, i1⟩ := vectorAt_range hi
    obtain ⟨j0, j1⟩ := vectorAt_range hj
    rw [set_frame pre mid post i0 i1, set_frame pre _ post j0 (by simpa using j1)]
  · simp at h

/-- A run of the first inner loop of `partition` on `mid` is the shifted run on
`pre ++ (mid ++ post)`. -/
theorem advanceLow_frame (distanceEarthMiles : GeoCoord → GeoCoord → ℚ) (end_ : GeoCoord)
    (pre mid post : List StreetSegment) (pivot : GeoCoord) (high : Int) :
    ∀ (fuel : Nat) (low low1 : Int),
      advanceLow distanceEarthMiles end_ mid pivot high fuel low = Run.done low1 →
      advanceLow distanceEarthMiles end_ (pre ++ (mid ++ post)) pivot
        (high + (pre.length : Int)) fuel (low + (pre.length : Int))
        = Run.done (low1 + (pre.length : Int)) := by
  intro fuel
  induction fuel with
  | zero => intro low low1 h; simp [advanceLow] at h
  | succ fuel ih =>
    intro low low1 h
    unfold advanceLow at h ⊢
    by_cases hle : low ≤ high
    · have hle' : low + (pre.length : Int) ≤ high + (pre.length : Int) := by omega
      simp only [hle, hle', if_true] at h ⊢
      cases hs : vectorAt mid low with
      | none => rw [hs] at h; simp at h
      | some s =>
        rw [hs] at h
        rw [vectorAt_frame pre mid post hs]
        simp only at h ⊢
        by_cases hd : distanceEarthMiles s.end_ end_ ≤ distanceEarthMiles pivot end_
        · simp only [hd, if_true] at h ⊢
          have := ih (low + 1) low1 h
          rwa [show low + 1 + (pre.length : Int) = low + (pre.length : Int) + 1 by omega]
            at this
        · simp only [hd, if_false, Run.done.injEq] at h ⊢
          omega
    · have hle' : ¬ low + (pre.length : Int) ≤ high + (pre.length : Int) := by omega
      simp only [hle, hle', if_false, Run.done.injEq] at h ⊢
      omega

/-- A run of the second inner loop of `partition` on `mid` is the shifted run on
`pre ++ (mid ++ post)`. -/
theorem retreatHigh_frame (distanceEarthMiles : GeoCoord → GeoCoord → ℚ) (end_ : GeoCoord)
    (pre mid post : List StreetSegment) (pivot : GeoCoord) :
    ∀ (fuel : Nat) (high high1 : Int),
      retreatHigh distanceEarthMiles end_ mid pivot fuel high = Run.done high1 →
      retreatHigh distanceEarthMiles end_ (pre ++ (mid ++ post)) pivot fuel
        (high + (pre.length : Int)) = Run.done (high1 + (pre.length : Int)) := by
  intro fuel
  induction fuel with
  | zero => intro high high1 h; simp [retreatHigh] at h
  | succ fuel ih =>
    intro high high1 h
    unfold retreatHigh at h ⊢
    cases hs : vectorAt mid high with
    | none => rw [hs] at h; simp at h
    | some s =>
      rw [hs] at h
      rw [vectorAt_frame pre mid post hs]
      simp only at h ⊢
      by_cases hd : distanceEarthMiles s.end_ end_ > distanceEarthMiles pivot end_
      · simp only [hd, if_true] at h ⊢
        have := ih (high - 1) high1 h
        rwa [show high - 1 + (pre.length : Int) = high + (pre.length : Int) - 1 by omega]
          at this
      · simp only [hd, if_false, Run.done.injEq] at h ⊢
        omega

end PointToPointRouterImpl

namespace PointToPointRouterImpl

open ExpandableHashMap StreetMapImpl

/-- A run of the `do ... while` loop of `partition` on `mid` is the shifted run on
`pre ++ (mid ++ post)`, which leaves `pre` and `post` as they are. -/
theorem partitionLoop_frame (distanceEarthMiles : GeoCoord → GeoCoord → ℚ)
    (end_ pivot : GeoCoord) (pre post : List StreetSegment) :
    ∀ (fuel : Nat) (mid : List StreetSegment) (low high : Int)
      (res : List StreetSegment × Int × Int),
      partitionLoop distanceEarthMiles end_ pivot fuel mid low high = Run.done res →
      partitionLoop distanceEarthMiles end_ pivot fuel (pre ++ (mid ++ post))
        (low + (pre.length : Int)) (high + (pre.length : Int))
        = Run.done (pre ++ (res.1 ++ post), res.2.1 + (pre.length : Int),
            res.2.2 + (pre.length : Int)) := by
  intro fuel
  induction fuel with
  | zero => intro _ _ _ _ h; simp [partitionLoop] at h
  | succ fuel ih =>
    intro mid low high res h
    unfold partitionLoop at h ⊢
    cases ha : advanceLow distanceEarthMiles end_ mid pivot high fuel low with
    | fault => rw [ha] at h; simp at h
    | timeout => rw [ha] at h; simp at h
    | done low1 =>
      rw [ha] at h
      rw [advanceLow_frame distanceEarthMiles end_ pre mid post pivot high fuel low low1 ha]
      simp only at h ⊢
      cases hb : retreatHigh distanceEarthMiles end_ mid pivot fuel high with
      | fault => rw [hb] at h; simp at h
      | timeout => rw [hb] at h; simp at h
      | done high1 =>
        rw [hb] at h
        rw [retreatHigh_frame distanceEarthMiles end_ pre mid post pivot fuel high high1 hb]
        simp only at h ⊢
        by_cases hlt : low1 < high1
        · have hlt' : low1 + (pre.length : Int) < high1 + (pre.length : Int) := by omega
          simp only [hlt, hlt', if_true] at h ⊢
          cases hsw : swapSegInVector mid low1 high1 with
          | fault => rw [hsw] at h; simp at h
          | timeout => rw [hsw] at h; simp at h
          | done swapped =>
            rw [hsw] at h
            rw [swapSegInVector_frame pre mid post hsw]
            simp only at h ⊢
            exact ih swapped low1 high1 res h
        · have hlt' : ¬ low1 + (pre.length : Int) < high1 + (pre.length : Int) := by omega
          simp only [hlt, hlt', if_false, Run.done.injEq] at h ⊢
          subst h
          rfl

/-- A run of `partition` on `mid` is the shifted run on `pre ++ (mid ++ post)`, which
leaves `pre` and `post` as they are. -/
theorem partition_frame (distanceEarthMiles : GeoCoord → GeoCoord → ℚ) (fuel : Nat)
    (pre mid post : List StreetSegment) (low high : Int) (end_ : GeoCoord)
    (res : List StreetSegment × Int)
    (h : partition distanceEarthMiles fuel mid low high end_ = Run.done res) :
    partition distanceEarthMiles fuel (pre ++ (mid ++ post)) (low + (pre.length : Int))
        (high + (pre.length : Int)) end_
      = Run.done (pre ++ (res.1 ++ post), res.2 + (pre.length : Int)) := by
  unfold partition at h ⊢
  simp only at h ⊢
  cases hseg : vectorAt mid low with
  | none => rw [hseg] at h; simp at h
  | some seg =>
    rw [hseg] at h
    rw [vectorAt_frame pre mid post hseg]
    simp only at h ⊢
    cases hloop : partitionLoop distanceEarthMiles end_ seg.end_ fuel mid low high with
    | fault => rw [hloop] at h; simp at h
    | timeout => rw [hloop] at h; simp at h
    | done r =>
      obtain ⟨segs1, low1, high1⟩ := r
      rw [hloop] at h
      rw [partitionLoop_frame distanceEarthMiles end_ seg.end_ pre post fuel mid low high _
        hloop]
      simp only at h ⊢
      cases hsw : swapSegInVector segs1 low high1 with
      | fault => rw [hsw] at h; simp at h
      | timeout => rw [hsw] at h; simp at h
      | done segs2 =>
        rw [hsw] at h
        rw [swapSegInVector_frame pre segs1 post hsw]
        simp only [Run.done.injEq] at h ⊢
        subst h
        rfl

end PointToPointRouterImpl

namespace PointToPointRouterImpl

open ExpandableHashMap StreetMapImpl

/-- A vector split at the two ends of an index range inside it. -/
theorem split_window (segs : List StreetSegment) (low high : Int) (h0 : 0 ≤ low)
    (h1 : low ≤ high) (h2 : high < (segs.length : Int)) :
    segs = segs.take low.toNat
        ++ ((segs.drop low.toNat).take (high - low + 1).toNat ++ segs.drop (high + 1).toNat) ∧
    ((segs.take low.toNat).length : Int) = low ∧
    (((segs.drop low.toNat).take (high - low + 1).toNat).length : Int) = high - low + 1 := by
  refine ⟨?_, ?_, ?_⟩
  · have e : (high + 1).toNat = low.toNat + (high - low + 1).toNat := by omega
    rw [e, ← List.drop_drop, List.take_append_drop, List.take_append_drop]
  · rw [List.length_take]
    omega
  · rw [List.length_take, List.length_drop]
    omega

/-- C26: for `0 <= low <= high < size` and a step budget of at least the size of the range
plus the size of the vector plus 2, `partition` returns without a fault (no index outside
the vector is accessed) a vector `res` and an index `p` with `low <= p <= high`; the
segment that was at `low` is at `p`; every position in `[low, p)` holds a segment whose
distance to the target is at most the pivot's, every position in `(p, high]` one whose
distance is greater; the positions outside `[low, high]` hold what they held.  The same
call on the window `[low, high]` alone, in which every other position is out of range and
an access to it a fault, returns the window of `res` and `p - low`: only positions of the
range are read and swapped. -/
theorem partition_splits_range (distanceEarthMiles : GeoCoord → GeoCoord → ℚ)
    (segs : List StreetSegment) (low high : Int) (target : GeoCoord) (h0 : 0 ≤ low)
    (h1 : low ≤ high) (h2 : high < (segs.length : Int)) (fuel : Nat)
    (hf : (high - low).toNat + segs.length + 2 ≤ fuel) :
    ∃ (res : List StreetSegment) (p : Int) (pivot : StreetSegment)
      (window : List StreetSegment),
      partition distanceEarthMiles fuel segs low high target = Run.done (res, p) ∧
      low ≤ p ∧ p ≤ high ∧
      vectorAt segs low = some pivot ∧ vectorAt res p = some pivot ∧
      (∀ i, low ≤ i → i < p → ∃ s, vectorAt res i = some s ∧
        distanceEarthMiles s.end_ target ≤ distanceEarthMiles pivot.end_ target) ∧
      (∀ i, p < i → i ≤ high → ∃ s, vectorAt res i = some s ∧
        distanceEarthMiles s.end_ target > distanceEarthMiles pivot.end_ target) ∧
      (∀ i, i < low ∨ high < i → vectorAt res i = vectorAt segs i) ∧
      partition distanceEarthMiles fuel ((segs.drop low.toNat).take (high - low + 1).toNat)
        0 (high - low) target = Run.done (window, p - low) ∧
      res = segs.take low.toNat ++ (window ++ segs.drop (high + 1).toNat) := by
  obtain ⟨hsplit, hpre, hmid⟩ := split_window segs low high h0 h1 h2
  have hlen : ((segs.drop low.toNat).take (high - low + 1).toNat).length ≤ segs.length := by
    rw [List.length_take, List.length_drop]
    omega
  obtain ⟨rm, hrm, _, _⟩ := partition_total distanceEarthMiles fuel
    ((segs.drop low.toNat).take (high - low + 1).toNat) 0 (high - low) target (le_refl _)
    (by omega) (by omega) (by omega)
  have hframe := partition_frame distanceEarthMiles fuel (segs.take low.toNat) _
    (segs.drop (high + 1).toNat) 0 (high - low) target rm hrm
  rw [← hsplit, hpre, zero_add, sub_add_cancel] at hframe
  obtain ⟨pivot, s1, s2, s3, s4, s5, s6, s7⟩ := partition_spec distanceEarthMiles fuel segs low
    high target _ h1 hframe
  refine ⟨_, _, pivot, rm.1, hframe, s2, s3, s1, s4, s5, s6, s7, ?_, rfl⟩
  rw [add_sub_cancel_right]
  exact hrm

end PointToPointRouterImpl

namespace PointToPointRouterImpl

open ExpandableHashMap StreetMapImpl

/-- Witness of C26: `partition` of positions 1 to 3 of `fiveSegments` with target `C`
returns index 2; on the three-segment window alone it returns index 1. -/
theorem partition_splits_range_witness :
    (0 : Int) ≤ 1 ∧ (1 : Int) ≤ 3 ∧ (3 : Int) < (fiveSegments.length : Int) ∧
    runMap (fun r => r.2) (partition unitDistance 9 fiveSegments 1 3 coordC) = Run.done 2 ∧
    runMap (fun r => r.2)
        (partition unitDistance 9 ((fiveSegments.drop 1).take 3) 0 2 coordC)
      = Run.done 1 :=
  ⟨by decide, by decide, by decide, by with_unfolding_all decide,
    by
      obtain ⟨res, p, pivot, window, h1, _, _, _, _, _, _, _, h9, _⟩ :=
        partition_splits_range unitDistance fiveSegments 1 3 coordC (by decide) (by decide)
          (by decide) 9 (by decide)
      have e : runMap (fun r => r.2) (partition unitDistance 9 fiveSegments 1 3 coordC)
          = Run.done 2 := by with_unfolding_all decide
      rw [h1] at e
      simp only [runMap, Run.done.injEq] at e
      subst e
      have h9' : partition unitDistance 9 ((fiveSegments.drop 1).take 3) 0 2 coordC
          = Run.done (window, 1) := h9
      rw [h9']
      rfl⟩

/-- When `sortSegments` returns on a range inside the vector, no position outside the
range has changed. -/
theorem sortSegments_outside (distanceEarthMiles : GeoCoord → GeoCoord → ℚ) :
    ∀ (fuel : Nat) (segs : List StreetSegment) (first last : Int) (end_ : GeoCoord)
      (res : List StreetSegment),
      sortSegments distanceEarthMiles fuel segs first last end_ = Run.done res →
      ∀ i, i < first ∨ last < i → vectorAt res i = vectorAt segs i := by
  intro fuel
  induction fuel with
  | zero => intro segs first last end_ res h; simp [sortSegments] at h
  | succ fuel ih =>
    intro segs first last end_ res h i hi
    unfold sortSegments at h
    by_cases hsmall : last - first ≤ 1
    · simp only [hsmall, if_true, Run.done.injEq] at h
      subst h
      rfl
    · simp only [hsmall, if_false] at h
      cases hpart : partition distanceEarthMiles fuel segs first last end_ with
      | fault => rw [hpart] at h; simp at h
      | timeout => rw [hpart] at h; simp at h
      | done r =>
        obtain ⟨segs1, p⟩ := r
        rw [hpart] at h
        simp only at h
        obtain ⟨_, _, p1, p2, _, _, _, p3⟩ := partition_spec distanceEarthMiles fuel segs first
          last end_ _ (by omega) hpart
        simp only at p1 p2 p3
        cases hleft : sortSegments distanceEarthMiles fuel segs1 first (p - 1) end_ with
        | fault => rw [hleft] at h; simp at h
        | timeout => rw [hleft] at h; simp at h
        | done segs2 =>
          rw [hleft] at h
          simp only at h
          rw [ih segs2 (p + 1) last end_ res h i (by omega),
            ih segs1 first (p - 1) end_ segs2 hleft i (by omega), p3 i hi]

/-- C25: for `0 <= first <= last < size` and a step budget of at least the size of the
range plus the size of the vector plus 3, `sortSegments` returns without a fault a vector
that is a permutation of its input, with the same members, in which every position
outside `[first, last]` holds what it held.  When the input is the vector that
`getSegmentsThatStartWith` filled for a coordinate of a loaded map, the sorted vector, over
which the search runs its `for` loop, is a permutation of the index entry `segmentsAt` of
that coordinate. -/
theorem sortSegments_is_permutation (distanceEarthMiles : GeoCoord → GeoCoord → ℚ)
    (segs : List StreetSegment) (first last : Int) (target : GeoCoord) (h0 : 0 ≤ first)
    (h1 : first ≤ last) (h2 : last < (segs.length : Int)) (fuel : Nat)
    (hf : (last - first).toNat + segs.length + 3 ≤ fuel) :
    ∃ sorted : List StreetSegment,
      sortSegments distanceEarthMiles fuel segs first last target = Run.done sorted ∧
      sorted.Perm segs ∧
      (∀ s, s ∈ sorted ↔ s ∈ segs) ∧
      (∀ i, i < first ∨ last < i → vectorAt sorted i = vectorAt segs i) ∧
      (∀ (stdHash : String → Nat) (sm : StreetMapImpl) (recs : List SegmentRecord)
        (curr : GeoCoord) (adjacentSegs : List StreetSegment),
        StreetMapImpl.Reachable stdHash sm →
        getSegmentsThatStartWith stdHash (load stdHash sm recs) curr adjacentSegs
          = (true, segs) →
        sorted.Perm (segmentsAt curr recs)) := by
  obtain ⟨sorted, hs⟩ := sortSegments_total distanceEarthMiles fuel segs first last target
    (Or.inr ⟨h0, h2⟩) hf
  have hperm := sortSegments_perm distanceEarthMiles fuel segs first last target sorted hs
  refine ⟨sorted, hs, hperm, fun s => hperm.mem_iff,
    sortSegments_outside distanceEarthMiles fuel segs first last target sorted hs, ?_⟩
  intro stdHash sm recs curr adjacentSegs hsm hget
  rw [getSegmentsThatStartWith_of_indexes (load_indexes hsm recs)] at hget
  by_cases hE : segmentsAt curr recs = []
  · simp [hE] at hget
  · simp only [hE, if_false, Prod.mk.injEq, true_and] at hget
    rw [hget]
    exact hperm

/-- Witness of C25: sorting positions 1 to 4 of `fiveSegments` with target `C` returns, and
position 0 still holds the segment named "Elm". -/
theorem sortSegments_is_permutation_witness :
    (0 : Int) ≤ 1 ∧ (1 : Int) ≤ 4 ∧ (4 : Int) < (fiveSegments.length : Int) ∧
    runMap (fun sorted => vectorAt sorted 0)
        (sortSegments unitDistance 11 fiveSegments 1 4 coordC)
      = Run.done (vectorAt fiveSegments 0) ∧
    runMap (fun sorted => sorted.map (fun s => s.name))
        (sortSegments unitDistance 11 fiveSegments 1 4 coordC)
      = Run.done ["Elm", "Pine", "Oak", "Main", "Ash"] :=
  ⟨by decide, by decide, by decide,
    by
      obtain ⟨sorted, h1, _, _, h4, _⟩ := sortSegments_is_permutation unitDistance
        fiveSegments 1 4 coordC (by decide) (by decide) (by decide) 11 (by decide)
      rw [h1]
      show Run.done (vectorAt sorted 0) = _
      rw [h4 0 (Or.inl (by decide))],
    by with_unfolding_all decide⟩

end PointToPointRouterImpl

namespace PointToPointRouterImpl

open ExpandableHashMap StreetMapImpl

theorem explore_explored_mono (stdHash : String → Nat) (st : SearchState)
    (seg : StreetSegment) (x : GeoCoord) (hx : x ∈ st.explored) :
    x ∈ (explore stdHash st seg).explored := by
  by_cases h : seg.end_ ∈ st.explored
  · rw [explore_old stdHash st seg h]; exact hx
  · rw [explore_new stdHash st seg h]
    exact List.mem_append_left _ hx

/-- One step of the `for` loop keeps two searches in step, when the segment starts at an
explored coordinate. -/
theorem SameSearch.exploreStep {stdHash : String → Nat} {start : GeoCoord}
    {st1 st2 : SearchState} (h : SameSearch stdHash start st1 st2) (seg : StreetSegment)
    (hseg : seg.start ∈ st1.explored) :
    SameSearch stdHash start (explore stdHash st1 seg) (explore stdHash st2 seg) := by
  by_cases hmem : seg.end_ ∈ st1.explored
  · rw [explore_old stdHash st1 seg hmem,
      explore_old stdHash st2 seg (by rw [← h.explored_eq]; exact hmem)]
    exact h
  · rw [explore_new stdHash st1 seg hmem,
      explore_new stdHash st2 seg (by rw [← h.explored_eq]; exact hmem)]
    obtain ⟨w1, f1⟩ := h.wf1.associate seg.end_ seg.start
    obtain ⟨w2, f2⟩ := h.wf2.associate seg.end_ seg.start
    refine ⟨w1, w2, ?_, ?_, ?_, ?_⟩
    · show st1.toDo ++ [seg.end_] = st2.toDo ++ [seg.end_]
      rw [h.toDo_eq]
    · show st1.explored ++ [seg.end_] = st2.explored ++ [seg.end_]
      rw [h.explored_eq]
    · intro x hx
      show x ∈ st1.explored ++ [seg.end_]
      rcases List.mem_append.1 hx with hx | hx
      · exact List.mem_append_left _ (h.todo_explored x hx)
      · exact List.mem_append_right _ hx
    · intro x hx hne
      show find (hasher stdHash) (associate (hasher stdHash) st1.m_path seg.end_ seg.start) x
          = find (hasher stdHash) (associate (hasher stdHash) st2.m_path seg.end_ seg.start) x ∧
        ∃ p ∈ st1.explored ++ [seg.end_],
          find (hasher stdHash) (associate (hasher stdHash) st1.m_path seg.end_ seg.start) x
            = some p
      rw [f1 x, f2 x]
      by_cases hxe : x = seg.end_
      · simp only [hxe, if_true]
        exact ⟨trivial, seg.start, List.mem_append_left _ hseg, rfl⟩
      · simp only [hxe, if_false]
        have hx' : x ∈ st1.explored := by
          rcases List.mem_append.1 hx with hx | hx
          · exact hx
          · exact absurd (List.mem_singleton.1 hx) hxe
        obtain ⟨a1, p, hp, a2⟩ := h.agree x hx' hne
        exact ⟨a1, p, List.mem_append_left _ hp, a2⟩

theorem SameSearch.exploreAll {stdHash : String → Nat} {start : GeoCoord}
    (segs : List StreetSegment) :
    ∀ {st1 st2 : SearchState}, SameSearch stdHash start st1 st2 →
      (∀ s ∈ segs, s.start ∈ st1.explored) →
      SameSearch stdHash start (segs.foldl (PointToPointRouterImpl.explore stdHash) st1)
        (segs.foldl (PointToPointRouterImpl.explore stdHash) st2) ∧
      ∀ x ∈ st1.explored,
        x ∈ (segs.foldl (PointToPointRouterImpl.explore stdHash) st1).explored := by
  induction segs with
  | nil => intro st1 st2 h _; exact ⟨h, fun x hx => hx⟩
  | cons seg segs ih =>
    intro st1 st2 h hsegs
    simp only [List.foldl_cons]
    obtain ⟨r1, r2⟩ := ih (h.exploreStep seg (hsegs seg (by simp)))
      (fun s hs => explore_explored_mono stdHash st1 seg _ (hsegs s (by simp [hs])))
    exact ⟨r1, fun x hx => r2 x (explore_explored_mono stdHash st1 seg x hx)⟩

/-- The backward walk gives the same result on two predecessor maps that agree on the
explored coordinates other than `start`. -/
theorem recreateLoop_same {stdHash : String → Nat}
    (distanceEarthMiles : GeoCoord → GeoCoord → ℚ) (sm : StreetMapImpl) {start : GeoCoord}
    {st1 st2 : SearchState} (h : SameSearch stdHash start st1 st2) :
    ∀ (fuel : Nat) (endingG : GeoCoord) (sG1 sG2 : Option GeoCoord)
      (possibleSegs : List StreetSegment) (streetName : String) (route : List StreetSegment)
      (total : ℚ),
      (endingG ≠ start → sG1 = sG2 ∧ ∃ p ∈ st1.explored, sG1 = some p) →
      recreateLoop stdHash distanceEarthMiles sm st1.m_path start fuel endingG sG1
          possibleSegs streetName route total
        = recreateLoop stdHash distanceEarthMiles sm st2.m_path start fuel endingG sG2
          possibleSegs streetName route total := by
  intro fuel
  induction fuel with
  | zero => intro _ _ _ _ _ _ _ _; rfl
  | succ fuel ih =>
    intro endingG sG1 sG2 possibleSegs streetName route total hs
    unfold recreateLoop
    by_cases he : endingG = start
    · simp only [he, if_true]
    · simp only [he, if_false]
      obtain ⟨e, p, hp, e1⟩ := hs he
      subst e
      subst e1
      simp only
      split
      · rfl
      · apply ih
        intro hne
        exact h.agree p hp hne

end PointToPointRouterImpl

namespace PointToPointRouterImpl

open ExpandableHashMap StreetMapImpl

/-- Two runs of the search loop from states in step give the same outcome, on an index
whose segments are stored under their start. -/
theorem searchLoop_same {stdHash : String → Nat}
    (distanceEarthMiles : GeoCoord → GeoCoord → ℚ) {sm : StreetMapImpl}
    (hstarts : StartsOK stdHash sm) (start end_ : GeoCoord) (route : List StreetSegment) :
    ∀ (fuel : Nat) (st1 st2 : SearchState) (adjacentSegs : List StreetSegment),
      SameSearch stdHash start st1 st2 →
      (∀ s ∈ adjacentSegs, s.start ∈ st1.explored) →
      runMap searchOutcome
          (searchLoop stdHash distanceEarthMiles sm start end_ route fuel st1 adjacentSegs)
        = runMap searchOutcome
          (searchLoop stdHash distanceEarthMiles sm start end_ route fuel st2 adjacentSegs) := by
  intro fuel
  induction fuel with
  | zero => intro _ _ _ _ _; rfl
  | succ fuel ih =>
    intro st1 st2 adjacentSegs h hadj
    unfold searchLoop
    rw [← h.toDo_eq]
    cases htodo : st1.toDo with
    | nil => rfl
    | cons curr rest =>
      simp only
      have hcurr : curr ∈ st1.explored := h.todo_explored curr (by rw [htodo]; simp)
      by_cases hc : curr = end_
      · simp only [hc, if_true]
        unfold recreateRouteHistory
        have := recreateLoop_same distanceEarthMiles sm h fuel end_
          (find (hasher stdHash) st1.m_path end_) (find (hasher stdHash) st2.m_path end_)
          [] "" [] 0 (fun hne => h.agree end_ (by rw [← hc]; exact hcurr) hne)
        rw [this]
        cases recreateLoop stdHash distanceEarthMiles sm st2.m_path start fuel end_
          (find (hasher stdHash) st2.m_path end_) [] "" [] 0 with
        | done r => rfl
        | fault => rfl
        | timeout => rfl
      · simp only [hc, if_false]
        rw [← h.explored_eq]
        cases hsort : sortSegments distanceEarthMiles fuel
            (getSegmentsThatStartWith stdHash sm curr adjacentSegs).2 0
            (((getSegmentsThatStartWith stdHash sm curr adjacentSegs).2.length : Int) - 1)
            end_ with
        | fault => rfl
        | timeout => rfl
        | done sorted =>
          simp only
          have hsorted : ∀ s ∈ sorted, s.start ∈ st1.explored := by
            intro s hs
            have hs' := sortSegments_mem distanceEarthMiles fuel _ _ _ _ _ hsort s hs
            rw [getSegmentsThatStartWith_snd] at hs'
            cases hfind : find (hasher stdHash) sm.m_hashMap curr with
            | none => rw [hfind] at hs'; exact hadj s hs'
            | some v =>
              rw [hfind] at hs'
              rw [hstarts curr v hfind s hs']
              exact hcurr
          have hpop : SameSearch stdHash start
              { toDo := rest, explored := st1.explored, m_path := st1.m_path }
              { toDo := rest, explored := st1.explored, m_path := st2.m_path } :=
            ⟨h.wf1, h.wf2, rfl, rfl,
              fun x hx => h.todo_explored x (by rw [htodo]; exact List.mem_cons_of_mem _ hx),
              h.agree⟩
          obtain ⟨r1, r2⟩ := SameSearch.exploreAll sorted hpop hsorted
          exact ih _ _ sorted r1 (fun s hs => r2 _ (hsorted s hs))

/-- Two queries that differ only in the predecessor map they start with have the same
outcome, on an index whose segments are stored under their start. -/
theorem generate_same {stdHash : String → Nat}
    (distanceEarthMiles : GeoCoord → GeoCoord → ℚ) (fuel : Nat) {sm : StreetMapImpl}
    (hstarts : StartsOK stdHash sm) (m_path1 m_path2 : ExpandableHashMap GeoCoord GeoCoord)
    (h1 : ExpandableHashMap.WF (hasher stdHash) m_path1)
    (h2 : ExpandableHashMap.WF (hasher stdHash) m_path2) (start end_ : GeoCoord)
    (route : List StreetSegment) (totalDistanceTravelled : ℚ) :
    runMap routeOutcome (generatePointToPointRoute stdHash distanceEarthMiles fuel sm
        m_path1 start end_ route totalDistanceTravelled)
      = runMap routeOutcome (generatePointToPointRoute stdHash distanceEarthMiles fuel sm
        m_path2 start end_ route totalDistanceTravelled) := by
  unfold generatePointToPointRoute
  split
  · rfl
  · split
    · rfl
    · have hinit : SameSearch stdHash start
          { toDo := [start], explored := [start], m_path := m_path1 }
          { toDo := [start], explored := [start], m_path := m_path2 } := by
        refine ⟨h1, h2, rfl, rfl, fun x hx => hx, ?_⟩
        intro x hx hne
        simp only [List.mem_singleton] at hx
        exact absurd hx hne
      have := searchLoop_same distanceEarthMiles hstarts start end_ route fuel _ _ [] hinit
        (by simp)
      unfold findOptimalRoute
      revert this
      cases searchLoop stdHash distanceEarthMiles sm start end_ route fuel
          { toDo := [start], explored := [start], m_path := m_path1 } [] <;>
        cases searchLoop stdHash distanceEarthMiles sm start end_ route fuel
          { toDo := [start], explored := [start], m_path := m_path2 } [] <;>
        simp [runMap, searchOutcome, routeOutcome]
      intro a b c
      rw [a, b, c]
      simp

end PointToPointRouterImpl

namespace PointToPointRouterImpl

open ExpandableHashMap StreetMapImpl

/-- On a loaded map every query returns once the step budget is at least `searchBudget`. -/
theorem generate_total {stdHash : String → Nat}
    (distanceEarthMiles : GeoCoord → GeoCoord → ℚ) {sm : StreetMapImpl}
    (hsm : StreetMapImpl.Reachable stdHash sm) (recs : List SegmentRecord)
    (m_path : ExpandableHashMap GeoCoord GeoCoord)
    (hpath : ExpandableHashMap.Reachable (hasher stdHash) m_path) (start end_ : GeoCoord)
    (route : List StreetSegment) (totalDistanceTravelled : ℚ) (fuel : Nat)
    (hf : searchBudget recs ≤ fuel) :
    ∃ out, generatePointToPointRoute stdHash distanceEarthMiles fuel (load stdHash sm recs)
      m_path start end_ route totalDistanceTravelled = Run.done out := by
  by_cases hval : ¬ ((getSegmentsThatStartWith stdHash (load stdHash sm recs) start []).1
      && (getSegmentsThatStartWith stdHash (load stdHash sm recs) end_ []).1) = true
  · unfold generatePointToPointRoute
    rw [if_pos hval]
    exact ⟨_, rfl⟩
  · by_cases hne : start = end_
    · unfold generatePointToPointRoute
      rw [if_neg hval, if_pos hne]
      exact ⟨_, rfl⟩
    · have hk := (validate_false_iff stdHash (load stdHash sm recs) start end_).not.1 hval
      rw [not_or] at hk
      exact (generate_load distanceEarthMiles hsm recs m_path hpath start end_ hne hk.1 hk.2
        route totalDistanceTravelled fuel).1 hf

/-- C22: on a loaded street map, for every start and end and any two reachable states of
the predecessor map (new, or left over from earlier queries), `generatePointToPointRoute`
has the same outcome with either: for every step budget the two runs end alike with the
same result code, route and distance, and with a budget of at least `searchBudget` both
return. -/
theorem query_independent_of_stale_path (stdHash : String → Nat)
    (distanceEarthMiles : GeoCoord → GeoCoord → ℚ) (sm : StreetMapImpl)
    (hsm : StreetMapImpl.Reachable stdHash sm) (recs : List SegmentRecord)
    (m_path1 m_path2 : ExpandableHashMap GeoCoord GeoCoord)
    (h1 : ExpandableHashMap.Reachable (hasher stdHash) m_path1)
    (h2 : ExpandableHashMap.Reachable (hasher stdHash) m_path2) (start end_ : GeoCoord)
    (route : List StreetSegment) (totalDistanceTravelled : ℚ) :
    (∀ fuel, runMap routeOutcome (generatePointToPointRoute stdHash distanceEarthMiles fuel
          (load stdHash sm recs) m_path1 start end_ route totalDistanceTravelled)
        = runMap routeOutcome (generatePointToPointRoute stdHash distanceEarthMiles fuel
          (load stdHash sm recs) m_path2 start end_ route totalDistanceTravelled)) ∧
    (∀ fuel, searchBudget recs ≤ fuel → ∃ out1 out2,
      generatePointToPointRoute stdHash distanceEarthMiles fuel (load stdHash sm recs)
        m_path1 start end_ route totalDistanceTravelled = Run.done out1 ∧
      generatePointToPointRoute stdHash distanceEarthMiles fuel (load stdHash sm recs)
        m_path2 start end_ route totalDistanceTravelled = Run.done out2 ∧
      out1.result = out2.result ∧ out1.route = out2.route ∧
      out1.totalDistanceTravelled = out2.totalDistanceTravelled) := by
  have hsame := fun fuel => generate_same distanceEarthMiles fuel (load_startsOK hsm recs)
    m_path1 m_path2 h1.wf h2.wf start end_ route totalDistanceTravelled
  refine ⟨hsame, ?_⟩
  intro fuel hf
  obtain ⟨out1, e1⟩ := generate_total distanceEarthMiles hsm recs m_path1 h1 start end_ route
    totalDistanceTravelled fuel hf
  obtain ⟨out2, e2⟩ := generate_total distanceEarthMiles hsm recs m_path2 h2 start end_ route
    totalDistanceTravelled fuel hf
  have h := hsame fuel
  rw [e1, e2] at h
  simp only [runMap, routeOutcome, Run.done.injEq, Prod.mk.injEq] at h
  exact ⟨out1, out2, e1, e2, h.1, h.2.1, h.2.2⟩

/-- Witness of C22: the query from `A` to `C` on the map loaded from `sampleRecords` by a
router whose predecessor map holds the misleading entries of `stalePath` has the outcome
of the query by a new router: the route `A - B`, `B - C` of length 2. -/
theorem query_independent_of_stale_path_witness :
    find (hasher lengthHash) stalePath coordC = some coordA ∧
    runMap routeOutcome (generatePointToPointRoute lengthHash unitDistance 10
        (load lengthHash StreetMapImpl.construct sampleRecords) stalePath coordA coordC [] 0)
      = Run.done (DeliveryResult.DELIVERY_SUCCESS,
          [{ start := coordA, end_ := coordB, name := "Main" },
           { start := coordB, end_ := coordC, name := "Oak" }], 2) :=
  ⟨by with_unfolding_all decide,
    by
      rw [← (query_independent_of_stale_path lengthHash unitDistance StreetMapImpl.construct
        StreetMapImpl.Reachable.construct sampleRecords constructPath stalePath
        (ExpandableHashMap.Reachable.construct (1 / 2))
        (ExpandableHashMap.Reachable.associateAll _
          (ExpandableHashMap.Reachable.construct (1 / 2))) coordA coordC [] 0).1 10]
      with_unfolding_all decide⟩

end PointToPointRouterImpl

namespace PointToPointRouterImpl

open ExpandableHashMap StreetMapImpl

/-- Without its counter, `recreateLoopSteps` is `recreateLoop`. -/
theorem recreateLoopSteps_erase (stdHash : String → Nat)
    (distanceEarthMiles : GeoCoord → GeoCoord → ℚ) (sm : StreetMapImpl)
    (m_path : ExpandableHashMap GeoCoord GeoCoord) (start : GeoCoord) :
    ∀ (fuel : Nat) (endingG : GeoCoord) (startingG : Option GeoCoord)
      (possibleSegs : List StreetSegment) (streetName : String) (route : List StreetSegment)
      (total : ℚ) (steps : Nat),
      runMap (fun r => r.1) (recreateLoopSteps stdHash distanceEarthMiles sm m_path start fuel
          endingG startingG possibleSegs streetName route total steps)
        = recreateLoop stdHash distanceEarthMiles sm m_path start fuel endingG startingG
          possibleSegs streetName route total := by
  intro fuel
  induction fuel with
  | zero => intro _ _ _ _ _ _ _; rfl
  | succ fuel ih =>
    intro endingG startingG possibleSegs streetName route total steps
    unfold recreateLoopSteps recreateLoop
    by_cases he : endingG = start
    · simp only [he, if_true]; rfl
    · simp only [he, if_false]
      cases startingG with
      | none => rfl
      | some sG =>
        simp only
        split
        · rfl
        · exact ih _ _ _ _ _ _ _

/-- Without its ghost values, `searchLoopTrace` is `searchLoop`. -/
theorem searchLoopTrace_erase (stdHash : String → Nat)
    (distanceEarthMiles : GeoCoord → GeoCoord → ℚ) (sm : StreetMapImpl)
    (start end_ : GeoCoord) (route : List StreetSegment) :
    ∀ (fuel : Nat) (st : SearchState) (adjacentSegs : List StreetSegment) (n : Nat),
      runMap (fun t => t.result) (searchLoopTrace stdHash distanceEarthMiles sm start end_
          route fuel st adjacentSegs n)
        = searchLoop stdHash distanceEarthMiles sm start end_ route fuel st adjacentSegs := by
  intro fuel
  induction fuel with
  | zero => intro _ _ _; rfl
  | succ fuel ih =>
    intro st adjacentSegs n
    unfold searchLoopTrace searchLoop
    cases st.toDo with
    | nil => rfl
    | cons curr rest =>
      simp only
      by_cases hc : curr = end_
      · simp only [hc, if_true]
        unfold recreateRouteHistory
        rw [← recreateLoopSteps_erase stdHash distanceEarthMiles sm st.m_path start fuel end_
          (find (hasher stdHash) st.m_path end_) [] "" [] 0 0]
        cases recreateLoopSteps stdHash distanceEarthMiles sm st.m_path start fuel end_
          (find (hasher stdHash) st.m_path end_) [] "" [] 0 0 with
        | done r => rfl
        | fault => rfl
        | timeout => rfl
      · simp only [hc, if_false]
        cases sortSegments distanceEarthMiles fuel
            (getSegmentsThatStartWith stdHash sm curr adjacentSegs).2 0
            (((getSegmentsThatStartWith stdHash sm curr adjacentSegs).2.length : Int) - 1)
            end_ with
        | fault => rfl
        | timeout => rfl
        | done sorted => exact ih _ _ _

end PointToPointRouterImpl

namespace PointToPointRouterImpl

open ExpandableHashMap StreetMapImpl

/-- The `for` loop inserts no coordinate into the explored set twice. -/
theorem foldl_explore_nodup (stdHash : String → Nat) (segs : List StreetSegment) :
    ∀ st : SearchState, st.explored.Nodup →
      (segs.foldl (explore stdHash) st).explored.Nodup := by
  induction segs with
  | nil => intro st h; exact h
  | cons seg segs ih =>
    intro st h
    simp only [List.foldl_cons]
    apply ih
    by_cases hmem : seg.end_ ∈ st.explored
    · rw [explore_old stdHash st seg hmem]; exact h
    · rw [explore_new stdHash st seg hmem]
      show (st.explored ++ [seg.end_]).Nodup
      rw [List.nodup_append]
      refine ⟨h, List.nodup_singleton _, ?_⟩
      intro x hx hx'
      rw [List.mem_singleton.1 hx'] at hx
      exact hmem hx

/-- One execution of the loop body that expands `curr` keeps the invariant of the search
and lowers the measure. -/
theorem BfsInv.iteration {stdHash : String → Nat} {sm : StreetMapImpl} {U : List GeoCoord}
    {M : Nat} (hgood : GoodMap stdHash sm U M) {start end_ : GeoCoord}
    {lvl : GeoCoord → Nat} {lev : Nat} {st : SearchState}
    (hinv : BfsInv stdHash sm U start end_ none lvl lev st) (curr : GeoCoord)
    (rest : List GeoCoord) (htodo : st.toDo = curr :: rest) (hc : curr ≠ end_)
    (v : List StreetSegment)
    (hv : ExpandableHashMap.find (hasher stdHash) sm.m_hashMap curr = some v)
    (sorted : List StreetSegment) (hperm : sorted.Perm v) :
    ∃ lvl2 lev1, BfsInv stdHash sm U start end_ none lvl2 lev1
        (sorted.foldl (PointToPointRouterImpl.explore stdHash)
          { toDo := rest, explored := st.explored, m_path := st.m_path }) ∧
      searchMeasure U (sorted.foldl (PointToPointRouterImpl.explore stdHash)
          { toDo := rest, explored := st.explored, m_path := st.m_path }) + 1
        ≤ searchMeasure U st := by
  obtain ⟨lev1, hpop⟩ := hinv.pop curr rest htodo
  have hmeasure := searchMeasure_pop U st curr rest htodo
  have hsegs : ∀ s ∈ sorted, SegOK stdHash sm s ∧ s.start = curr ∧ s.end_ ∈ U ∧
      ExpandableHashMap.find (hasher stdHash) sm.m_hashMap s.end_ ≠ none := by
    intro s hs
    have hsv : s ∈ v := hperm.mem_iff.1 hs
    have hst := hgood.starts curr v hv s hsv
    exact ⟨⟨v, by rw [hst]; exact hv, hsv⟩, hst, hgood.endsIn curr v hv s hsv,
      hgood.endsKnown curr v hv s hsv⟩
  obtain ⟨lvl2, f1, f2, _, f4⟩ := hpop.foldl_explore sorted hsegs
  refine ⟨lvl2, lev1, f1.finish hc ?_, by omega⟩
  intro v' hv' s hs
  rw [hv] at hv'
  simp only [Option.some.injEq] at hv'
  subst hv'
  exact f2 s (hperm.mem_iff.2 hs)

/-- The backward walk from an explored coordinate executes its loop body at most as often
as the level of that coordinate. -/
theorem recreateLoopSteps_bound {stdHash : String → Nat}
    (distanceEarthMiles : GeoCoord → GeoCoord → ℚ) {sm : StreetMapImpl} {U : List GeoCoord}
    {start end_ : GeoCoord} {cur : Option GeoCoord} {lvl : GeoCoord → Nat} {lev : Nat}
    {st : SearchState} (h : BfsInv stdHash sm U start end_ cur lvl lev st) :
    ∀ (fuel : Nat) (endingG : GeoCoord) (possibleSegs : List StreetSegment)
      (streetName : String) (route : List StreetSegment) (total : ℚ) (steps : Nat)
      (res : (List StreetSegment × ℚ) × Nat),
      endingG ∈ st.explored →
      recreateLoopSteps stdHash distanceEarthMiles sm st.m_path start fuel endingG
        (ExpandableHashMap.find (hasher stdHash) st.m_path endingG) possibleSegs streetName
        route total steps = Run.done res →
      res.2 ≤ steps + lvl endingG := by
  intro fuel
  induction fuel with
  | zero => intro _ _ _ _ _ _ _ _ hr; simp [recreateLoopSteps] at hr
  | succ fuel ih =>
    intro endingG possibleSegs streetName route total steps res hmem hr
    unfold recreateLoopSteps at hr
    by_cases he : endingG = start
    · simp only [he, if_true, Run.done.injEq] at hr
      subst hr
      simp
    · simp only [he, if_false] at hr
      obtain ⟨s, _, _, s3, s4, s5⟩ := h.pred endingG hmem he
      rw [s3] at hr
      simp only at hr
      split at hr
      · simp only [Run.done.injEq] at hr
        subst hr
        simp only
        omega
      · have := ih s.start _ _ _ _ _ res s4 hr
        omega

end PointToPointRouterImpl

namespace PointToPointRouterImpl

open ExpandableHashMap StreetMapImpl

/-- The ghost values of a run of the search loop under the invariant: from a state with an
explored set without repetition, the loop body is executed at most as often as the measure
of that state, the backward walk takes at most as many steps as `U` has members, and the
explored set at the end is without repetition and holds known coordinates only. -/
theorem searchLoopTrace_bounds {stdHash : String → Nat}
    (distanceEarthMiles : GeoCoord → GeoCoord → ℚ) {sm : StreetMapImpl} {U : List GeoCoord}
    {M : Nat} (hgood : GoodMap stdHash sm U M) (start end_ : GeoCoord)
    (route : List StreetSegment) :
    ∀ (fuel : Nat) (st : SearchState) (adjacentSegs : List StreetSegment)
      (lvl : GeoCoord → Nat) (lev : Nat) (n : Nat) (t : SearchTrace),
      BfsInv stdHash sm U start end_ none lvl lev st → st.explored.Nodup →
      searchLoopTrace stdHash distanceEarthMiles sm start end_ route fuel st adjacentSegs n
        = Run.done t →
      t.iterations ≤ n + searchMeasure U st ∧ t.walkSteps ≤ U.length ∧ t.explored.Nodup ∧
      ∀ x ∈ t.explored, ExpandableHashMap.find (hasher stdHash) sm.m_hashMap x ≠ none := by
  intro fuel
  induction fuel with
  | zero => intro _ _ _ _ _ _ _ _ h; simp [searchLoopTrace] at h
  | succ fuel ih =>
    intro st adjacentSegs lvl lev n t hinv hnodup h
    unfold searchLoopTrace at h
    cases htodo : st.toDo with
    | nil =>
      rw [htodo] at h
      simp only [Run.done.injEq] at h
      subst h
      exact ⟨Nat.le_add_right _ _, Nat.zero_le _, hnodup, hinv.known⟩
    | cons curr rest =>
      rw [htodo] at h
      simp only at h
      obtain ⟨lev1, hpop⟩ := hinv.pop curr rest htodo
      have hcur := hpop.cur_ok curr rfl
      have hmeasure := searchMeasure_pop U st curr rest htodo
      by_cases hc : curr = end_
      · simp only [hc, if_true] at h
        subst hc
        split at h
        · rename_i route1 total1 steps hrec
          simp only [Run.done.injEq] at h
          subst h
          have hb := recreateLoopSteps_bound distanceEarthMiles hpop fuel curr [] "" [] 0 0 _
            hcur.1 hrec
          have h1 := hpop.lvl_lt curr hcur.1
          have h2 := hpop.size
          have e1 : ({ toDo := rest, explored := st.explored, m_path := st.m_path } :
            SearchState).explored = st.explored := rfl
          rw [e1] at h1 h2
          simp only at hb
          refine ⟨?_, ?_, hnodup, hinv.known⟩
          · show n + 1 ≤ n + searchMeasure U st
            omega
          · show steps ≤ U.length
            omega
        · simp at h
        · simp at h
      · simp only [hc, if_false] at h
        have hknown := hinv.known curr hcur.1
        obtain ⟨v, hv⟩ := Option.ne_none_iff_exists'.1 hknown
        have hadj : (getSegmentsThatStartWith stdHash sm curr adjacentSegs).2 = v := by
          rw [getSegmentsThatStartWith_snd, hv]
        rw [hadj] at h
        cases hsort : sortSegments distanceEarthMiles fuel v 0 ((v.length : Int) - 1) end_ with
        | fault => rw [hsort] at h; simp at h
        | timeout => rw [hsort] at h; simp at h
        | done sorted =>
          rw [hsort] at h
          simp only at h
          have hperm := sortSegments_perm distanceEarthMiles fuel v 0 _ end_ sorted hsort
          obtain ⟨lvl2, lev2, g1, g2⟩ := hinv.iteration hgood curr rest htodo hc v hv sorted
            hperm
          obtain ⟨i1, i2, i3, i4⟩ := ih _ sorted lvl2 lev2 (n + 1) t g1
            (foldl_explore_nodup stdHash sorted _ hnodup) h
          exact ⟨by omega, i2, i3, i4⟩

/-- A coordinate known to the index of a loaded map is the start or the end of a record. -/
theorem known_mem_coordsOf {stdHash : String → Nat} {sm : StreetMapImpl}
    (hsm : StreetMapImpl.Reachable stdHash sm) (recs : List SegmentRecord) (c : GeoCoord)
    (hc : ExpandableHashMap.find (hasher stdHash) (load stdHash sm recs).m_hashMap c ≠ none) :
    c ∈ coordsOf recs := by
  rw [(load_indexes hsm recs).2 c] at hc
  by_cases hE : segmentsAt c recs = []
  · simp [hE] at hc
  · rw [segmentsAt_eq_nil_iff] at hE
    push_neg at hE
    obtain ⟨r, hr, h⟩ := hE
    by_cases h1 : r.start = c
    · rw [← h1]; exact (mem_coordsOf recs r hr).1
    · rw [← h h1]; exact (mem_coordsOf recs r hr).2

/-- A loaded map is a good index over the list of its distinct coordinates. -/
theorem load_goodMap_dedup {stdHash : String → Nat} {sm : StreetMapImpl}
    (hsm : StreetMapImpl.Reachable stdHash sm) (recs : List SegmentRecord) :
    GoodMap stdHash (load stdHash sm recs) (coordsOf recs).dedup (2 * recs.length) := by
  have h := load_goodMap hsm recs
  exact ⟨h.starts, h.endsKnown, fun c v hv s hs => List.mem_dedup.2 (h.endsIn c v hv s hs),
    h.bounded⟩

end PointToPointRouterImpl

namespace PointToPointRouterImpl

open ExpandableHashMap StreetMapImpl

/-- C23: on a loaded street map, with a step budget of at least `searchBudget`, every query
returns; and for a start known to the index (the precondition of `findOptimalRoute`) and
every end, the search returns, its explored set, to which a coordinate is added exactly
when it is pushed onto the queue, holds no coordinate twice and only coordinates of the
index, the body of the main loop is executed at most as often as the index has distinct
coordinates, and so is the body of the loop of the backward walk. -/
theorem search_terminates_within_bounds (stdHash : String → Nat)
    (distanceEarthMiles : GeoCoord → GeoCoord → ℚ) (sm : StreetMapImpl)
    (hsm : StreetMapImpl.Reachable stdHash sm) (recs : List SegmentRecord)
    (m_path : ExpandableHashMap GeoCoord GeoCoord)
    (hpath : ExpandableHashMap.Reachable (hasher stdHash) m_path) (start end_ : GeoCoord)
    (route : List StreetSegment) (totalDistanceTravelled : ℚ) (fuel : Nat)
    (hf : searchBudget recs ≤ fuel) :
    (∃ out, generatePointToPointRoute stdHash distanceEarthMiles fuel (load stdHash sm recs)
      m_path start end_ route totalDistanceTravelled = Run.done out) ∧
    (ExpandableHashMap.find (hasher stdHash) (load stdHash sm recs).m_hashMap start ≠ none →
      ∃ t, findOptimalRouteTrace stdHash distanceEarthMiles fuel (load stdHash sm recs) m_path
          start end_ route = Run.done t ∧
        findOptimalRoute stdHash distanceEarthMiles fuel (load stdHash sm recs) m_path
          start end_ route = Run.done t.result ∧
        t.explored.Nodup ∧
        (∀ x ∈ t.explored, x ∈ coordsOf recs) ∧
        t.iterations ≤ (coordsOf recs).dedup.length ∧
        t.walkSteps ≤ (coordsOf recs).dedup.length) := by
  refine ⟨generate_total distanceEarthMiles hsm recs m_path hpath start end_ route
    totalDistanceTravelled fuel hf, ?_⟩
  intro hs
  have hgood := load_goodMap_dedup hsm recs
  have hU : (coordsOf recs).dedup.length ≤ 2 * recs.length := by
    rw [← coordsOf_length recs]
    exact (List.dedup_sublist _).length_le
  have hstart : start ∈ (coordsOf recs).dedup :=
    List.mem_dedup.2 (known_mem_coordsOf hsm recs start hs)
  have hm : searchMeasure (coordsOf recs).dedup
      { toDo := [start], explored := [start], m_path := m_path }
      ≤ (coordsOf recs).dedup.length := by
    unfold searchMeasure
    have := (List.length_filter_lt_length_iff_exists
      (p := fun x => decide (x ∉ [start])) (l := (coordsOf recs).dedup)).2
      ⟨start, hstart, by simp⟩
    simp only [List.length_singleton]
    omega
  have hinit := BfsInv.initial stdHash (load stdHash sm recs) (coordsOf recs).dedup start end_
    m_path hpath.wf hs
  obtain ⟨res, hres⟩ := (searchLoop_bfs distanceEarthMiles hgood (4 * recs.length + 3)
    (by omega) (by omega) start end_ route fuel _ [] _ _ hinit).1
    (by unfold searchBudget at hf; omega)
  have herase := searchLoopTrace_erase stdHash distanceEarthMiles (load stdHash sm recs) start
    end_ route fuel { toDo := [start], explored := [start], m_path := m_path } [] 0
  rw [hres] at herase
  unfold findOptimalRouteTrace findOptimalRoute
  cases htr : searchLoopTrace stdHash distanceEarthMiles (load stdHash sm recs) start end_
      route fuel { toDo := [start], explored := [start], m_path := m_path } [] 0 with
  | fault => rw [htr] at herase; simp [runMap] at herase
  | timeout => rw [htr] at herase; simp [runMap] at herase
  | done t =>
    rw [htr] at herase
    simp only [runMap, Run.done.injEq] at herase
    obtain ⟨b1, b2, b3, b4⟩ := searchLoopTrace_bounds distanceEarthMiles hgood start end_
      route fuel _ [] _ _ 0 t hinit (List.nodup_singleton start) htr
    refine ⟨t, rfl, by rw [hres, herase], b3,
      fun x hx => known_mem_coordsOf hsm recs x (b4 x hx), by omega, b2⟩

/-- Witness of C23: the search from `A` to `C` on the map loaded from `sampleRecords`, whose
index has the 3 distinct coordinates `A`, `B`, `C`: 3 executions of the main loop body, 2
steps of the backward walk, explored set `A, B, C`. -/
theorem search_terminates_within_bounds_witness :
    searchBudget sampleRecords ≤ 17 ∧
    (coordsOf sampleRecords).dedup.length = 3 ∧
    runMap (fun t => (t.iterations, t.walkSteps, t.explored))
        (findOptimalRouteTrace lengthHash unitDistance 17
          (load lengthHash StreetMapImpl.construct sampleRecords) constructPath coordA coordC [])
      = Run.done (3, 2, [coordA, coordB, coordC]) ∧
    runMap (fun t => decide (t.iterations ≤ 3))
        (findOptimalRouteTrace lengthHash unitDistance 17
          (load lengthHash StreetMapImpl.construct sampleRecords) constructPath coordA coordC [])
      = Run.done true :=
  ⟨by decide, by decide, by with_unfolding_all decide,
    by
      obtain ⟨t, h1, _, _, _, h5, _⟩ := (search_terminates_within_bounds lengthHash
        unitDistance StreetMapImpl.construct StreetMapImpl.Reachable.construct sampleRecords
        constructPath (ExpandableHashMap.Reachable.construct (1 / 2)) coordA coordC [] 0 17
        (by decide)).2 (by with_unfolding_all decide)
      have e : (coordsOf sampleRecords).dedup.length = 3 := by decide
      rw [e] at h5
      rw [h1]
      simp [runMap, h5]⟩

end PointToPointRouterImpl

namespace ExpandableHashMap

variable {K V : Type} [DecidableEq K]

theorem castToInt_some {q : ℚ} {t : Int} (h : castToInt q = some t) :
    t = truncToInt q ∧ INT_MIN ≤ t ∧ t ≤ INT_MAX := by
  unfold castToInt at h
  split at h
  · rename_i hr
    simp only [Option.some.injEq] at h
    subst h
    exact ⟨rfl, hr.1, hr.2⟩
  · simp at h

theorem castToInt_of_range {q : ℚ} (h1 : INT_MIN ≤ truncToInt q) (h2 : truncToInt q ≤ INT_MAX) :
    castToInt q = some (truncToInt q) := by
  unfold castToInt
  rw [if_pos ⟨h1, h2⟩]

/-- When the checked constructor is defined, it gives the state of `construct`. -/
theorem constructChecked_eq {lf : ℚ} {m : ExpandableHashMap K V}
    (h : constructChecked lf = some m) :
    m = construct lf ∧ INT_MIN ≤ m.m_maxNumItems ∧ m.m_maxNumItems ≤ INT_MAX := by
  unfold constructChecked at h
  simp only at h
  split at h
  · simp at h
  · rename_i t ht
    simp only [Option.some.injEq] at h
    subst h
    obtain ⟨e, r1, r2⟩ := castToInt_some ht
    refine ⟨?_, r1, r2⟩
    unfold construct
    simp only [e]

/-- When the checked `reset` is defined, it gives the state of `reset`. -/
theorem resetChecked_eq {m m1 : ExpandableHashMap K V} (h : resetChecked m = some m1) :
    m1 = reset m ∧ INT_MIN ≤ m1.m_maxNumItems ∧ m1.m_maxNumItems ≤ INT_MAX := by
  unfold resetChecked at h
  split at h
  · simp at h
  · rename_i t ht
    simp only [Option.some.injEq] at h
    subst h
    obtain ⟨e, r1, r2⟩ := castToInt_some ht
    refine ⟨?_, r1, r2⟩
    unfold reset
    simp only [e]

/-- When the checked expansion is defined, it gives the state of `expandHashMap`, and the
doubled bucket count and the new maximum item count are values of `int`. -/
theorem expandHashMapChecked_eq {hasher : K → Nat} {m m1 : ExpandableHashMap K V}
    (h : expandHashMapChecked hasher m = some m1) :
    m1 = expandHashMap hasher m ∧ (m.m_numBuckets : Int) * 2 ≤ INT_MAX ∧
    INT_MIN ≤ m1.m_maxNumItems ∧ m1.m_maxNumItems ≤ INT_MAX := by
  unfold expandHashMapChecked at h
  split at h
  · simp at h
  · rename_i hnb
    simp only at h
    split at h
    · simp at h
    · rename_i t ht
      simp only [Option.some.injEq] at h
      subst h
      obtain ⟨e, r1, r2⟩ := castToInt_some ht
      refine ⟨?_, not_lt.1 hnb, r1, r2⟩
      unfold expandHashMap
      simp only [e]

/-- When the checked `associate` is defined, it gives the state of `associate`. -/
theorem associateChecked_eq {hasher : K → Nat} {m m1 : ExpandableHashMap K V} {k : K}
    {v : V} (h : associateChecked hasher m k v = some m1) :
    m1 = associate hasher m k v := by
  unfold associateChecked associateHelperChecked at h
  unfold associate associateHelper
  cases hk : find hasher m k with
  | some v0 =>
    rw [hk] at h
    simp only [Option.some.injEq] at h
    exact h.symm
  | none =>
    rw [hk] at h
    simp only at h ⊢
    split at h
    · simp at h
    · by_cases hc : (m.m_numItems : Int) + 1 > m.m_maxNumItems
      · simp only [hc, if_true] at h ⊢
        cases he : expandHashMapChecked hasher m with
        | none => rw [he] at h; simp at h
        | some m2 =>
          rw [he] at h
          simp only at h
          split at h
          · simp at h
          · simp only [Option.some.injEq] at h
            rw [← (expandHashMapChecked_eq he).1]
            exact h.symm
      · simp only [hc, if_false] at h ⊢
        split at h
        · simp at h
        · simp only [Option.some.injEq] at h
          exact h.symm

theorem associateAllChecked_none (hasher : K → Nat) (ops : List (K × V)) :
    associateAllChecked hasher none ops = none := by
  unfold associateAllChecked
  induction ops with
  | nil => rfl
  | cons op ops ih => simpa using ih

theorem associateAllChecked_cons (hasher : K → Nat) (m : ExpandableHashMap K V)
    (op : K × V) (ops : List (K × V)) :
    associateAllChecked hasher (some m) (op :: ops)
      = associateAllChecked hasher (associateChecked hasher m op.1 op.2) ops := rfl

theorem associateAllChecked_append (hasher : K → Nat) (start : Option (ExpandableHashMap K V))
    (ops1 ops2 : List (K × V)) :
    associateAllChecked hasher start (ops1 ++ ops2)
      = associateAllChecked hasher (associateAllChecked hasher start ops1) ops2 := by
  unfold associateAllChecked
  rw [List.foldl_append]

/-- When a checked sequence of calls is defined, it gives the state of `associateAll`. -/
theorem associateAllChecked_eq {hasher : K → Nat} (ops : List (K × V)) :
    ∀ {m m1 : ExpandableHashMap K V}, associateAllChecked hasher (some m) ops = some m1 →
      m1 = associateAll hasher m ops := by
  induction ops with
  | nil =>
    intro m m1 h
    simp only [associateAllChecked, List.foldl_nil, Option.some.injEq] at h
    exact h.symm
  | cons op ops ih =>
    intro m m1 h
    rw [associateAllChecked_cons] at h
    cases hc : associateChecked hasher m op.1 op.2 with
    | none => rw [hc, associateAllChecked_none] at h; simp at h
    | some m2 =>
      rw [hc] at h
      rw [ih h, associateChecked_eq hc]
      rfl

end ExpandableHashMap

namespace ExpandableHashMap

variable {K V : Type} [DecidableEq K]

/-- A constructor call that is defined establishes the invariant, with `int` members in
range. -/
theorem constructChecked_inv (hasher : K → Nat) {lf : ℚ} {m : ExpandableHashMap K V}
    (h : constructChecked lf = some m) : WF hasher m ∧ IntFields m := by
  obtain ⟨e, r1, r2⟩ := constructChecked_eq h
  refine ⟨by rw [e]; exact WF.construct hasher lf, ?_, ?_, r1, r2⟩
  · rw [e]
    show ((DEFAULT_NUM_BUCKETS : ℕ) : Int) ≤ INT_MAX
    decide
  · rw [e]
    show ((0 : ℕ) : Int) ≤ INT_MAX
    decide

/-- A `reset` call that is defined keeps the invariant, with `int` members in range. -/
theorem resetChecked_inv {hasher : K → Nat} {m m1 : ExpandableHashMap K V}
    (hw : WF hasher m) (h : resetChecked m = some m1) : WF hasher m1 ∧ IntFields m1 := by
  obtain ⟨e, r1, r2⟩ := resetChecked_eq h
  refine ⟨by rw [e]; exact hw.reset, ?_, ?_, r1, r2⟩
  · rw [e]
    show ((DEFAULT_NUM_BUCKETS : ℕ) : Int) ≤ INT_MAX
    decide
  · rw [e]
    show ((0 : ℕ) : Int) ≤ INT_MAX
    decide

/-- An expansion that is defined keeps the invariant, with `int` members in range. -/
theorem expandHashMapChecked_inv {hasher : K → Nat} {m m1 : ExpandableHashMap K V}
    (hw : WF hasher m) (hi : IntFields m) (h : expandHashMapChecked hasher m = some m1) :
    WF hasher m1 ∧ IntFields m1 := by
  obtain ⟨e, r0, r1, r2⟩ := expandHashMapChecked_eq h
  obtain ⟨w1, w2, _⟩ := hw.expandHashMap
  refine ⟨by rw [e]; exact w1, ?_, ?_, r1, r2⟩
  · rw [e]
    show ((m.m_numBuckets * 2 : ℕ) : Int) ≤ INT_MAX
    push_cast
    exact r0
  · rw [e, w2]
    exact hi.numItems

/-- An `associate` call that is defined keeps the invariant, with `int` members in
range. -/
theorem associateChecked_inv {hasher : K → Nat} {m m1 : ExpandableHashMap K V}
    (hw : WF hasher m) (hi : IntFields m) {k : K} {v : V}
    (h : associateChecked hasher m k v = some m1) : WF hasher m1 ∧ IntFields m1 := by
  have e := associateChecked_eq h
  refine ⟨by rw [e]; exact (hw.associate k v).1, ?_⟩
  unfold associateChecked associateHelperChecked at h
  cases hk : find hasher m k with
  | some v0 =>
    rw [hk] at h
    simp only [Option.some.injEq] at h
    subst h
    exact ⟨hi.numBuckets, hi.numItems, hi.maxNumItems_min, hi.maxNumItems_max⟩
  | none =>
    rw [hk] at h
    simp only at h
    split at h
    · simp at h
    · cases hm1 : (if (m.m_numItems : Int) + 1 > m.m_maxNumItems
          then expandHashMapChecked hasher m else some m) with
      | none => rw [hm1] at h; simp at h
      | some m2 =>
        rw [hm1] at h
        simp only at h
        split at h
        · simp at h
        · rename_i hlast
          simp only [Option.some.injEq] at h
          subst h
          have hi2 : IntFields m2 := by
            by_cases hc : (m.m_numItems : Int) + 1 > m.m_maxNumItems
            · simp only [hc, if_true] at hm1
              exact (expandHashMapChecked_inv hw hi hm1).2
            · simp only [hc, if_false, Option.some.injEq] at hm1
              rw [← hm1]; exact hi
          refine ⟨hi2.numBuckets, ?_, hi2.maxNumItems_min, hi2.maxNumItems_max⟩
          show ((m2.m_numItems + 1 : ℕ) : Int) ≤ INT_MAX
          push_cast
          omega

/-- A state reached through defined calls is a reachable state of the map in unbounded
arithmetic, has the invariant and `int` members in range, and its load factor is one for
which the cast of the constructor is defined. -/
theorem Defined.inv {hasher : K → Nat} {m : ExpandableHashMap K V}
    (h : Defined hasher m) :
    Reachable hasher m ∧ WF hasher m ∧ IntFields m ∧
    castToInt (m.m_maxLoadFactor * (DEFAULT_NUM_BUCKETS : ℚ)) ≠ none := by
  induction h with
  | construct lf hc =>
    rename_i m
    obtain ⟨w, i⟩ := constructChecked_inv hasher hc
    obtain ⟨e, _, _⟩ := constructChecked_eq hc
    refine ⟨by rw [e]; exact Reachable.construct lf, w, i, ?_⟩
    unfold constructChecked at hc
    simp only at hc
    rw [e]
    show castToInt ((if lf < 0 then 1 / 2 else lf) * (DEFAULT_NUM_BUCKETS : ℚ)) ≠ none
    intro hn
    rw [hn] at hc
    simp at hc
  | reset _ hr ih =>
    obtain ⟨r, w, i, c⟩ := ih
    obtain ⟨w1, i1⟩ := resetChecked_inv w hr
    obtain ⟨e, _, _⟩ := resetChecked_eq hr
    exact ⟨by rw [e]; exact Reachable.reset r, w1, i1, by rw [e]; exact c⟩
  | associate k v _ ha ih =>
    obtain ⟨r, w, i, c⟩ := ih
    obtain ⟨w1, i1⟩ := associateChecked_inv w i ha
    have e := associateChecked_eq ha
    exact ⟨by rw [e]; exact Reachable.associate k v r, w1, i1,
      by rw [e, associate_maxLoadFactor w]; exact c⟩
  | modifyValue k f _ ih =>
    obtain ⟨r, w, i, c⟩ := ih
    exact ⟨Reachable.modifyValue k f r, w.modifyValue k f,
      ⟨i.numBuckets, i.numItems, i.maxNumItems_min, i.maxNumItems_max⟩, c⟩

/-- A defined sequence of calls from a state reached through defined calls ends in such a
state. -/
theorem Defined.afterCalls {hasher : K → Nat} (ops : List (K × V)) :
    ∀ {m m1 : ExpandableHashMap K V}, Defined hasher m →
      associateAllChecked hasher (some m) ops = some m1 → Defined hasher m1 := by
  induction ops with
  | nil =>
    intro m m1 hd h
    simp only [associateAllChecked, List.foldl_nil, Option.some.injEq] at h
    rw [← h]; exact hd
  | cons op ops ih =>
    intro m m1 hd h
    rw [associateAllChecked_cons] at h
    cases hc : associateChecked hasher m op.1 op.2 with
    | none => rw [hc, associateAllChecked_none] at h; simp at h
    | some m2 =>
      rw [hc] at h
      exact ih (Defined.associate op.1 op.2 hd hc) h

end ExpandableHashMap

namespace ExpandableHashMap

variable {K V : Type} [DecidableEq K]

/-- The expansion is defined when the doubled bucket count is a value of `int` and the cast
of the new maximum item count is defined. -/
theorem expandHashMapChecked_of_range {hasher : K → Nat} {m : ExpandableHashMap K V}
    (h2 : (m.m_numBuckets : Int) * 2 ≤ INT_MAX)
    (h3 : castToInt (m.m_maxLoadFactor * ((m.m_numBuckets * 2 : ℕ) : ℚ)) ≠ none) :
    expandHashMapChecked hasher m = some (expandHashMap hasher m) := by
  cases he : expandHashMapChecked hasher m with
  | some m1 => rw [(expandHashMapChecked_eq he).1]
  | none =>
    exfalso
    unfold expandHashMapChecked at he
    rw [if_neg (not_lt.2 h2)] at he
    simp only at he
    split at he
    · rename_i hn
      exact h3 hn
    · simp at he

/-- `associate` is defined when the incremented item count and the doubled bucket count
are values of `int` and the cast of the maximum item count after an expansion is
defined. -/
theorem associateChecked_of_range {hasher : K → Nat} {m : ExpandableHashMap K V}
    (hw : WF hasher m) (k : K) (v : V) (h1 : (m.m_numItems : Int) + 1 ≤ INT_MAX)
    (h2 : (m.m_numBuckets : Int) * 2 ≤ INT_MAX)
    (h3 : castToInt (m.m_maxLoadFactor * ((m.m_numBuckets * 2 : ℕ) : ℚ)) ≠ none) :
    associateChecked hasher m k v = some (associate hasher m k v) := by
  cases ha : associateChecked hasher m k v with
  | some m1 => rw [associateChecked_eq ha]
  | none =>
    exfalso
    unfold associateChecked associateHelperChecked at ha
    cases hk : find hasher m k with
    | some v0 => rw [hk] at ha; simp at ha
    | none =>
      rw [hk] at ha
      simp only at ha
      rw [if_neg (not_lt.2 h1)] at ha
      by_cases hc : (m.m_numItems : Int) + 1 > m.m_maxNumItems
      · simp only [hc, if_true] at ha
        rw [expandHashMapChecked_of_range h2 h3] at ha
        simp only at ha
        rw [hw.expandHashMap.2.1, if_neg (not_lt.2 h1)] at ha
        simp at ha
      · simp only [hc, if_false] at ha
        rw [if_neg (not_lt.2 h1)] at ha
        simp at ha

theorem distinctKeys_succ (n : Nat) : distinctKeys (n + 1) = distinctKeys n ++ [(n, n)] := by
  unfold distinctKeys
  rw [List.range_succ, List.map_append]
  rfl

theorem associateAll_append (hasher : K → Nat) (m : ExpandableHashMap K V)
    (ops1 ops2 : List (K × V)) :
    associateAll hasher m (ops1 ++ ops2)
      = associateAll hasher (associateAll hasher m ops1) ops2 := by
  unfold associateAll
  rw [List.foldl_append]

/-- With load factor 0 every new key expands the map: after `n` distinct keys the map in
unbounded arithmetic has `8 * 2^n` buckets. -/
theorem zeroLoad_state (n : Nat) :
    WF (fun k => k) (associateAll (fun k => k) (construct 0) (distinctKeys n)) ∧
    (associateAll (fun k => k) (construct 0) (distinctKeys n)).m_maxLoadFactor = 0 ∧
    (associateAll (fun k => k) (construct 0) (distinctKeys n)).m_numBuckets = 8 * 2 ^ n ∧
    (associateAll (fun k => k) (construct 0) (distinctKeys n)).m_numItems = n ∧
    ∀ k, n ≤ k →
      find (fun k => k) (associateAll (fun k => k) (construct 0) (distinctKeys n)) k = none := by
  induction n with
  | zero =>
    refine ⟨WF.construct _ 0, ?_, rfl, rfl, fun k _ => find_construct _ 0 k⟩
    show (if (0 : ℚ) < 0 then 1 / 2 else 0) = 0
    simp
  | succ n ih =>
    obtain ⟨w, l, b, i, f⟩ := ih
    rw [distinctKeys_succ, associateAll_append]
    have hk : find (fun k => k) (associateAll (fun k => k) (construct 0) (distinctKeys n)) n
        = none := f n (le_refl n)
    obtain ⟨c1, c2, c3⟩ := associate_absent_counts w n n hk
    obtain ⟨w1, f1⟩ := w.associate n n
    have hmax : (associateAll (fun k => k) (construct 0) (distinctKeys n)).m_maxNumItems = 0 := by
      rw [w.maxItems_floor, l]
      simp
    have e : associateAll (fun k => k) (associateAll (fun k => k) (construct 0) (distinctKeys n))
        [(n, n)] = associate (fun k => k)
          (associateAll (fun k => k) (construct 0) (distinctKeys n)) n n := rfl
    rw [e]
    refine ⟨w1, by rw [c2, l], ?_, by rw [c1, i], ?_⟩
    · rw [c3, hmax, b]
      have : ((n : ℕ) : Int) + 1 > 0 := by omega
      rw [i]
      simp only [this, if_true]
      rw [pow_succ]
      ring
    · intro k hk'
      rw [f1 k]
      have : ¬ k = n := by omega
      simp only [this, if_false]
      exact f k (by omega)

end ExpandableHashMap

namespace ExpandableHashMap

variable {K V : Type} [DecidableEq K]

theorem constructChecked_zero :
    (constructChecked 0 : Option (ExpandableHashMap Nat Nat)) = some (construct 0) := by
  with_unfolding_all decide

theorem castToInt_zero : castToInt 0 = some 0 := by
  with_unfolding_all decide

/-- With load factor 0 the first 27 distinct keys are associated without overflow. -/
theorem zeroLoad_checked (n : Nat) (hn : n ≤ 27) :
    associateAllChecked (fun k => k) (constructChecked 0) (distinctKeys n)
      = some (associateAll (fun k => k) (construct 0) (distinctKeys n)) := by
  induction n with
  | zero => rw [constructChecked_zero]; rfl
  | succ n ih =>
    obtain ⟨w, l, b, i, f⟩ := zeroLoad_state n
    rw [distinctKeys_succ, associateAllChecked_append, ih (by omega), associateAll_append]
    show associateChecked (fun k => k)
        (associateAll (fun k => k) (construct 0) (distinctKeys n)) n n
      = some (associate (fun k => k)
        (associateAll (fun k => k) (construct 0) (distinctKeys n)) n n)
    have hpow : 2 ^ n ≤ 2 ^ 26 := Nat.pow_le_pow_right (by norm_num) (by omega)
    have h26 : (2 : ℕ) ^ 26 = 67108864 := by norm_num
    rw [h26] at hpow
    generalize hx : 2 ^ n = x at hpow b
    apply associateChecked_of_range w
    · rw [i]
      show ((n : ℕ) : Int) + 1 ≤ 2147483647
      omega
    · rw [b]
      show ((8 * x : ℕ) : Int) * 2 ≤ 2147483647
      omega
    · rw [l, zero_mul, castToInt_zero]
      simp

end ExpandableHashMap

namespace ExpandableHashMap

variable {K V : Type} [DecidableEq K]

/-- The expansion is undefined when doubling the bucket count overflows `int`. -/
theorem expandHashMapChecked_overflow {hasher : K → Nat} {m : ExpandableHashMap K V}
    (h : (m.m_numBuckets : Int) * 2 > INT_MAX) : expandHashMapChecked hasher m = none := by
  unfold expandHashMapChecked
  rw [if_pos h]

/-- `associate` of an absent key is undefined when the map has to expand and doubling the
bucket count overflows `int`. -/
theorem associateChecked_overflow {hasher : K → Nat} {m : ExpandableHashMap K V} {k : K}
    (v : V) (hk : find hasher m k = none)
    (hc : (m.m_numItems : Int) + 1 > m.m_maxNumItems)
    (h : (m.m_numBuckets : Int) * 2 > INT_MAX) : associateChecked hasher m k v = none := by
  unfold associateChecked associateHelperChecked
  rw [hk]
  simp only
  split
  · rfl
  · rw [expandHashMapChecked_overflow h]

/-- With load factor 0 the 28th distinct key finds 2^30 buckets, and doubling them
overflows `int`. -/
theorem zeroLoad_overflow :
    associateChecked (fun k => k)
      (associateAll (fun k => k) (construct 0) (distinctKeys 27)) 27 27 = none := by
  obtain ⟨w, l, b, i, f⟩ := zeroLoad_state 27
  have hmax : (associateAll (fun k => k) (construct 0) (distinctKeys 27)).m_maxNumItems = 0 := by
    rw [w.maxItems_floor, l]
    simp
  apply associateChecked_overflow 27 (f 27 (le_refl 27))
  · rw [hmax, i]
    decide
  · rw [b]
    norm_num [INT_MAX]

end ExpandableHashMap

namespace ExpandableHashMap

variable {K V : Type} [DecidableEq K]

theorem associateAllChecked_singleton (hasher : K → Nat) (m : ExpandableHashMap K V)
    (k : K) (v : V) :
    associateAllChecked hasher (some m) [(k, v)] = associateChecked hasher m k v := rfl

/-- Counterexample to C1 as stated: with load factor 0 every new key expands the map, so
after 27 distinct keys the map has 2^30 buckets, and the 28th call
`associate(27, 27)` evaluates `m_numBuckets * 2` beyond `INT_MAX`: the sequence of 28
calls has no defined result, although the claim gives `find(0)` the value `0` after it. -/
theorem associate_sequence_overflows :
    associateAllChecked (fun k => k) (constructChecked 0) (distinctKeys 27)
      = some (associateAll (fun k => k) (construct 0) (distinctKeys 27)) ∧
    (associateAll (fun k => k) (construct 0) (distinctKeys 27)).m_numBuckets = 2 ^ 30 ∧
    associateAllChecked (fun k => k) (constructChecked 0) (distinctKeys 28) = none ∧
    lastAssociated (distinctKeys 28) 0 = some 0 := by
  refine ⟨zeroLoad_checked 27 (le_refl 27), ?_, ?_, by decide⟩
  · rw [(zeroLoad_state 27).2.2.1]
    norm_num
  · rw [distinctKeys_succ, associateAllChecked_append, zeroLoad_checked 27 (le_refl 27),
      associateAllChecked_singleton]
    exact zeroLoad_overflow

/-- C1, as amended: after a sequence of `associate` calls on a newly constructed map in
which every `int` computation is defined (any load factor, any number of expansions),
the map is the one computed in unbounded arithmetic, `find k` is the value of the last
call whose key is `k`, and it is not-found exactly for the keys that were never
associated. -/
theorem find_after_defined_associates (hasher : K → Nat) (maximumLoadFactor : ℚ)
    (ops : List (K × V)) (m : ExpandableHashMap K V)
    (h : associateAllChecked hasher (constructChecked maximumLoadFactor) ops = some m)
    (k : K) :
    Defined hasher m ∧
    find hasher m k = lastAssociated ops k ∧
    (find hasher m k = none ↔ ∀ op ∈ ops, op.1 ≠ k) := by
  cases hc : (constructChecked maximumLoadFactor : Option (ExpandableHashMap K V)) with
  | none => rw [hc, associateAllChecked_none] at h; simp at h
  | some m0 =>
    rw [hc] at h
    have e := associateAllChecked_eq ops h
    rw [(constructChecked_eq hc).1] at e
    have hf := find_associateAll ops k (WF.construct hasher maximumLoadFactor (V := V))
    rw [find_construct] at hf
    rw [e]
    refine ⟨?_, hf, ?_⟩
    · rw [← e]
      exact Defined.afterCalls ops (Defined.construct maximumLoadFactor hc) h
    · rw [hf, foldl_last_eq_none_iff]
      simp

/-- Witness of C1 as amended: six calls at the default load factor `0.5`, the fifth of
which expands the map from 8 to 16 buckets; every call is defined, and `find(1)` is the
value `11` of the last call with key `1`. -/
theorem find_after_defined_associates_witness :
    associateAllChecked (fun k => k) (constructChecked (1 / 2))
        [(1, 10), (9, 90), (3, 30), (4, 40), (5, 50), (1, 11)]
      = some (associateAll (fun k => k) (construct (1 / 2))
        [(1, 10), (9, 90), (3, 30), (4, 40), (5, 50), (1, 11)]) ∧
    (associateAll (fun k => k) (construct (1 / 2))
        [(1, 10), (9, 90), (3, 30), (4, 40), (5, 50), (1, 11)]).m_numBuckets = 16 ∧
    find (fun k => k) (associateAll (fun k => k) (construct (1 / 2))
        [(1, 10), (9, 90), (3, 30), (4, 40), (5, 50), (1, 11)]) 1
      = lastAssociated [(1, 10), (9, 90), (3, 30), (4, 40), (5, 50), (1, 11)] 1 ∧
    lastAssociated [(1, 10), (9, 90), (3, 30), (4, 40), (5, 50), (1, 11)] 1 = some 11 :=
  ⟨by with_unfolding_all decide, by with_unfolding_all decide,
    (find_after_defined_associates (fun k => k) (1 / 2)
      [(1, 10), (9, 90), (3, 30), (4, 40), (5, 50), (1, 11)] _
      (by with_unfolding_all decide) 1).2.1,
    by decide⟩

end ExpandableHashMap

namespace ExpandableHashMap

variable {K V : Type} [DecidableEq K]

/-- The cast `(int) q` of a non-negative `q` below 2^31 is defined and is the floor. -/
theorem castToInt_of_lt {q : ℚ} (h0 : 0 ≤ q) (h1 : q < 2147483648) :
    castToInt q = some ⌊q⌋ := by
  rw [← truncToInt_eq_floor h0]
  apply castToInt_of_range
  · rw [truncToInt_eq_floor h0]
    have : (0 : ℤ) ≤ ⌊q⌋ := Int.floor_nonneg.2 h0
    show (-2147483648 : ℤ) ≤ ⌊q⌋
    omega
  · rw [truncToInt_eq_floor h0]
    have : ⌊q⌋ < 2147483648 := by
      rw [Int.floor_lt]
      exact_mod_cast h1
    show ⌊q⌋ ≤ (2147483647 : ℤ)
    omega

/-- A defined cast of a non-negative value shows that the value is below 2^31. -/
theorem lt_of_castToInt {q : ℚ} (h0 : 0 ≤ q) (h : castToInt q ≠ none) : q < 2147483648 := by
  obtain ⟨t, ht⟩ := Option.ne_none_iff_exists'.1 h
  obtain ⟨e, _, r2⟩ := castToInt_some ht
  rw [truncToInt_eq_floor h0] at e
  have h1 : q < (⌊q⌋ : ℚ) + 1 := Int.lt_floor_add_one q
  have h2 : (⌊q⌋ : ℚ) ≤ 2147483647 := by
    rw [← e]
    exact_mod_cast r2
  linarith

/-- The cast of `2^28 * 8 = 2^31` is undefined. -/
theorem castToInt_two_pow_31 :
    castToInt ((268435456 : ℚ) * ((DEFAULT_NUM_BUCKETS : ℕ) : ℚ)) = none := by
  have e : (268435456 : ℚ) * ((DEFAULT_NUM_BUCKETS : ℕ) : ℚ) = ((2147483648 : ℤ) : ℚ) := by
    norm_num [DEFAULT_NUM_BUCKETS]
  have ht : truncToInt ((268435456 : ℚ) * ((DEFAULT_NUM_BUCKETS : ℕ) : ℚ)) = 2147483648 := by
    rw [truncToInt_eq_floor (by norm_num [DEFAULT_NUM_BUCKETS]), e, Int.floor_intCast]
  unfold castToInt
  rw [ht]
  have : ¬ (INT_MIN ≤ (2147483648 : ℤ) ∧ (2147483648 : ℤ) ≤ INT_MAX) := by decide
  rw [if_neg this]

theorem construct_maxLoadFactor_of_nonneg {lf : ℚ} (h : 0 ≤ lf) :
    (construct lf : ExpandableHashMap K V).m_maxLoadFactor = lf := by
  show (if lf < 0 then 1 / 2 else lf) = lf
  rw [if_neg (not_lt.2 h)]

/-- Counterexample to C3 as stated: for the load factor 2^28 = 268435456 the value the
claim gives to `maxNumItems` after `reset`, `floor(2^28 * 8) = 2^31`, is above `INT_MAX`,
and the cast `(int) (m_maxLoadFactor * m_numBuckets)` of `reset` is undefined; so is the
cast of the constructor, which is why no defined state has this load factor. -/
theorem reset_cast_undefined :
    ((construct 268435456 : ExpandableHashMap Nat Nat).m_maxLoadFactor = 268435456) ∧
    resetChecked (construct 268435456 : ExpandableHashMap Nat Nat) = none ∧
    INT_MAX < ⌊(268435456 : ℚ) * 8⌋ := by
  have hl := construct_maxLoadFactor_of_nonneg (K := Nat) (V := Nat)
    (show (0 : ℚ) ≤ 268435456 by norm_num)
  refine ⟨hl, ?_, ?_⟩
  · unfold resetChecked
    rw [hl, castToInt_two_pow_31]
  · have : (268435456 : ℚ) * 8 = ((2147483648 : ℤ) : ℚ) := by norm_num
    rw [this, Int.floor_intCast]
    decide

/-- C3, as amended: in every state that the map reaches through calls whose `int`
arithmetic is defined (the max load factor is then below 2^28), `reset()` is defined and
gives exactly the state of the constructor for the same load factor: 8 buckets, no items,
`maxNumItems = floor(maxLoadFactor * 8)`, every `find` not-found, load factor unchanged. -/
theorem reset_eq_fresh_defined (hasher : K → Nat) (m : ExpandableHashMap K V)
    (hm : Defined hasher m) :
    m.m_maxLoadFactor < 2 ^ 28 ∧
    resetChecked m = some (reset m) ∧
    constructChecked m.m_maxLoadFactor = some (reset m) ∧
    (reset m).m_numBuckets = 8 ∧
    (reset m).m_numItems = 0 ∧
    (reset m).m_maxNumItems = ⌊m.m_maxLoadFactor * 8⌋ ∧
    (∀ k, find hasher (reset m) k = none) ∧
    (reset m).m_maxLoadFactor = m.m_maxLoadFactor := by
  obtain ⟨hr, hw, _, hc⟩ := hm.inv
  have hlf := hw.lf
  have hnot : ¬ m.m_maxLoadFactor < 0 := not_lt.2 hlf
  have h8 : m.m_maxLoadFactor * (DEFAULT_NUM_BUCKETS : ℚ) < 2147483648 :=
    lt_of_castToInt (mul_nonneg hlf (by norm_num [DEFAULT_NUM_BUCKETS])) hc
  have hfresh : reset m = construct m.m_maxLoadFactor := by
    simp only [reset, construct, hnot, if_false]
  refine ⟨?_, ?_, ?_, rfl, rfl, ?_, ?_, rfl⟩
  · have e : ((DEFAULT_NUM_BUCKETS : ℕ) : ℚ) = 8 := by norm_num [DEFAULT_NUM_BUCKETS]
    rw [e] at h8
    norm_num
    linarith
  · cases hres : resetChecked m with
    | some m1 => rw [(resetChecked_eq hres).1]
    | none =>
      exfalso
      unfold resetChecked at hres
      split at hres
      · rename_i hn; exact hc hn
      · simp at hres
  · cases hcon : (constructChecked m.m_maxLoadFactor : Option (ExpandableHashMap K V)) with
    | some m1 => rw [(constructChecked_eq hcon).1, hfresh]
    | none =>
      exfalso
      unfold constructChecked at hcon
      simp only [hnot, if_false] at hcon
      split at hcon
      · rename_i hn; exact hc hn
      · simp at hcon
  · show truncToInt (m.m_maxLoadFactor * (DEFAULT_NUM_BUCKETS : ℚ)) = _
    rw [truncToInt_eq_floor (by positivity)]
    simp [DEFAULT_NUM_BUCKETS]
  · intro k
    exact tableFind_replicate_nil hasher DEFAULT_NUM_BUCKETS k

theorem fourItems_defined : Defined (fun k => k) fourItems :=
  Defined.afterCalls [(1, 10), (9, 90), (3, 30), (4, 40)]
    (Defined.construct (1 / 2)
      (show constructChecked (1 / 2) = some (construct (1 / 2)) by with_unfolding_all decide))
    (show associateAllChecked (fun k => k) (some (construct (1 / 2)))
        [(1, 10), (9, 90), (3, 30), (4, 40)] = some fourItems by with_unfolding_all decide)

/-- Witness of C3 as amended: `reset` of the map `fourItems`, which is reached through
defined calls. -/
theorem reset_eq_fresh_defined_witness :
    fourItems.m_numItems = 4 ∧
    resetChecked fourItems = some (reset fourItems) ∧
    (reset fourItems).m_numBuckets = 8 ∧
    (reset fourItems).m_numItems = 0 ∧
    (reset fourItems).m_maxNumItems = 4 :=
  have h := reset_eq_fresh_defined (fun k => k) fourItems fourItems_defined
  ⟨by with_unfolding_all decide, h.2.1, h.2.2.2.1, h.2.2.2.2.1, by with_unfolding_all decide⟩

end ExpandableHashMap

namespace ExpandableHashMap

variable {K V : Type} [DecidableEq K]

/-- Counterexample to C5 as stated: the state after 27 distinct keys at load factor 0 is
reached through defined calls and holds 27 items in 2^30 buckets; key 27 is absent and
`numItems + 1 > floor(maxLoadFactor * numBuckets) = 0`, so the claim has `associate`
double the bucket count to 2^31, which is above `INT_MAX`: the call evaluates
`m_numBuckets * 2` with overflow and has no defined result. -/
theorem doubling_overflows_int :
    Defined (fun k => k) (associateAll (fun k => k) (construct 0) (distinctKeys 27)) ∧
    find (fun k => k) (associateAll (fun k => k) (construct 0) (distinctKeys 27)) 27 = none ∧
    ((associateAll (fun k => k) (construct 0) (distinctKeys 27)).m_numItems : Int) + 1
      > ⌊(associateAll (fun k => k) (construct 0) (distinctKeys 27)).m_maxLoadFactor
          * ((associateAll (fun k => k) (construct 0) (distinctKeys 27)).m_numBuckets : ℚ)⌋ ∧
    2 * (associateAll (fun k => k) (construct 0) (distinctKeys 27)).m_numBuckets = 2147483648 ∧
    INT_MAX < 2147483648 ∧
    associateChecked (fun k => k)
      (associateAll (fun k => k) (construct 0) (distinctKeys 27)) 27 27 = none := by
  obtain ⟨w, l, b, i, f⟩ := zeroLoad_state 27
  have hc := zeroLoad_checked 27 (le_refl 27)
  rw [constructChecked_zero] at hc
  refine ⟨Defined.afterCalls (distinctKeys 27) (Defined.construct 0 constructChecked_zero) hc,
    f 27 (le_refl 27), ?_, ?_, by decide, zeroLoad_overflow⟩
  · rw [l, i]
    simp
  · rw [b]
    norm_num

/-- C5, as amended: in a state reached through defined calls, an `associate` of an absent
key whose `int` arithmetic is defined doubles the bucket count exactly once when
`numItems + 1 > floor(maxLoadFactor * numBuckets)` and leaves it unchanged otherwise, the
item count grows by exactly one, and the new state is again reached through defined
calls; `associate` of a present key is always defined and, like a write through `find`,
leaves the bucket count unchanged. -/
theorem growth_lazy_doubling_defined (hasher : K → Nat) (m : ExpandableHashMap K V)
    (hm : Defined hasher m) (k : K) (v : V) (hk : find hasher m k = none)
    (m1 : ExpandableHashMap K V) (h : associateChecked hasher m k v = some m1) :
    m1.m_numBuckets
      = (if (m.m_numItems : Int) + 1 > ⌊m.m_maxLoadFactor * (m.m_numBuckets : ℚ)⌋
          then 2 * m.m_numBuckets else m.m_numBuckets) ∧
    m1.m_numItems = m.m_numItems + 1 ∧
    (m1.m_numBuckets : Int) ≤ INT_MAX ∧
    Defined hasher m1 ∧
    (∀ k' v', find hasher m k' ≠ none →
      ∃ m2, associateChecked hasher m k' v' = some m2 ∧ m2.m_numBuckets = m.m_numBuckets) ∧
    (∀ k' f, (modifyValue hasher m k' f).m_numBuckets = m.m_numBuckets) := by
  obtain ⟨_, hw, _, _⟩ := hm.inv
  have hd : Defined hasher m1 := Defined.associate k v hm h
  have e := associateChecked_eq h
  obtain ⟨c1, _, c3⟩ := associate_absent_counts hw k v hk
  refine ⟨?_, by rw [e, c1], hd.inv.2.2.1.numBuckets, hd, ?_, fun _ _ => rfl⟩
  · rw [e, c3, ← hw.maxItems_floor, Nat.mul_comm]
  · intro k' v' hk'
    refine ⟨modifyValue hasher m k' (fun _ => v'), ?_, rfl⟩
    unfold associateChecked associateHelperChecked
    cases hf : find hasher m k' with
    | none => exact absurd hf hk'
    | some v0 => rfl

/-- Witness of C5 as amended: `fourItems` holds 4 items with `m_maxNumItems = 4`;
associating the absent key `5` is defined, doubles the 8 buckets to 16 and makes the item
count 5. -/
theorem growth_lazy_doubling_defined_witness :
    find (fun k => k) fourItems 5 = none ∧
    fourItems.m_numBuckets = 8 ∧
    associateChecked (fun k => k) fourItems 5 50
      = some (associate (fun k => k) fourItems 5 50) ∧
    (associate (fun k => k) fourItems 5 50).m_numBuckets = 16 ∧
    (associate (fun k => k) fourItems 5 50).m_numItems = fourItems.m_numItems + 1 :=
  ⟨by with_unfolding_all decide, by with_unfolding_all decide, by with_unfolding_all decide,
    by with_unfolding_all decide,
    (growth_lazy_doubling_defined (fun k => k) fourItems fourItems_defined 5 50
      (by with_unfolding_all decide) (associate (fun k => k) fourItems 5 50)
      (by with_unfolding_all decide)).2.1⟩

/-- Counterexample to C21 as stated: for the load factor 2^28 = 268435456 the constructor
evaluates `(int) (2^28 * 8)`; the value `floor(2^28 * 8) = 2^31` that the invariant gives
to `m_maxNumItems` is above `INT_MAX`, so the cast is undefined and no `int` member can
hold the value: the constructor does not establish the invariant. -/
theorem constructor_cast_undefined :
    (constructChecked 268435456 : Option (ExpandableHashMap Nat Nat)) = none ∧
    ⌊(268435456 : ℚ) * 8⌋ = 2147483648 ∧ INT_MAX < 2147483648 := by
  refine ⟨?_, ?_, by decide⟩
  · unfold constructChecked
    have hn : ¬ ((268435456 : ℚ) < 0) := by norm_num
    simp only [hn, if_false]
    rw [castToInt_two_pow_31]
  · have : (268435456 : ℚ) * 8 = ((2147483648 : ℤ) : ℚ) := by norm_num
    rw [this, Int.floor_intCast]

/-- C21, as amended: the structural invariant `WF`, with `int` members in range, holds
after every constructor call that is defined (every load factor below 2^28 is one) and is
kept by every `associate`, `expandHashMap` and `reset` that is defined; in a state with
the invariant every entry lies in the bucket `getBucketNumber(key, numBuckets)`, no key
occurs in more than one entry of the table, `m_numItems` is the total number of chain
entries, `m_numBuckets` is `8 * 2^k` for some `k`, and
`m_maxNumItems = floor(m_maxLoadFactor * m_numBuckets)`. -/
theorem structural_invariant_defined (hasher : K → Nat) (maximumLoadFactor : ℚ)
    (m : ExpandableHashMap K V) (h : WF hasher m) (hi : IntFields m) (key : K) (value : V) :
    (maximumLoadFactor < 268435456 →
      ∃ m0 : ExpandableHashMap K V, constructChecked maximumLoadFactor = some m0) ∧
    (∀ m0 : ExpandableHashMap K V, constructChecked maximumLoadFactor = some m0 →
      WF hasher m0 ∧ IntFields m0) ∧
    (∀ m1, associateChecked hasher m key value = some m1 → WF hasher m1 ∧ IntFields m1) ∧
    (∀ m1, expandHashMapChecked hasher m = some m1 → WF hasher m1 ∧ IntFields m1) ∧
    (∀ m1, resetChecked m = some m1 → WF hasher m1 ∧ IntFields m1) ∧
    (∀ i, ∀ n ∈ m.m_hashMap.getD i [], i = getBucketNumber hasher n.key m.m_numBuckets) ∧
    (m.m_hashMap.flatten.map Node.key).Nodup ∧
    m.m_numItems = m.m_hashMap.flatten.length ∧
    (∃ k : Nat, m.m_numBuckets = 8 * 2 ^ k) ∧
    m.m_maxNumItems = ⌊m.m_maxLoadFactor * (m.m_numBuckets : ℚ)⌋ := by
  refine ⟨?_, fun m0 h0 => constructChecked_inv hasher h0,
    fun m1 h1 => associateChecked_inv h hi h1,
    fun m1 h1 => expandHashMapChecked_inv h hi h1,
    fun m1 h1 => resetChecked_inv h h1, ?_, ?_, ?_, h.pow, h.maxItems_floor⟩
  · intro hlt
    have hlf0 : (0 : ℚ) ≤ (if maximumLoadFactor < 0 then 1 / 2 else maximumLoadFactor) := by
      split
      · norm_num
      · linarith
    have hlf1 : (if maximumLoadFactor < 0 then 1 / 2 else maximumLoadFactor) < 268435456 := by
      split
      · norm_num
      · exact hlt
    have hc := castToInt_of_lt (q := (if maximumLoadFactor < 0 then 1 / 2
        else maximumLoadFactor) * ((DEFAULT_NUM_BUCKETS : ℕ) : ℚ))
      (mul_nonneg hlf0 (by norm_num [DEFAULT_NUM_BUCKETS]))
      (by
        have e : ((DEFAULT_NUM_BUCKETS : ℕ) : ℚ) = 8 := by norm_num [DEFAULT_NUM_BUCKETS]
        rw [e]
        linarith)
    unfold constructChecked
    simp only
    rw [hc]
    exact ⟨_, rfl⟩
  · intro i n hn
    exact (h.table.bucket i n hn).symm
  · have := h.table.keys_nodup
    unfold chainKeys at this
    rwa [List.map_flatten]
  · rw [h.count, List.length_flatten]
    rfl

theorem fourItems_intFields : IntFields fourItems :=
  fourItems_defined.inv.2.2.1

/-- Witness of C21 as amended: the map `fourItems` has the invariant with `int` members in
range, and so has the map after `associate(5, 50)`, which is defined and expands it. -/
theorem structural_invariant_defined_witness :
    WF (fun k => k) fourItems ∧ IntFields fourItems ∧
    associateChecked (fun k => k) fourItems 5 50
      = some (associate (fun k => k) fourItems 5 50) ∧
    WF (fun k => k) (associate (fun k => k) fourItems 5 50) ∧
    (fourItems.m_hashMap.flatten.map Node.key).Nodup ∧
    fourItems.m_numItems = fourItems.m_hashMap.flatten.length :=
  have h := structural_invariant_defined (fun k => k) (1 / 2) fourItems fourItems_reachable.wf
    fourItems_intFields 5 50
  ⟨fourItems_reachable.wf, fourItems_intFields, by with_unfolding_all decide,
    (h.2.2.1 (associate (fun k => k) fourItems 5 50) (by with_unfolding_all decide)).1,
    h.2.2.2.2.2.2.1, h.2.2.2.2.2.2.2.1⟩

end ExpandableHashMap
